import Mathlib

/-!
# Calcium `qqbar_div`: the division dispatcher for algebraic numbers

A shallow embedding of `src/qqbar/div.c`.  An algebraic number is a pair
(coefficient list of the minimal polynomial, complex enclosure); enclosures
are midpoint/radius balls with rational data (infinities and NaN left out).
The combinators that `qqbar_div` delegates to live in other files of the
library; they are fields of `QqbarOps`, and their contracts (section 7 of
the specification: a call yields an exactly correct algebraic number) are
stated per call in `ContractAt`.
-/

open Polynomial

namespace Calcium

/-! ## Data model -/

/-- Real ball `[mid - rad, mid + rad]` of the enclosure arithmetic. -/
structure arb where
  mid : ℚ
  rad : ℚ
  deriving DecidableEq

/-- Complex box: independent balls for the real and the imaginary part. -/
structure acb where
  real : arb
  imag : arb
  deriving DecidableEq

/-- An algebraic number: coefficients of the minimal polynomial (index 0 is
the constant coefficient) and the isolating enclosure. -/
structure qqbar where
  poly : List ℤ
  enclosure : acb
  deriving DecidableEq

/-- A rational as a raw numerator/denominator pair, as written field by field
in the radical branch. -/
structure fmpq where
  num : ℤ
  den : ℤ
  deriving DecidableEq

/-! ## Primitives used by the dispatcher -/

/-- Enclosure predicate: the ball contains zero. -/
def arb_contains_zero (x : arb) : Bool := decide (|x.mid| ≤ x.rad)

/-- Enclosure predicate: every point of the ball is strictly positive. -/
def arb_is_positive (x : arb) : Bool := decide (x.rad < x.mid)

/-- Accessor `QQBAR_COEFFS(x)[i]`. -/
def QQBAR_COEFFS (x : qqbar) (i : ℕ) : ℤ := x.poly.getD i 0

/-- Modelled from the spec: the accessor macro `qqbar_degree` of the absent
header, the degree of the minimal polynomial (one less than the number of
coefficients). -/
def qqbar_degree (x : qqbar) : ℕ := x.poly.length - 1

/-- Modelled from the spec: the absent header predicate `qqbar_is_rational`,
degree 1 if and only if the number is rational. -/
def qqbar_is_rational (x : qqbar) : Bool := x.poly.length == 2

/-- Modelled from the spec: the absent header predicate `qqbar_is_zero`, the
degree-1 pattern `(b, a) = (0, 1)` for `-b/a = 0`. -/
def qqbar_is_zero (x : qqbar) : Bool := x.poly == [0, 1]

/-- Modelled from the spec: the absent header predicate `qqbar_is_one`, the
degree-1 pattern `(b, a) = (-1, 1)` for `-b/a = 1`. -/
def qqbar_is_one (x : qqbar) : Bool := x.poly == [-1, 1]

/-- Modelled from the spec: the absent header predicate `qqbar_is_neg_one`,
the degree-1 pattern `(b, a) = (1, 1)` for `-b/a = -1`. -/
def qqbar_is_neg_one (x : qqbar) : Bool := x.poly == [1, 1]

/-- Vector test `_fmpz_vec_is_zero(QQBAR_COEFFS(x) + 1, qqbar_degree(x) - 1)`:
the coefficients strictly between the constant and the leading one vanish. -/
def middle_is_zero (x : qqbar) : Bool :=
  ((x.poly.drop 1).take (qqbar_degree x - 1)).all (fun c => c == 0)

/-- Integer power of a raw fraction with a nonnegative exponent
(`fmpq_pow_si` with `e >= 0`): both parts are raised to the power. -/
def fmpq_pow_si (t : fmpq) (k : ℕ) : fmpq := ⟨t.num ^ k, t.den ^ k⟩

/-- Value of a raw fraction. -/
def fmpq.toRat (t : fmpq) : ℚ := (t.num : ℚ) / (t.den : ℚ)

/-- Exact rational division `fmpq_div`: the quotient in canonical form
(positive denominator, lowest terms). -/
def fmpq_div (t u : fmpq) : fmpq :=
  ⟨(t.toRat / u.toRat).num, ((t.toRat / u.toRat).den : ℤ)⟩

/-- Greatest common divisor of two machine words, `n_gcd`. -/
def n_gcd (d e : ℕ) : ℕ := Nat.gcd d e

/-- Modelled from the spec: the absent constructor `qqbar_zero`, the rational
zero with coefficients `(0, 1)` and the exact enclosure `0`. -/
def qqbar_zero : qqbar := ⟨[0, 1], ⟨⟨0, 0⟩, ⟨0, 0⟩⟩⟩

/-- Modelled from the spec: the absent constructor `qqbar_one`, the rational
one with coefficients `(-1, 1)` and the exact enclosure `1`. -/
def qqbar_one : qqbar := ⟨[-1, 1], ⟨⟨1, 0⟩, ⟨0, 0⟩⟩⟩

/-- Modelled from the spec: the absent `qqbar_set`, an in-place set that
replaces the (coefficients, enclosure) pair by a copy. -/
def qqbar_set (x : qqbar) : qqbar := x

/-- The combinators the dispatcher delegates to, all defined in files of the
library other than `div.c`. -/
structure QqbarOps where
  qqbar_inv : qqbar → qqbar
  qqbar_neg : qqbar → qqbar
  qqbar_scalar_op : qqbar → ℤ → ℤ → ℤ → qqbar
  qqbar_fmpq_root_ui : fmpq → ℕ → qqbar
  qqbar_binary_op : qqbar → qqbar → ℤ → qqbar

/-- A call made by the dispatcher, with the values of its arguments. -/
inductive Call where
  | flint_abort
  | qqbar_zero
  | qqbar_set (x : qqbar)
  | qqbar_inv (x : qqbar)
  | qqbar_neg (x : qqbar)
  | qqbar_scalar_op (x : qqbar) (a b c : ℤ)
  | qqbar_fmpq_root_ui (t : fmpq) (f : ℕ)
  | qqbar_binary_op (x y : qqbar) (op : ℤ)
  deriving DecidableEq

/-- Outcome of a run: the calls made, in order, and the value left in `res`
(`none` when the run ended in `flint_abort` and `res` was never written). -/
structure Run where
  calls : List Call
  res : Option qqbar

/-- The call is a call of the scalar transform `qqbar_scalar_op`. -/
def Call.is_scalar_op : Call → Bool
  | Call.qqbar_scalar_op _ _ _ _ => true
  | _ => false

/-- The radical-branch guard of `qqbar_div` (lines 78-83). -/
def radical_guard (x y : qqbar) : Bool :=
  middle_is_zero x && middle_is_zero y &&
  decide (QQBAR_COEFFS x 0 < 0) && decide (QQBAR_COEFFS y 0 < 0) &&
  arb_contains_zero x.enclosure.imag && arb_is_positive x.enclosure.real &&
  arb_contains_zero y.enclosure.imag && arb_is_positive y.enclosure.real

/-- The dispatcher `qqbar_div(res, x, y)` on values. -/
def qqbar_div (O : QqbarOps) (x y : qqbar) : Run :=
  if qqbar_is_zero y then
    ⟨[Call.flint_abort], none⟩
  else if qqbar_is_zero x then
    ⟨[Call.qqbar_zero], some qqbar_zero⟩
  else if qqbar_is_one x then
    ⟨[Call.qqbar_inv y], some (O.qqbar_inv y)⟩
  else if qqbar_is_one y then
    ⟨[Call.qqbar_set x], some (qqbar_set x)⟩
  else if qqbar_is_neg_one x then
    let res := O.qqbar_inv y
    ⟨[Call.qqbar_inv y, Call.qqbar_neg res], some (O.qqbar_neg res)⟩
  else if qqbar_is_neg_one y then
    ⟨[Call.qqbar_neg x], some (O.qqbar_neg x)⟩
  else if qqbar_is_rational y then
    let b : ℤ := 0
    let c : ℤ := -QQBAR_COEFFS y 0
    let a : ℤ := QQBAR_COEFFS y 1
    ⟨[Call.qqbar_scalar_op x a b c], some (O.qqbar_scalar_op x a b c)⟩
  else if qqbar_is_rational x then
    let b : ℤ := 0
    let a : ℤ := -QQBAR_COEFFS x 0
    let c : ℤ := QQBAR_COEFFS x 1
    let res := O.qqbar_inv y
    ⟨[Call.qqbar_inv y, Call.qqbar_scalar_op res a b c],
      some (O.qqbar_scalar_op res a b c)⟩
  else if radical_guard x y then
    let d := qqbar_degree x
    let e := qqbar_degree y
    let g := n_gcd d e
    let f := ((d / g) * e) % 2 ^ 64
    let t : fmpq := ⟨-QQBAR_COEFFS x 0, QQBAR_COEFFS x d⟩
    let u : fmpq := ⟨-QQBAR_COEFFS y 0, QQBAR_COEFFS y e⟩
    let t := fmpq_pow_si t (e / g)
    let u := fmpq_pow_si u (d / g)
    let t := fmpq_div t u
    ⟨[Call.qqbar_fmpq_root_ui t f], some (O.qqbar_fmpq_root_ui t f)⟩
  else
    ⟨[Call.qqbar_binary_op x y 3], some (O.qqbar_binary_op x y 3)⟩

/-- Index `f` of the root extracted in the radical branch (lines 90-93). -/
def radical_f (x y : qqbar) : ℕ :=
  ((qqbar_degree x / n_gcd (qqbar_degree x) (qqbar_degree y)) * qqbar_degree y) % 2 ^ 64

/-- Rational `t` handed to the root extraction in the radical branch
(lines 98-105). -/
def radical_t (x y : qqbar) : fmpq :=
  fmpq_div
    (fmpq_pow_si ⟨-QQBAR_COEFFS x 0, QQBAR_COEFFS x (qqbar_degree x)⟩
      (qqbar_degree y / n_gcd (qqbar_degree x) (qqbar_degree y)))
    (fmpq_pow_si ⟨-QQBAR_COEFFS y 0, QQBAR_COEFFS y (qqbar_degree y)⟩
      (qqbar_degree x / n_gcd (qqbar_degree x) (qqbar_degree y)))

/-! ## Storage-level embedding (result storage may alias an operand) -/

/-- A store of algebraic-number cells, addressed by pointer. -/
abbrev Store := ℕ → qqbar

/-- Write a whole (coefficients, enclosure) pair into a cell. -/
def Store.write (s : Store) (p : ℕ) (v : qqbar) : Store := Function.update s p v

/-- The dispatcher `qqbar_div(res, x, y)` on storage: `res`, `x`, `y` are
pointers which may coincide.  Every statement of the source is kept in its
order; a callee reads its operand cells and then overwrites its result cell.
`none` is the run that ends in `flint_abort`. -/
def qqbar_div_st (O : QqbarOps) (res x y : ℕ) (s : Store) : Option Store :=
  if qqbar_is_zero (s y) then
    none
  else if qqbar_is_zero (s x) then
    some (s.write res qqbar_zero)
  else if qqbar_is_one (s x) then
    some (s.write res (O.qqbar_inv (s y)))
  else if qqbar_is_one (s y) then
    some (s.write res (qqbar_set (s x)))
  else if qqbar_is_neg_one (s x) then
    let s1 := s.write res (O.qqbar_inv (s y))
    some (s1.write res (O.qqbar_neg (s1 res)))
  else if qqbar_is_neg_one (s y) then
    some (s.write res (O.qqbar_neg (s x)))
  else if qqbar_is_rational (s y) then
    let b : ℤ := 0
    let c : ℤ := -QQBAR_COEFFS (s y) 0
    let a : ℤ := QQBAR_COEFFS (s y) 1
    some (s.write res (O.qqbar_scalar_op (s x) a b c))
  else if qqbar_is_rational (s x) then
    let b : ℤ := 0
    let a : ℤ := -QQBAR_COEFFS (s x) 0
    let c : ℤ := QQBAR_COEFFS (s x) 1
    let s1 := s.write res (O.qqbar_inv (s y))
    some (s1.write res (O.qqbar_scalar_op (s1 res) a b c))
  else if radical_guard (s x) (s y) then
    let d := qqbar_degree (s x)
    let e := qqbar_degree (s y)
    let g := n_gcd d e
    let f := ((d / g) * e) % 2 ^ 64
    let t : fmpq := ⟨-QQBAR_COEFFS (s x) 0, QQBAR_COEFFS (s x) d⟩
    let u : fmpq := ⟨-QQBAR_COEFFS (s y) 0, QQBAR_COEFFS (s y) e⟩
    let t := fmpq_pow_si t (e / g)
    let u := fmpq_pow_si u (d / g)
    let t := fmpq_div t u
    some (s.write res (O.qqbar_fmpq_root_ui t f))
  else
    some (s.write res (O.qqbar_binary_op (s x) (s y) 3))

/-! ## Denotation: the number an (coefficients, enclosure) pair stands for -/

/-- Value of a coefficient list at a point (Horner form). -/
def evalPoly {R : Type} [CommRing R] : List ℤ → R → R
  | [], _ => 0
  | c :: cs, z => (c : R) + z * evalPoly cs z

/-- Content of a coefficient list: the gcd of all coefficients. -/
def content (cs : List ℤ) : ℕ := cs.foldr (fun c g => Nat.gcd c.natAbs g) 0

/-- A real number lies in a ball. -/
def arb_contains (b : arb) (t : ℝ) : Prop := |t - (b.mid : ℝ)| ≤ (b.rad : ℝ)

/-- A complex number lies in a box. -/
def acb_contains (b : acb) (z : ℂ) : Prop :=
  arb_contains b.real z.re ∧ arb_contains b.imag z.im

/-- The number `z` is a root of the polynomial of `x` inside the enclosure
of `x`. -/
def Represents (x : qqbar) (z : ℂ) : Prop :=
  evalPoly x.poly z = 0 ∧ acb_contains x.enclosure z

/-- Lowest degree: no nonzero integer polynomial with fewer coefficients has
`z` as a root. -/
def IsMinimalFor (cs : List ℤ) (z : ℂ) : Prop :=
  ∀ q : ℤ[X], q ≠ 0 → aeval z q = 0 → cs.length ≤ q.natDegree + 1

/-- Modelled from the spec: the data-model invariants of section 3, which the
absent constructors maintain.  Degree at least 1, a coefficient count that
fits the signed machine word holding it, content 1, positive leading
coefficient, and an enclosure containing exactly one root of the polynomial,
of which the polynomial is the minimal polynomial. -/
structure WellFormed (x : qqbar) : Prop where
  deg_pos : 2 ≤ x.poly.length
  word : x.poly.length < 2 ^ 63
  content_one : content x.poly = 1
  lead_pos : 0 < QQBAR_COEFFS x (qqbar_degree x)
  isolates : ∃ z, Represents x z ∧ (∀ w, Represents x w → w = z) ∧ IsMinimalFor x.poly z

/-- Modelled from the spec: a combinator call "yields an exactly correct
algebraic number" (section 7): the result is well formed and stands for `v`. -/
def Computes (r : qqbar) (v : ℂ) : Prop := WellFormed r ∧ Represents r v

/-- Modelled from the spec: the contract of each absent combinator, at one
call.  Inversion yields `1/z`, negation `-z`, the scalar transform
`(a z + b)/c` for `c` nonzero, the root extraction the positive real `f`-th
root of a positive canonical rational, and the resultant combinator with
operation tag 3 the quotient by a nonzero divisor. -/
def ContractAt (O : QqbarOps) : Call → Prop
  | Call.flint_abort => True
  | Call.qqbar_zero => True
  | Call.qqbar_set _ => True
  | Call.qqbar_inv x =>
      ∀ z : ℂ, WellFormed x → Represents x z → z ≠ 0 → Computes (O.qqbar_inv x) z⁻¹
  | Call.qqbar_neg x =>
      ∀ z : ℂ, WellFormed x → Represents x z → Computes (O.qqbar_neg x) (-z)
  | Call.qqbar_scalar_op x a b c =>
      ∀ z : ℂ, WellFormed x → Represents x z → c ≠ 0 →
        Computes (O.qqbar_scalar_op x a b c) (((a : ℂ) * z + (b : ℂ)) / (c : ℂ))
  | Call.qqbar_fmpq_root_ui t f =>
      ∀ r : ℝ, 0 < f → 0 < t.den → Int.gcd t.num t.den = 1 → 0 < r →
        r ^ f = ((t.toRat : ℚ) : ℝ) → Computes (O.qqbar_fmpq_root_ui t f) (r : ℂ)
  | Call.qqbar_binary_op x y op =>
      op = 3 → ∀ zx zy : ℂ, WellFormed x → Represents x zx → WellFormed y →
        Represents y zy → zy ≠ 0 → Computes (O.qqbar_binary_op x y op) (zx / zy)

/-! ## A concrete instance of the combinators, exact on rational operands -/

/-- Modelled from the spec: rational injection `qqbar_set_fmpq`, coefficients
`(b, a) = (-num, den)` for the value `num/den`, with an exact enclosure. -/
def qqbar_set_fmpq (t : fmpq) : qqbar :=
  ⟨[-t.num, t.den], ⟨⟨t.toRat, 0⟩, ⟨0, 0⟩⟩⟩

/-- Canonical numerator/denominator pair of a rational. -/
def fmpq_of_rat (v : ℚ) : fmpq := ⟨v.num, (v.den : ℤ)⟩

/-- Value `-b/a` of the degree-1 coefficient pair `(b, a)`. -/
def rat_value (x : qqbar) : ℚ := -(QQBAR_COEFFS x 0 : ℚ) / (QQBAR_COEFFS x 1 : ℚ)

/-- Exact `f`-th root of a natural number by search (0 when there is none). -/
def iroot (n f : ℕ) : ℕ := ((List.range (n + 1)).filter (fun k => k ^ f == n)).headD 0

/-- Combinators computed by exact rational arithmetic on degree-1 operands
(and roots of perfect powers); used as the concrete instance in examples. -/
def ratOps : QqbarOps where
  qqbar_inv x := qqbar_set_fmpq (fmpq_of_rat (rat_value x)⁻¹)
  qqbar_neg x := qqbar_set_fmpq (fmpq_of_rat (-(rat_value x)))
  qqbar_scalar_op x a b c := qqbar_set_fmpq (fmpq_of_rat ((a * rat_value x + b) / c))
  qqbar_fmpq_root_ui t f := qqbar_set_fmpq ⟨iroot t.num.toNat f, iroot t.den.toNat f⟩
  qqbar_binary_op x y _ := qqbar_set_fmpq (fmpq_of_rat (rat_value x / rat_value y))

/-! ## Concrete operands used in the examples -/

/-- The number `sqrt 2`: minimal polynomial `X^2 - 2`, enclosure `[1.412, 1.416]`. -/
def sqrt2 : qqbar := ⟨[-2, 0, 1], ⟨⟨707 / 500, 1 / 500⟩, ⟨0, 0⟩⟩⟩

/-- A root of `X^8 - 2` off the real axis, `2^(1/8) (1 + i) / sqrt 2`, about
`0.771 + 0.771 i`, with the enclosure `[0.7, 0.8] + [-0.1, 0.9] i`, which
holds no other root of the polynomial. -/
def x8 : qqbar := ⟨[-2, 0, 0, 0, 0, 0, 0, 0, 1], ⟨⟨3 / 4, 1 / 20⟩, ⟨2 / 5, 1 / 2⟩⟩⟩

/-- The number `sqrt 8`: minimal polynomial `X^2 - 8`, enclosure `[2.6, 3.0]`. -/
def sqrt8 : qqbar := ⟨[-8, 0, 1], ⟨⟨14 / 5, 1 / 5⟩, ⟨0, 0⟩⟩⟩

/-- The number `sqrt 3`: minimal polynomial `X^2 - 3`, enclosure `[1.730, 1.734]`. -/
def sqrt3 : qqbar := ⟨[-3, 0, 1], ⟨⟨433 / 250, 1 / 500⟩, ⟨0, 0⟩⟩⟩

/-- The positive real `d`-th root of 2: minimal polynomial `X^d - 2`,
enclosure `[1, 2]` on the real axis. -/
def root_of_two (d : ℕ) : qqbar :=
  ⟨-2 :: (List.replicate (d - 1) 0 ++ [1]), ⟨⟨3 / 2, 1 / 2⟩, ⟨0, 0⟩⟩⟩

/-- The number `1 / sqrt 2`: minimal polynomial `2 X^2 - 1`, enclosure
`[0.705, 0.709]`. -/
def inv_sqrt2 : qqbar := ⟨[-1, 0, 2], ⟨⟨707 / 1000, 1 / 500⟩, ⟨0, 0⟩⟩⟩

/-- Combinators that are exact on the two calls made when dividing the
rational 2 by `sqrt 2` (the inverse of `sqrt 2`, and twice that inverse), and
agree with `ratOps` elsewhere; used as the concrete instance in an example. -/
def sqrtOps : QqbarOps where
  qqbar_inv x := if x = sqrt2 then inv_sqrt2 else ratOps.qqbar_inv x
  qqbar_neg := ratOps.qqbar_neg
  qqbar_scalar_op x a b c :=
    if x = inv_sqrt2 ∧ a = 2 ∧ b = 0 ∧ c = 1 then sqrt2 else ratOps.qqbar_scalar_op x a b c
  qqbar_fmpq_root_ui := ratOps.qqbar_fmpq_root_ui
  qqbar_binary_op := ratOps.qqbar_binary_op

/-! ## The scalar wrappers (lines 120-198) -/

/-- Modelled from the spec: integer injection `qqbar_set_fmpz`, coefficients
`(b, a) = (-n, 1)` for the value `n`, with an exact enclosure. -/
def qqbar_set_fmpz (n : ℤ) : qqbar := ⟨[-n, 1], ⟨⟨n, 0⟩, ⟨0, 0⟩⟩⟩

/-- Modelled from the spec: injection `qqbar_set_ui` of an unsigned 64-bit
word. -/
def qqbar_set_ui (y : ℕ) : qqbar := qqbar_set_fmpz ((y % 2 ^ 64 : ℕ) : ℤ)

/-- Modelled from the spec: injection `qqbar_set_si` of a signed 64-bit
word. -/
def qqbar_set_si (y : ℤ) : qqbar := qqbar_set_fmpz ((y + 2 ^ 63) % 2 ^ 64 - 2 ^ 63)

/-- Wrapper `qqbar_div_fmpq(res, x, y)`: the local `t`, at an address of its
own, receives the injected `y`, then `qqbar_div(res, x, t)` runs. -/
def qqbar_div_fmpq (O : QqbarOps) (res x : ℕ) (y : fmpq) (t : ℕ) (s : Store) :
    Option Store :=
  let s1 := s.write t (qqbar_set_fmpq y)
  qqbar_div_st O res x t s1

/-- Wrapper `qqbar_div_fmpz(res, x, y)`. -/
def qqbar_div_fmpz (O : QqbarOps) (res x : ℕ) (y : ℤ) (t : ℕ) (s : Store) :
    Option Store :=
  let s1 := s.write t (qqbar_set_fmpz y)
  qqbar_div_st O res x t s1

/-- Wrapper `qqbar_div_ui(res, x, y)`. -/
def qqbar_div_ui (O : QqbarOps) (res x : ℕ) (y : ℕ) (t : ℕ) (s : Store) :
    Option Store :=
  let s1 := s.write t (qqbar_set_ui y)
  qqbar_div_st O res x t s1

/-- Wrapper `qqbar_div_si(res, x, y)`. -/
def qqbar_div_si (O : QqbarOps) (res x : ℕ) (y : ℤ) (t : ℕ) (s : Store) :
    Option Store :=
  let s1 := s.write t (qqbar_set_si y)
  qqbar_div_st O res x t s1

/-- Wrapper `qqbar_fmpq_div(res, x, y)`: the local `t` receives the injected
`x`, then `qqbar_div(res, t, y)` runs. -/
def qqbar_fmpq_div (O : QqbarOps) (res : ℕ) (x : fmpq) (y : ℕ) (t : ℕ) (s : Store) :
    Option Store :=
  let s1 := s.write t (qqbar_set_fmpq x)
  qqbar_div_st O res t y s1

/-- Wrapper `qqbar_fmpz_div(res, x, y)`. -/
def qqbar_fmpz_div (O : QqbarOps) (res : ℕ) (x : ℤ) (y : ℕ) (t : ℕ) (s : Store) :
    Option Store :=
  let s1 := s.write t (qqbar_set_fmpz x)
  qqbar_div_st O res t y s1

/-- Wrapper `qqbar_ui_div(res, x, y)`. -/
def qqbar_ui_div (O : QqbarOps) (res : ℕ) (x : ℕ) (y : ℕ) (t : ℕ) (s : Store) :
    Option Store :=
  let s1 := s.write t (qqbar_set_ui x)
  qqbar_div_st O res t y s1

/-- Wrapper `qqbar_si_div(res, x, y)`. -/
def qqbar_si_div (O : QqbarOps) (res : ℕ) (x : ℤ) (y : ℕ) (t : ℕ) (s : Store) :
    Option Store :=
  let s1 := s.write t (qqbar_set_si x)
  qqbar_div_st O res t y s1

/-! ## `fexpr_call1` (src/fexpr/call1.c) -/

/-- An expression object: the words allocated at `data`, one natural number
below `2 ^ 64` per word. -/
structure fexpr where
  data : List ℕ

/-- The declarations of `fexpr.h` used by `fexpr_call1`: the three header
constants, the size reader `fexpr_size` and the allocator `fexpr_fit_size`. -/
structure FexprEnv where
  FEXPR_TYPE_BITS : ℕ
  FEXPR_TYPE_CALL1 : ℕ
  FEXPR_HEADER_SIZE : ℕ
  fexpr_size : fexpr → ℕ
  fexpr_fit_size : fexpr → ℕ → fexpr

/-- Modelled from the spec: the word copy `flint_mpn_copyi(out + off, src, n)`,
which stores `src[i]` at `out[off + i]` for `i = 0, ..., n - 1` in increasing
order. -/
def flint_mpn_copyi (out : List ℕ) (off : ℕ) (src : List ℕ) (n : ℕ) : List ℕ :=
  (List.range n).foldl (fun o i => o.set (off + i) (src.getD i 0)) out

/-- The function `fexpr_call1(res, f, x1)` for three distinct objects,
statement by statement; the pointer `out` is the offset `off` into the words
of `res`, and the header is stored as a 64-bit word. -/
def fexpr_call1 (E : FexprEnv) (res f x1 : fexpr) : fexpr :=
  let f_size := E.fexpr_size f
  let x1_size := E.fexpr_size x1
  let res_size := E.FEXPR_HEADER_SIZE + f_size + x1_size
  let res := E.fexpr_fit_size res res_size
  let out := res.data
  let off := 0
  let out := out.set off
    ((E.FEXPR_TYPE_CALL1 ||| (res_size <<< E.FEXPR_TYPE_BITS)) % 2 ^ 64)
  let off := off + E.FEXPR_HEADER_SIZE
  let out := flint_mpn_copyi out off f.data f_size
  let off := off + f_size
  let out := flint_mpn_copyi out off x1.data x1_size
  ⟨out⟩

/-- Modelled from the spec: type tag of a header word, its low
`FEXPR_TYPE_BITS` bits. -/
def fexpr_header_type (E : FexprEnv) (head : ℕ) : ℕ := head % 2 ^ E.FEXPR_TYPE_BITS

/-- Modelled from the spec: size field of a header word, the bits above the
type tag. -/
def fexpr_header_size (E : FexprEnv) (head : ℕ) : ℕ := head >>> E.FEXPR_TYPE_BITS

/-- An instance for examples: type tags of four bits with `CALL1` the tag 8, a
one-word header, one-word expressions for the tags up to 2 and the size read
from the header word otherwise, and an allocator that pads with zero
words. -/
def fexprEnv : FexprEnv where
  FEXPR_TYPE_BITS := 4
  FEXPR_TYPE_CALL1 := 8
  FEXPR_HEADER_SIZE := 1
  fexpr_size e := if e.data.headD 0 % 16 ≤ 2 then 1 else e.data.headD 0 >>> 4
  fexpr_fit_size e n := ⟨e.data ++ List.replicate (n - e.data.length) 0⟩

/-- Index `f = (d / g) * e` with `g = n_gcd(d, e)`, as computed in unsigned
64-bit words in the radical branch (lines 92-93). -/
def radical_f_word (d e : ℕ) : ℕ := ((d / n_gcd d e) * e) % 2 ^ 64

/-! ## Canonical form is unique -/

theorem exists_poly (cs : List ℤ) :
    ∃ p : ℤ[X], (∀ i, p.coeff i = cs.getD i 0) ∧ (∀ z : ℂ, aeval z p = evalPoly cs z) := by
  induction cs with
  | nil => exact ⟨0, by simp, by simp [evalPoly]⟩
  | cons c cs ih =>
    obtain ⟨p, hp, he⟩ := ih
    refine ⟨C c + X * p, ?_, ?_⟩
    · intro i
      cases i with
      | zero => simp
      | succ i => rw [coeff_add, coeff_C_succ, coeff_X_mul, hp i]; simp
    · intro z
      simp [evalPoly, he z]

theorem content_map_mul (a : ℤ) (cs : List ℤ) :
    content (cs.map (fun c => a * c)) = a.natAbs * content cs := by
  induction cs with
  | nil => simp [content]
  | cons c cs ih =>
    have : content (List.map (fun c => a * c) (c :: cs))
        = Nat.gcd (a * c).natAbs (content (cs.map (fun c => a * c))) := rfl
    rw [this, ih, Int.natAbs_mul, Nat.gcd_mul_left]
    rfl


theorem length_le_of_minimal (cs ds : List ℤ) (z : ℂ)
    (hdl : 0 < ds.getD (ds.length - 1) 0) (hdz : evalPoly ds z = 0)
    (hcm : IsMinimalFor cs z) : cs.length ≤ ds.length := by
  obtain ⟨q, hq, hqe⟩ := exists_poly ds
  have hm : 1 ≤ ds.length := by
    rcases Nat.eq_zero_or_pos ds.length with h | h
    · rw [List.length_eq_zero] at h
      subst h
      simp at hdl
    · exact h
  have hq0 : q ≠ 0 := by
    intro h
    have := hq (ds.length - 1)
    rw [h, coeff_zero] at this
    omega
  have h1 := hcm q hq0 (by rw [hqe, hdz])
  have h2 : q.natDegree ≤ ds.length - 1 := by
    rw [natDegree_le_iff_coeff_eq_zero]
    intro N hN
    rw [hq N, List.getD_eq_default]
    omega
  omega

theorem poly_unique (cs ds : List ℤ) (z : ℂ)
    (hc1 : content cs = 1) (hd1 : content ds = 1)
    (hcl : 0 < cs.getD (cs.length - 1) 0) (hdl : 0 < ds.getD (ds.length - 1) 0)
    (hcz : evalPoly cs z = 0) (hdz : evalPoly ds z = 0)
    (hcm : IsMinimalFor cs z) (hdm : IsMinimalFor ds z) : cs = ds := by
  have hlen : cs.length = ds.length :=
    le_antisymm (length_le_of_minimal cs ds z hdl hdz hcm)
      (length_le_of_minimal ds cs z hcl hcz hdm)
  have hn : 1 ≤ cs.length := by
    rcases Nat.eq_zero_or_pos cs.length with h | h
    · rw [List.length_eq_zero] at h
      subst h
      simp at hcl
    · exact h
  obtain ⟨p, hp, hpe⟩ := exists_poly cs
  obtain ⟨q, hq, hqe⟩ := exists_poly ds
  set a := ds.getD (ds.length - 1) 0 with ha
  set b := cs.getD (cs.length - 1) 0 with hb
  have hr : ∀ i, (C a * p - C b * q).coeff i = a * cs.getD i 0 - b * ds.getD i 0 := by
    intro i
    rw [coeff_sub, coeff_C_mul, coeff_C_mul, hp, hq]
  have hhigh : ∀ i, cs.length - 1 ≤ i → (C a * p - C b * q).coeff i = 0 := by
    intro i hi
    rw [hr]
    rcases Nat.eq_or_lt_of_le hi with h | h
    · rw [← h, ← hb]
      have : ds.getD (cs.length - 1) 0 = a := by rw [ha, hlen]
      rw [this]
      ring
    · rw [List.getD_eq_default _ _ (by omega), List.getD_eq_default _ _ (by omega)]
      ring
  have hr0 : C a * p - C b * q = 0 := by
    by_contra hne
    have hlc : (C a * p - C b * q).coeff (C a * p - C b * q).natDegree ≠ 0 := by
      rw [coeff_natDegree]
      exact leadingCoeff_ne_zero.mpr hne
    have hlt : (C a * p - C b * q).natDegree < cs.length - 1 := by
      by_contra hge
      exact hlc (hhigh _ (not_lt.mp hge))
    have h1 := hcm _ hne (by
      rw [map_sub, map_mul, map_mul, hpe, hqe, hcz, hdz]; simp)
    omega
  have hall : ∀ i, a * cs.getD i 0 = b * ds.getD i 0 := by
    intro i
    have := hr i
    rw [hr0, coeff_zero] at this
    linarith
  have hmap : cs.map (fun c => a * c) = ds.map (fun c => b * c) := by
    apply List.ext_getElem
    · simp [hlen]
    · intro i h1 h2
      simp only [List.length_map] at h1 h2
      have := hall i
      rw [List.getD_eq_getElem _ _ h1, List.getD_eq_getElem _ _ h2] at this
      simpa using this
  have hab : a = b := by
    have h := congrArg content hmap
    rw [content_map_mul, content_map_mul, hc1, hd1, mul_one, mul_one] at h
    have h3 : (a.natAbs : ℤ) = (b.natAbs : ℤ) := by rw [h]
    rw [Int.natAbs_of_nonneg hdl.le, Int.natAbs_of_nonneg hcl.le] at h3
    exact h3
  apply List.ext_getElem hlen
  intro i h1 h2
  have := hall i
  rw [List.getD_eq_getElem _ _ h1, List.getD_eq_getElem _ _ h2, hab] at this
  exact mul_left_cancel₀ (ne_of_gt hcl) this

/-! ## Well-formed numbers -/

theorem WellFormed.minimal {x : qqbar} (hx : WellFormed x) {z : ℂ} (hz : Represents x z) :
    IsMinimalFor x.poly z := by
  obtain ⟨z0, _, hu, hm⟩ := hx.isolates
  rw [hu z hz]
  exact hm

theorem WellFormed.root_unique {x : qqbar} (hx : WellFormed x) {z w : ℂ}
    (hz : Represents x z) (hw : Represents x w) : w = z := by
  obtain ⟨z0, _, hu, _⟩ := hx.isolates
  rw [hu z hz, hu w hw]

theorem wf_poly_unique {x r : qqbar} (hx : WellFormed x) (hr : WellFormed r) {z : ℂ}
    (hxz : Represents x z) (hrz : Represents r z) : r.poly = x.poly :=
  poly_unique r.poly x.poly z hr.content_one hx.content_one hr.lead_pos hx.lead_pos
    hrz.1 hxz.1 (hr.minimal hrz) (hx.minimal hxz)

theorem minimal_of_length_two (cs : List ℤ) (h : cs.length = 2) (z : ℂ) :
    IsMinimalFor cs z := by
  intro q hq hz
  rw [h]
  by_contra hlt
  have h0 : q.natDegree = 0 := by omega
  rw [natDegree_eq_zero] at h0
  obtain ⟨c, rfl⟩ := h0
  rw [aeval_C] at hz
  have hc : c = 0 := by simpa using hz
  exact hq (by rw [hc, map_zero])

theorem acb_contains_point (a : ℚ) (w : ℂ) :
    acb_contains ⟨⟨a, 0⟩, ⟨0, 0⟩⟩ w ↔ w = ((a : ℝ) : ℂ) := by
  unfold acb_contains arb_contains
  simp only [Rat.cast_zero, abs_nonpos_iff, sub_zero]
  constructor
  · rintro ⟨h1, h2⟩
    apply Complex.ext
    · simp; linarith
    · simp [h2]
  · rintro rfl
    simp

theorem wf_set_fmpq (t : fmpq) (hd : 0 < t.den) (hg : Int.gcd t.num t.den = 1) :
    Computes (qqbar_set_fmpq t) ((t.toRat : ℝ) : ℂ) := by
  have hden : (t.den : ℂ) ≠ 0 := by exact_mod_cast hd.ne'
  have hrep : Represents (qqbar_set_fmpq t) ((t.toRat : ℝ) : ℂ) := by
    refine ⟨?_, (acb_contains_point _ _).mpr rfl⟩
    simp only [qqbar_set_fmpq, evalPoly, fmpq.toRat]
    push_cast
    field_simp
  refine ⟨⟨by simp [qqbar_set_fmpq], by simp [qqbar_set_fmpq], ?_, ?_, ?_⟩, hrep⟩
  · simp only [qqbar_set_fmpq, content, List.foldr, Nat.gcd_zero_right, Int.natAbs_neg]
    exact hg
  · simpa [qqbar_set_fmpq, QQBAR_COEFFS, qqbar_degree] using hd
  · refine ⟨_, hrep, ?_, minimal_of_length_two _ (by simp [qqbar_set_fmpq]) _⟩
    intro w hw
    exact (acb_contains_point _ _).mp hw.2

theorem wf_rat_poly {r : qqbar} (v : ℚ) (hr : Computes r ((v : ℝ) : ℂ)) :
    r.poly = [-v.num, (v.den : ℤ)] := by
  have hc := wf_set_fmpq (fmpq_of_rat v) (by simp [fmpq_of_rat, v.den_pos])
    (by simpa [fmpq_of_rat, Int.gcd, Nat.Coprime] using v.reduced)
  have hv : (fmpq_of_rat v).toRat = v := by
    simp [fmpq_of_rat, fmpq.toRat, Rat.num_div_den]
  rw [hv] at hc
  exact wf_poly_unique hc.1 hr.1 hc.2 hr.2

theorem represents_of_length_two {x : qqbar} (h : x.poly.length = 2)
    (ha : QQBAR_COEFFS x 1 ≠ 0) {z : ℂ} (hz : Represents x z) :
    z = ((rat_value x : ℝ) : ℂ) := by
  obtain ⟨cs, e⟩ : ∃ cs, x.poly = cs := ⟨_, rfl⟩
  match cs, e with
  | [b, a], e =>
    have h1 := hz.1
    simp only [e, evalPoly, QQBAR_COEFFS, rat_value] at h1 ha ⊢
    simp only [List.getD_cons_succ, List.getD_cons_zero] at ha ⊢
    have ha' : (a : ℂ) ≠ 0 := by exact_mod_cast ha
    push_cast
    field_simp
    linear_combination h1
  | [], e => rw [e] at h; simp at h
  | [_], e => rw [e] at h; simp at h
  | _ :: _ :: _ :: _, e => rw [e] at h; simp at h

/-! ## The ten branches of the dispatcher -/

theorem qqbar_div_cases (O : QqbarOps) (x y : qqbar) :
    (qqbar_is_zero y = true ∧ qqbar_div O x y = ⟨[Call.flint_abort], none⟩) ∨
    (qqbar_is_zero y = false ∧ qqbar_is_zero x = true ∧
      qqbar_div O x y = ⟨[Call.qqbar_zero], some qqbar_zero⟩) ∨
    (qqbar_is_zero y = false ∧ qqbar_is_zero x = false ∧ qqbar_is_one x = true ∧
      qqbar_div O x y = ⟨[Call.qqbar_inv y], some (O.qqbar_inv y)⟩) ∨
    (qqbar_is_zero y = false ∧ qqbar_is_zero x = false ∧ qqbar_is_one x = false ∧
      qqbar_is_one y = true ∧
      qqbar_div O x y = ⟨[Call.qqbar_set x], some (qqbar_set x)⟩) ∨
    (qqbar_is_zero y = false ∧ qqbar_is_zero x = false ∧ qqbar_is_one x = false ∧
      qqbar_is_one y = false ∧ qqbar_is_neg_one x = true ∧
      qqbar_div O x y = ⟨[Call.qqbar_inv y, Call.qqbar_neg (O.qqbar_inv y)],
        some (O.qqbar_neg (O.qqbar_inv y))⟩) ∨
    (qqbar_is_zero y = false ∧ qqbar_is_zero x = false ∧ qqbar_is_one x = false ∧
      qqbar_is_one y = false ∧ qqbar_is_neg_one x = false ∧ qqbar_is_neg_one y = true ∧
      qqbar_div O x y = ⟨[Call.qqbar_neg x], some (O.qqbar_neg x)⟩) ∨
    (qqbar_is_zero y = false ∧ qqbar_is_zero x = false ∧ qqbar_is_one x = false ∧
      qqbar_is_one y = false ∧ qqbar_is_neg_one x = false ∧ qqbar_is_neg_one y = false ∧
      qqbar_is_rational y = true ∧
      qqbar_div O x y =
        ⟨[Call.qqbar_scalar_op x (QQBAR_COEFFS y 1) 0 (-QQBAR_COEFFS y 0)],
          some (O.qqbar_scalar_op x (QQBAR_COEFFS y 1) 0 (-QQBAR_COEFFS y 0))⟩) ∨
    (qqbar_is_zero y = false ∧ qqbar_is_zero x = false ∧ qqbar_is_one x = false ∧
      qqbar_is_one y = false ∧ qqbar_is_neg_one x = false ∧ qqbar_is_neg_one y = false ∧
      qqbar_is_rational y = false ∧ qqbar_is_rational x = true ∧
      qqbar_div O x y =
        ⟨[Call.qqbar_inv y,
            Call.qqbar_scalar_op (O.qqbar_inv y) (-QQBAR_COEFFS x 0) 0 (QQBAR_COEFFS x 1)],
          some (O.qqbar_scalar_op (O.qqbar_inv y) (-QQBAR_COEFFS x 0) 0
            (QQBAR_COEFFS x 1))⟩) ∨
    (qqbar_is_zero y = false ∧ qqbar_is_zero x = false ∧ qqbar_is_one x = false ∧
      qqbar_is_one y = false ∧ qqbar_is_neg_one x = false ∧ qqbar_is_neg_one y = false ∧
      qqbar_is_rational y = false ∧ qqbar_is_rational x = false ∧
      radical_guard x y = true ∧
      qqbar_div O x y =
        ⟨[Call.qqbar_fmpq_root_ui (radical_t x y) (radical_f x y)],
          some (O.qqbar_fmpq_root_ui (radical_t x y) (radical_f x y))⟩) ∨
    (qqbar_is_zero y = false ∧ qqbar_is_zero x = false ∧ qqbar_is_one x = false ∧
      qqbar_is_one y = false ∧ qqbar_is_neg_one x = false ∧ qqbar_is_neg_one y = false ∧
      qqbar_is_rational y = false ∧ qqbar_is_rational x = false ∧
      radical_guard x y = false ∧
      qqbar_div O x y =
        ⟨[Call.qqbar_binary_op x y 3], some (O.qqbar_binary_op x y 3)⟩) := by
  unfold qqbar_div
  cases h1 : qqbar_is_zero y
  case true => left; exact ⟨rfl, rfl⟩
  right
  cases h2 : qqbar_is_zero x
  case true => left; exact ⟨rfl, rfl, rfl⟩
  right
  cases h3 : qqbar_is_one x
  case true => left; exact ⟨rfl, rfl, rfl, rfl⟩
  right
  cases h4 : qqbar_is_one y
  case true => left; exact ⟨rfl, rfl, rfl, rfl, rfl⟩
  right
  cases h5 : qqbar_is_neg_one x
  case true => left; exact ⟨rfl, rfl, rfl, rfl, rfl, rfl⟩
  right
  cases h6 : qqbar_is_neg_one y
  case true => left; exact ⟨rfl, rfl, rfl, rfl, rfl, rfl, rfl⟩
  right
  cases h7 : qqbar_is_rational y
  case true => left; exact ⟨rfl, rfl, rfl, rfl, rfl, rfl, rfl, rfl⟩
  right
  cases h8 : qqbar_is_rational x
  case true => left; exact ⟨rfl, rfl, rfl, rfl, rfl, rfl, rfl, rfl, rfl⟩
  right
  cases h9 : radical_guard x y
  case true => left; exact ⟨rfl, rfl, rfl, rfl, rfl, rfl, rfl, rfl, rfl, rfl⟩
  right
  exact ⟨rfl, rfl, rfl, rfl, rfl, rfl, rfl, rfl, rfl, rfl⟩

/-! ## Values of the identity patterns -/

theorem computes_one_poly {r : qqbar} (hr : Computes r 1) : r.poly = [-1, 1] := by
  have := wf_rat_poly 1 (by simpa using hr)
  simpa using this

theorem computes_zero_poly {r : qqbar} (hr : Computes r 0) : r.poly = [0, 1] := by
  have := wf_rat_poly 0 (by simpa using hr)
  simpa using this

theorem ne_zero_of_not_is_zero {x : qqbar} (hx : WellFormed x) {z : ℂ}
    (hz : Represents x z) (hnz : qqbar_is_zero x = false) : z ≠ 0 := by
  rintro rfl
  have := computes_zero_poly ⟨hx, hz⟩
  simp [qqbar_is_zero, this] at hnz

theorem value_of_is_one {x : qqbar} (h : qqbar_is_one x = true) {z : ℂ}
    (hz : Represents x z) : z = 1 := by
  have hp : x.poly = [-1, 1] := by simpa [qqbar_is_one] using h
  have h1 := hz.1
  simp only [hp, evalPoly] at h1
  push_cast at h1
  linear_combination h1

theorem value_of_is_neg_one {x : qqbar} (h : qqbar_is_neg_one x = true) {z : ℂ}
    (hz : Represents x z) : z = -1 := by
  have hp : x.poly = [1, 1] := by simpa [qqbar_is_neg_one] using h
  have h1 := hz.1
  simp only [hp, evalPoly] at h1
  push_cast at h1
  linear_combination h1

theorem value_of_is_zero {x : qqbar} (h : qqbar_is_zero x = true) {z : ℂ}
    (hz : Represents x z) : z = 0 := by
  have hp : x.poly = [0, 1] := by simpa [qqbar_is_zero] using h
  have h1 := hz.1
  simp only [hp, evalPoly] at h1
  push_cast at h1
  linear_combination h1

theorem lead_of_rational {x : qqbar} (hx : WellFormed x) (h : qqbar_is_rational x = true) :
    0 < QQBAR_COEFFS x 1 := by
  have hl : x.poly.length = 2 := by simpa [qqbar_is_rational] using h
  have := hx.lead_pos
  rwa [qqbar_degree, hl] at this

theorem value_of_rational {x : qqbar} (hx : WellFormed x) (h : qqbar_is_rational x = true)
    {z : ℂ} (hz : Represents x z) : z = ((rat_value x : ℝ) : ℂ) :=
  represents_of_length_two (by simpa [qqbar_is_rational] using h)
    (lead_of_rational hx h).ne' hz


theorem radical_f_self {x : qqbar} (hx : WellFormed x) :
    radical_f x x = qqbar_degree x := by
  have h1 := hx.deg_pos
  have h2 := hx.word
  have hd : 0 < qqbar_degree x := by unfold qqbar_degree; omega
  have hlt : qqbar_degree x < 2 ^ 64 := by unfold qqbar_degree; omega
  unfold radical_f n_gcd
  rw [Nat.gcd_self, Nat.div_self hd, one_mul, Nat.mod_eq_of_lt hlt]

theorem radical_t_self {x : qqbar} (hx : WellFormed x) (h0 : QQBAR_COEFFS x 0 < 0) :
    radical_t x x = ⟨1, 1⟩ := by
  have h1 := hx.deg_pos
  have hd : 0 < qqbar_degree x := by unfold qqbar_degree; omega
  have hl := hx.lead_pos
  have hne : (fmpq_pow_si ⟨-QQBAR_COEFFS x 0, QQBAR_COEFFS x (qqbar_degree x)⟩ 1).toRat ≠ 0 := by
    simp only [fmpq_pow_si, fmpq.toRat, pow_one]
    have a1 : ((-QQBAR_COEFFS x 0 : ℤ) : ℚ) ≠ 0 := by
      have : (-QQBAR_COEFFS x 0 : ℤ) ≠ 0 := by omega
      exact_mod_cast this
    have a2 : ((QQBAR_COEFFS x (qqbar_degree x) : ℤ) : ℚ) ≠ 0 := by exact_mod_cast hl.ne'
    exact div_ne_zero a1 a2
  unfold radical_t n_gcd
  rw [Nat.gcd_self, Nat.div_self hd]
  unfold fmpq_div
  rw [div_self hne]
  simp

theorem guard_const_neg {x y : qqbar} (h : radical_guard x y = true) :
    QQBAR_COEFFS x 0 < 0 ∧ QQBAR_COEFFS y 0 < 0 := by
  simp only [radical_guard, Bool.and_eq_true, decide_eq_true_eq] at h
  exact ⟨h.1.1.1.1.1.2, h.1.1.1.1.2⟩

/-! ## Concrete radicals -/

theorem arb_contains_iff (b : arb) (t : ℝ) :
    arb_contains b t ↔ (b.mid : ℝ) - b.rad ≤ t ∧ t ≤ (b.mid : ℝ) + b.rad := by
  unfold arb_contains
  rw [abs_le]
  constructor <;> rintro ⟨h1, h2⟩ <;> constructor <;> linarith

theorem sqrt2_bounds : (1412 / 1000 : ℝ) ≤ Real.sqrt 2 ∧ Real.sqrt 2 ≤ 1416 / 1000 := by
  constructor
  · apply Real.le_sqrt_of_sq_le
    norm_num
  · rw [Real.sqrt_le_left (by norm_num)]
    norm_num

theorem minimal_of_irrational (cs : List ℤ) (h : cs.length = 3) (r : ℝ) (hr : Irrational r) :
    IsMinimalFor cs (r : ℂ) := by
  intro q hq hz
  rw [h]
  by_contra hlt
  have h1 : q.natDegree ≤ 1 := by omega
  have hq1 := eq_X_add_C_of_natDegree_le_one h1
  rw [hq1] at hz
  rw [map_add, map_mul, aeval_C, aeval_C, aeval_X] at hz
  simp only [eq_intCast, algebraMap_int_eq] at hz
  have hz' : ((q.coeff 1 : ℤ) : ℝ) * r + ((q.coeff 0 : ℤ) : ℝ) = 0 := by exact_mod_cast hz
  by_cases ha : q.coeff 1 = 0
  · rw [ha] at hz'
    have hb : q.coeff 0 = 0 := by
      have : ((q.coeff 0 : ℤ) : ℝ) = 0 := by simpa using hz'
      exact_mod_cast this
    apply hq
    rw [hq1, ha, hb]
    simp
  · apply hr
    refine ⟨-(q.coeff 0 : ℚ) / (q.coeff 1 : ℚ), ?_⟩
    have ha' : ((q.coeff 1 : ℤ) : ℝ) ≠ 0 := by exact_mod_cast ha
    push_cast
    field_simp
    linarith

theorem represents_sqrt (n : ℕ) (e : arb) (hin : arb_contains e (Real.sqrt n)) :
    Represents ⟨[-(n : ℤ), 0, 1], ⟨e, ⟨0, 0⟩⟩⟩ ((Real.sqrt n : ℝ) : ℂ) := by
  have hsq : Real.sqrt n * Real.sqrt n = n := Real.mul_self_sqrt (Nat.cast_nonneg n)
  constructor
  · simp only [evalPoly]
    have h : ((Real.sqrt n : ℝ) : ℂ) * ((Real.sqrt n : ℝ) : ℂ) = (n : ℂ) := by
      rw [← Complex.ofReal_mul, hsq]
      norm_num
    push_cast
    linear_combination h
  · refine ⟨by simpa using hin, ?_⟩
    simp [arb_contains]

theorem wf_sqrt (n : ℕ) (hn : Irrational (Real.sqrt n)) (e : arb)
    (hpos : e.rad < e.mid) (hin : arb_contains e (Real.sqrt n)) :
    Computes ⟨[-(n : ℤ), 0, 1], ⟨e, ⟨0, 0⟩⟩⟩ ((Real.sqrt n : ℝ) : ℂ) := by
  have hrep := represents_sqrt n e hin
  refine ⟨⟨by simp, by simp, ?_, by simp [QQBAR_COEFFS, qqbar_degree], ?_⟩, hrep⟩
  · simp [content]
  · refine ⟨_, hrep, ?_, minimal_of_irrational _ (by simp) _ hn⟩
    intro w hw
    obtain ⟨hw1, hw2, hw3⟩ := hw
    have him : w.im = 0 := by simpa [arb_contains] using hw3
    have hre : 0 < w.re := by
      have := ((arb_contains_iff _ _).mp hw2).1
      have h2 : (e.rad : ℝ) < e.mid := by exact_mod_cast hpos
      simp only at this
      linarith
    have hw' : w = ((w.re : ℝ) : ℂ) := by
      apply Complex.ext <;> simp [him]
    simp only [evalPoly] at hw1
    rw [hw'] at hw1
    have h3 : w.re * w.re = n := by
      have : ((w.re * w.re - n : ℝ) : ℂ) = 0 := by
        push_cast
        push_cast at hw1
        linear_combination hw1
      have := Complex.ofReal_eq_zero.mp this
      linarith
    have h4 : w.re = Real.sqrt n := by
      rw [← Real.sqrt_mul_self hre.le, h3]
    rw [hw', h4]

theorem wf_sqrt2 : Computes sqrt2 ((Real.sqrt 2 : ℝ) : ℂ) := by
  have h := wf_sqrt 2 (by simpa using irrational_sqrt_two) ⟨707 / 500, 1 / 500⟩ (by norm_num)
    (by
      have := sqrt2_bounds
      rw [arb_contains_iff]
      constructor <;> norm_num <;> linarith)
  simpa [sqrt2] using h

/-! ## Theorems -/

/-- C1: a zero divisor is rejected by the first test of the dispatcher, for
every dividend: the run makes the single call `flint_abort` and leaves `res`
unwritten exactly when the divisor is zero; with a nonzero divisor the abort
call is never made and `res` is written. -/
theorem qqbar_div_zero_divisor (O : QqbarOps) (x y : qqbar) :
    ((qqbar_div O x y).calls = [Call.flint_abort] ↔ qqbar_is_zero y = true) ∧
    ((qqbar_div O x y).res = none ↔ qqbar_is_zero y = true) ∧
    (Call.flint_abort ∈ (qqbar_div O x y).calls ↔ qqbar_is_zero y = true) := by
  rcases qqbar_div_cases O x y with c | c | c | c | c | c | c | c | c | c
  · rw [c.2, c.1]; simp
  · rw [c.2.2, c.1]; simp
  · rw [c.2.2.2, c.1]; simp
  · rw [c.2.2.2.2, c.1]; simp
  · rw [c.2.2.2.2.2, c.1]; simp
  · rw [c.2.2.2.2.2.2, c.1]; simp
  · rw [c.2.2.2.2.2.2.2, c.1]; simp
  · rw [c.2.2.2.2.2.2.2.2, c.1]; simp
  · rw [c.2.2.2.2.2.2.2.2.2, c.1]; simp
  · rw [c.2.2.2.2.2.2.2.2.2, c.1]; simp

/-- C2: for every nonzero well-formed `x`, dividing `x` by itself leaves the
degree-1 value 1 (coefficients `(-1, 1)`) in `res`, whichever branch is taken:
inverse of 1, negated inverse of -1, the scalar transform with
`a = leading coefficient, b = 0, c = -constant coefficient`, the `deg x`-th
root of the rational 1, or the resultant combinator; every call made is
assumed to meet its contract. -/
theorem qqbar_div_self (O : QqbarOps) (x : qqbar) (hx : WellFormed x)
    (hnz : qqbar_is_zero x = false)
    (hO : ∀ c ∈ (qqbar_div O x x).calls, ContractAt O c) :
    ∃ r, (qqbar_div O x x).res = some r ∧ r.poly = [-1, 1] ∧ Computes r 1 ∧
      ((qqbar_is_one x = true ∧ (qqbar_div O x x).calls = [Call.qqbar_inv x]) ∨
       (qqbar_is_neg_one x = true ∧
          (qqbar_div O x x).calls = [Call.qqbar_inv x, Call.qqbar_neg (O.qqbar_inv x)]) ∨
       (qqbar_is_rational x = true ∧
          (qqbar_div O x x).calls =
            [Call.qqbar_scalar_op x (QQBAR_COEFFS x 1) 0 (-QQBAR_COEFFS x 0)]) ∨
       (radical_guard x x = true ∧
          (qqbar_div O x x).calls = [Call.qqbar_fmpq_root_ui ⟨1, 1⟩ (qqbar_degree x)]) ∨
       (qqbar_div O x x).calls = [Call.qqbar_binary_op x x 3]) := by
  obtain ⟨z, hz, -, -⟩ := hx.isolates
  have hz0 : z ≠ 0 := ne_zero_of_not_is_zero hx hz hnz
  rcases qqbar_div_cases O x x with c | c | c | c | c | c | c | c | c | c
  · rw [c.1] at hnz; cases hnz
  · rw [c.2.1] at hnz; cases hnz
  · obtain ⟨-, -, h3, he⟩ := c
    rw [he] at hO ⊢
    have hc : Computes (O.qqbar_inv x) 1 := by
      have := hO (Call.qqbar_inv x) (by simp) z hx hz hz0
      rwa [value_of_is_one h3 hz, inv_one] at this
    exact ⟨_, rfl, computes_one_poly hc, hc, Or.inl ⟨h3, rfl⟩⟩
  · obtain ⟨-, -, h3, h4, -⟩ := c
    rw [h3] at h4; cases h4
  · obtain ⟨-, -, -, -, h5, he⟩ := c
    rw [he] at hO ⊢
    have hi := hO (Call.qqbar_inv x) (by simp) z hx hz hz0
    have hc : Computes (O.qqbar_neg (O.qqbar_inv x)) 1 := by
      have := hO (Call.qqbar_neg (O.qqbar_inv x)) (by simp) z⁻¹ hi.1 hi.2
      rw [value_of_is_neg_one h5 hz] at this
      norm_num at this
      exact this
    exact ⟨_, rfl, computes_one_poly hc, hc, Or.inr (Or.inl ⟨h5, rfl⟩)⟩
  · obtain ⟨-, -, -, -, h5, h6, -⟩ := c
    rw [h5] at h6; cases h6
  · obtain ⟨-, -, -, -, -, -, h7, he⟩ := c
    rw [he] at hO ⊢
    have hl := lead_of_rational hx h7
    have hv := value_of_rational hx h7 hz
    have hl' : ((QQBAR_COEFFS x 1 : ℤ) : ℂ) ≠ 0 := by exact_mod_cast hl.ne'
    have hzv : z = -((QQBAR_COEFFS x 0 : ℤ) : ℂ) / ((QQBAR_COEFFS x 1 : ℤ) : ℂ) := by
      rw [hv, rat_value]; push_cast; rfl
    have hc0 : QQBAR_COEFFS x 0 ≠ 0 := by
      intro h0
      apply hz0
      rw [hzv, h0]; simp
    have hc0' : ((QQBAR_COEFFS x 0 : ℤ) : ℂ) ≠ 0 := by exact_mod_cast hc0
    have hc : Computes (O.qqbar_scalar_op x (QQBAR_COEFFS x 1) 0 (-QQBAR_COEFFS x 0)) 1 := by
      have := hO (Call.qqbar_scalar_op x (QQBAR_COEFFS x 1) 0 (-QQBAR_COEFFS x 0))
        (by simp) z hx hz (by omega)
      have e : (((QQBAR_COEFFS x 1 : ℤ) : ℂ) * z + ((0 : ℤ) : ℂ)) /
          ((-QQBAR_COEFFS x 0 : ℤ) : ℂ) = 1 := by
        rw [hzv]; push_cast; field_simp
      rwa [e] at this
    exact ⟨_, rfl, computes_one_poly hc, hc, Or.inr (Or.inr (Or.inl ⟨h7, rfl⟩))⟩
  · obtain ⟨-, -, -, -, -, -, h7, h8, -⟩ := c
    rw [h7] at h8; cases h8
  · obtain ⟨-, -, -, -, -, -, -, -, h9, he⟩ := c
    rw [he, radical_t_self hx (guard_const_neg h9).1, radical_f_self hx] at hO ⊢
    have hd : 0 < qqbar_degree x := by
      have := hx.deg_pos
      unfold qqbar_degree; omega
    have hc : Computes (O.qqbar_fmpq_root_ui ⟨1, 1⟩ (qqbar_degree x)) 1 := by
      have := hO (Call.qqbar_fmpq_root_ui ⟨1, 1⟩ (qqbar_degree x)) (by simp) 1 hd
        (by norm_num) (by norm_num) one_pos (by simp [fmpq.toRat])
      simpa using this
    exact ⟨_, rfl, computes_one_poly hc, hc, Or.inr (Or.inr (Or.inr (Or.inl ⟨h9, rfl⟩)))⟩
  · obtain ⟨-, -, -, -, -, -, -, -, -, he⟩ := c
    rw [he] at hO ⊢
    have hc : Computes (O.qqbar_binary_op x x 3) 1 := by
      have := hO (Call.qqbar_binary_op x x 3) (by simp) rfl z z hx hz hx hz hz0
      rwa [div_self hz0] at this
    exact ⟨_, rfl, computes_one_poly hc, hc, Or.inr (Or.inr (Or.inr (Or.inr rfl)))⟩

theorem sqrt2_self_calls :
    (qqbar_div ratOps sqrt2 sqrt2).calls = [Call.qqbar_fmpq_root_ui ⟨1, 1⟩ 2] := by
  decide!

theorem ratOps_root_one :
    ContractAt ratOps (Call.qqbar_fmpq_root_ui ⟨1, 1⟩ 2) := by
  intro r _ _ _ hr hr2
  have h1 : r = 1 := by
    have : r ^ 2 = 1 := by simpa [fmpq.toRat] using hr2
    nlinarith
  have e : ratOps.qqbar_fmpq_root_ui ⟨1, 1⟩ 2 = qqbar_set_fmpq ⟨1, 1⟩ := by decide!
  rw [e, h1]
  simpa [fmpq.toRat] using wf_set_fmpq ⟨1, 1⟩ (by norm_num) (by norm_num)

/-- Witness for C2: `2^(1/2) / 2^(1/2)` on the radical path, with the exact
rational instance of the combinators. -/
theorem qqbar_div_self_witness :
    WellFormed sqrt2 ∧ qqbar_is_zero sqrt2 = false ∧
    (∀ c ∈ (qqbar_div ratOps sqrt2 sqrt2).calls, ContractAt ratOps c) ∧
    ∃ r, (qqbar_div ratOps sqrt2 sqrt2).res = some r ∧ r.poly = [-1, 1] :=
  have hc : ∀ c ∈ (qqbar_div ratOps sqrt2 sqrt2).calls, ContractAt ratOps c := by
    rw [sqrt2_self_calls]
    intro c hc
    rw [List.mem_singleton] at hc
    rw [hc]
    exact ratOps_root_one
  ⟨wf_sqrt2.1, by decide!, hc,
    (qqbar_div_self ratOps sqrt2 wf_sqrt2.1 (by decide!) hc).imp
      (fun _ h => ⟨h.1, h.2.1⟩)⟩

/-! ## The exact rational instance meets the contracts on rational operands -/

theorem computes_of_rat (v : ℚ) : Computes (qqbar_set_fmpq (fmpq_of_rat v)) ((v : ℝ) : ℂ) := by
  have hc := wf_set_fmpq (fmpq_of_rat v) (by simp [fmpq_of_rat, v.den_pos])
    (by simpa [fmpq_of_rat, Int.gcd, Nat.Coprime] using v.reduced)
  have hv : (fmpq_of_rat v).toRat = v := by
    simp [fmpq_of_rat, fmpq.toRat, Rat.num_div_den]
  rwa [hv] at hc

theorem computes_qqbar_zero : Computes qqbar_zero 0 := by
  have h := computes_of_rat 0
  have e : qqbar_set_fmpq (fmpq_of_rat 0) = qqbar_zero := by decide!
  rw [e] at h
  simpa using h

theorem computes_qqbar_one : Computes qqbar_one 1 := by
  have h := computes_of_rat 1
  have e : qqbar_set_fmpq (fmpq_of_rat 1) = qqbar_one := by decide!
  rw [e] at h
  simpa using h

theorem ratOps_inv_contract (x : qqbar) (h : qqbar_is_rational x = true) :
    ContractAt ratOps (Call.qqbar_inv x) := by
  intro z hx hz _
  have := computes_of_rat (rat_value x)⁻¹
  rw [value_of_rational hx h hz]
  simpa [ratOps] using this

theorem ratOps_neg_contract (x : qqbar) (h : qqbar_is_rational x = true) :
    ContractAt ratOps (Call.qqbar_neg x) := by
  intro z hx hz
  have := computes_of_rat (-(rat_value x))
  rw [value_of_rational hx h hz]
  simpa [ratOps] using this

theorem ratOps_scalar_contract (x : qqbar) (a b c : ℤ) (h : qqbar_is_rational x = true) :
    ContractAt ratOps (Call.qqbar_scalar_op x a b c) := by
  intro z hx hz _
  have := computes_of_rat ((a * rat_value x + b) / c)
  rw [value_of_rational hx h hz]
  simpa [ratOps] using this

/-! ## Division by one, double inversion, rational operands -/

theorem qqbar_div_one_left (O : QqbarOps) (y : qqbar) (h : qqbar_is_zero y = false) :
    qqbar_div O qqbar_one y = ⟨[Call.qqbar_inv y], some (O.qqbar_inv y)⟩ := by
  rcases qqbar_div_cases O qqbar_one y with c | c | c | c | c | c | c | c | c | c
  · rw [c.1] at h; cases h
  · exact absurd c.2.1 (by decide)
  · exact c.2.2.2
  all_goals exact absurd c.2.2.1 (by decide)

/-- C3: for every well-formed `x` (zero and one included), dividing `x` by the
number one leaves in `res` a number with the coefficients of `x` that stands
for the same root. -/
theorem qqbar_div_by_one (O : QqbarOps) (x y : qqbar) (hx : WellFormed x)
    (hy : WellFormed y) (h1 : qqbar_is_one y = true)
    (hO : ∀ c ∈ (qqbar_div O x y).calls, ContractAt O c) :
    ∃ r, (qqbar_div O x y).res = some r ∧ r.poly = x.poly ∧
      ∀ z, Represents x z → Computes r z := by
  have hyp : y.poly = [-1, 1] := by simpa [qqbar_is_one] using h1
  obtain ⟨zy, hzy, -, -⟩ := hy.isolates
  have hzy1 : zy = 1 := value_of_is_one h1 hzy
  rcases qqbar_div_cases O x y with c | c | c | c | c | c | c | c | c | c
  · have := c.1
    simp [qqbar_is_zero, hyp] at this
  · obtain ⟨-, h2, he⟩ := c
    rw [he]
    refine ⟨_, rfl, ?_, ?_⟩
    · have : x.poly = [0, 1] := by simpa [qqbar_is_zero] using h2
      rw [this]; rfl
    · intro z hz
      rw [value_of_is_zero h2 hz]
      exact computes_qqbar_zero
  · obtain ⟨-, -, h3, he⟩ := c
    rw [he] at hO ⊢
    have hc : Computes (O.qqbar_inv y) 1 := by
      have := hO (Call.qqbar_inv y) (by simp) zy hy hzy (by rw [hzy1]; exact one_ne_zero)
      rwa [hzy1, inv_one] at this
    refine ⟨_, rfl, ?_, ?_⟩
    · rw [computes_one_poly hc]
      have : x.poly = [-1, 1] := by simpa [qqbar_is_one] using h3
      rw [this]
    · intro z hz
      rw [value_of_is_one h3 hz]
      exact hc
  · obtain ⟨-, -, -, -, he⟩ := c
    rw [he]
    exact ⟨_, rfl, rfl, fun z hz => ⟨hx, hz⟩⟩
  all_goals
    have := c.2.2.2.1
    rw [h1] at this
    cases this

/-- Witness for C3: `1 / 1` (the branch that intercepts `x = 1` before the copy
branch is reached), with the exact rational instance of the combinators. -/
theorem qqbar_div_by_one_witness :
    WellFormed qqbar_one ∧ qqbar_is_one qqbar_one = true ∧
    (∀ c ∈ (qqbar_div ratOps qqbar_one qqbar_one).calls, ContractAt ratOps c) ∧
    ∃ r, (qqbar_div ratOps qqbar_one qqbar_one).res = some r ∧ r.poly = qqbar_one.poly ∧
      Computes r 1 :=
  have hc : ∀ c ∈ (qqbar_div ratOps qqbar_one qqbar_one).calls, ContractAt ratOps c := by
    rw [qqbar_div_one_left ratOps qqbar_one (by decide)]
    intro c hc
    rw [List.mem_singleton] at hc
    rw [hc]
    exact ratOps_inv_contract _ (by decide)
  ⟨computes_qqbar_one.1, by decide, hc,
    (qqbar_div_by_one ratOps qqbar_one qqbar_one computes_qqbar_one.1 computes_qqbar_one.1
      (by decide) hc).imp (fun _ h => ⟨h.1, h.2.1, h.2.2 1 computes_qqbar_one.2⟩)⟩

/-- C4: for every nonzero well-formed `x`, `t = 1 / x` and then `1 / t` give
back `x` (same coefficients, same root): both runs dispatch to the inversion,
the inner quotient is not zero so the outer run does not abort, and inverting
twice is the identity on values. -/
theorem qqbar_div_one_div_one (O : QqbarOps) (x : qqbar) (hx : WellFormed x)
    (hnz : qqbar_is_zero x = false)
    (hO1 : ∀ c ∈ (qqbar_div O qqbar_one x).calls, ContractAt O c)
    (hO2 : ∀ t, (qqbar_div O qqbar_one x).res = some t →
      ∀ c ∈ (qqbar_div O qqbar_one t).calls, ContractAt O c) :
    ∃ t, (qqbar_div O qqbar_one x).res = some t ∧
      (qqbar_div O qqbar_one x).calls = [Call.qqbar_inv x] ∧
      qqbar_is_zero t = false ∧
      (qqbar_div O qqbar_one t).calls = [Call.qqbar_inv t] ∧
      ∃ r, (qqbar_div O qqbar_one t).res = some r ∧ r.poly = x.poly ∧
        ∀ z, Represents x z → Computes r z := by
  obtain ⟨z, hz, -, -⟩ := hx.isolates
  have hz0 : z ≠ 0 := ne_zero_of_not_is_zero hx hz hnz
  have e1 := qqbar_div_one_left O x hnz
  have hO2' := hO2 (O.qqbar_inv x) (by rw [e1])
  rw [e1] at hO1
  have ht : Computes (O.qqbar_inv x) z⁻¹ := hO1 (Call.qqbar_inv x) (by simp) z hx hz hz0
  have htnz : qqbar_is_zero (O.qqbar_inv x) = false := by
    by_contra h
    rw [Bool.not_eq_false] at h
    exact inv_ne_zero hz0 (value_of_is_zero h ht.2)
  have e2 := qqbar_div_one_left O (O.qqbar_inv x) htnz
  rw [e2] at hO2'
  have hr : Computes (O.qqbar_inv (O.qqbar_inv x)) z := by
    have := hO2' (Call.qqbar_inv (O.qqbar_inv x)) (by simp) z⁻¹ ht.1 ht.2 (inv_ne_zero hz0)
    rwa [inv_inv] at this
  refine ⟨O.qqbar_inv x, by rw [e1], by rw [e1], htnz, by rw [e2], _, by rw [e2], ?_, ?_⟩
  · exact wf_poly_unique hx hr.1 hz hr.2
  · intro w hw
    rw [hx.root_unique hz hw]
    exact hr

theorem ratOps_inv_rational (x : qqbar) : qqbar_is_rational (ratOps.qqbar_inv x) = true := rfl

/-- Witness for C4: `x = 2`, with the exact rational instance of the
combinators. -/
theorem qqbar_div_one_div_one_witness :
    WellFormed (qqbar_set_fmpq ⟨2, 1⟩) ∧ qqbar_is_zero (qqbar_set_fmpq ⟨2, 1⟩) = false ∧
    (∀ c ∈ (qqbar_div ratOps qqbar_one (qqbar_set_fmpq ⟨2, 1⟩)).calls, ContractAt ratOps c) ∧
    (∀ t, (qqbar_div ratOps qqbar_one (qqbar_set_fmpq ⟨2, 1⟩)).res = some t →
      ∀ c ∈ (qqbar_div ratOps qqbar_one t).calls, ContractAt ratOps c) ∧
    ∃ t, (qqbar_div ratOps qqbar_one (qqbar_set_fmpq ⟨2, 1⟩)).res = some t ∧
      ∃ r, (qqbar_div ratOps qqbar_one t).res = some r ∧
        r.poly = (qqbar_set_fmpq ⟨2, 1⟩).poly :=
  have hw := wf_set_fmpq ⟨2, 1⟩ (by norm_num) (by norm_num)
  have e1 := qqbar_div_one_left ratOps (qqbar_set_fmpq ⟨2, 1⟩) (by decide)
  have hc1 : ∀ c ∈ (qqbar_div ratOps qqbar_one (qqbar_set_fmpq ⟨2, 1⟩)).calls,
      ContractAt ratOps c := by
    rw [e1]
    intro c hc
    rw [List.mem_singleton] at hc
    rw [hc]
    exact ratOps_inv_contract _ (by decide)
  have hc2 : ∀ t, (qqbar_div ratOps qqbar_one (qqbar_set_fmpq ⟨2, 1⟩)).res = some t →
      ∀ c ∈ (qqbar_div ratOps qqbar_one t).calls, ContractAt ratOps c := by
    intro t ht
    rw [e1] at ht
    have ht' : t = ratOps.qqbar_inv (qqbar_set_fmpq ⟨2, 1⟩) := by
      simpa using ht.symm
    have htnz : qqbar_is_zero t = false := by rw [ht']; decide!
    rw [qqbar_div_one_left ratOps t htnz]
    intro c hc
    rw [List.mem_singleton] at hc
    rw [hc, ht']
    exact ratOps_inv_contract _ (ratOps_inv_rational _)
  ⟨hw.1, by decide, hc1, hc2,
    (qqbar_div_one_div_one ratOps (qqbar_set_fmpq ⟨2, 1⟩) hw.1 (by decide) hc1 hc2).imp
      (fun _ ht => ⟨ht.1, ht.2.2.2.2.imp (fun _ hr => ⟨hr.1, hr.2.1⟩)⟩)⟩

/-! ## Rational operands -/

theorem rat_value_cast (x : qqbar) :
    (((rat_value x : ℚ) : ℝ) : ℂ) =
      -((QQBAR_COEFFS x 0 : ℤ) : ℂ) / ((QQBAR_COEFFS x 1 : ℤ) : ℂ) := by
  rw [rat_value]; push_cast; rfl

theorem rational_of_computes_rat {r : qqbar} (v : ℚ) (hr : Computes r ((v : ℝ) : ℂ)) :
    qqbar_is_rational r = true ∧ rat_value r = v := by
  have hp := wf_rat_poly v hr
  constructor
  · simp [qqbar_is_rational, hp]
  · simp only [rat_value, QQBAR_COEFFS, hp, List.getD_cons_zero, List.getD_cons_succ]
    push_cast
    rw [neg_neg]
    exact Rat.num_div_den v

/-- C5: for rational `p` and rational `q ≠ 0`, given as well-formed degree-1
numbers with coefficients `(b, a)` standing for `-b/a`, the division leaves in
`res` a degree-1 number whose value `-b/a` is the rational quotient `p / q`;
every call made is assumed to meet its contract. -/
theorem qqbar_div_rational (O : QqbarOps) (x y : qqbar) (hx : WellFormed x)
    (hy : WellFormed y) (hxr : qqbar_is_rational x = true)
    (hyr : qqbar_is_rational y = true) (hnz : qqbar_is_zero y = false)
    (hO : ∀ c ∈ (qqbar_div O x y).calls, ContractAt O c) :
    ∃ r, (qqbar_div O x y).res = some r ∧ qqbar_is_rational r = true ∧
      rat_value r = rat_value x / rat_value y := by
  obtain ⟨zx, hzx, -, -⟩ := hx.isolates
  obtain ⟨zy, hzy, -, -⟩ := hy.isolates
  have hzy0 : zy ≠ 0 := ne_zero_of_not_is_zero hy hzy hnz
  have hvx := value_of_rational hx hxr hzx
  have hvy := value_of_rational hy hyr hzy
  have hvy0 : rat_value y ≠ 0 := by
    intro h
    apply hzy0
    rw [hvy, h]; simp
  have key : ∀ r, Computes r (zx / zy) →
      qqbar_is_rational r = true ∧ rat_value r = rat_value x / rat_value y := by
    intro r hr
    apply rational_of_computes_rat
    rw [hvx, hvy] at hr
    push_cast
    exact hr
  rcases qqbar_div_cases O x y with c | c | c | c | c | c | c | c | c | c
  · rw [c.1] at hnz; cases hnz
  · obtain ⟨-, h2, he⟩ := c
    rw [he]
    refine ⟨_, rfl, key _ ?_⟩
    rw [value_of_is_zero h2 hzx, zero_div]
    exact computes_qqbar_zero
  · obtain ⟨-, -, h3, he⟩ := c
    rw [he] at hO ⊢
    refine ⟨_, rfl, key _ ?_⟩
    have := hO (Call.qqbar_inv y) (by simp) zy hy hzy hzy0
    rwa [value_of_is_one h3 hzx, one_div]
  · obtain ⟨-, -, -, h4, he⟩ := c
    rw [he]
    refine ⟨_, rfl, key _ ?_⟩
    rw [value_of_is_one h4 hzy, div_one]
    exact ⟨hx, hzx⟩
  · obtain ⟨-, -, -, -, h5, he⟩ := c
    rw [he] at hO ⊢
    refine ⟨_, rfl, key _ ?_⟩
    have hi := hO (Call.qqbar_inv y) (by simp) zy hy hzy hzy0
    have := hO (Call.qqbar_neg (O.qqbar_inv y)) (by simp) zy⁻¹ hi.1 hi.2
    rw [value_of_is_neg_one h5 hzx]
    have e : (-1 : ℂ) / zy = -zy⁻¹ := by field_simp
    rwa [e]
  · obtain ⟨-, -, -, -, -, h6, he⟩ := c
    rw [he] at hO ⊢
    refine ⟨_, rfl, key _ ?_⟩
    have := hO (Call.qqbar_neg x) (by simp) zx hx hzx
    rw [value_of_is_neg_one h6 hzy]
    have e : zx / (-1 : ℂ) = -zx := by field_simp
    rwa [e]
  · obtain ⟨-, -, -, -, -, -, -, he⟩ := c
    rw [he] at hO ⊢
    refine ⟨_, rfl, key _ ?_⟩
    have hl := lead_of_rational hy hyr
    have hl' : ((QQBAR_COEFFS y 1 : ℤ) : ℂ) ≠ 0 := by exact_mod_cast hl.ne'
    have hzv : zy = -((QQBAR_COEFFS y 0 : ℤ) : ℂ) / ((QQBAR_COEFFS y 1 : ℤ) : ℂ) := by
      rw [hvy, rat_value_cast]
    have hc0 : QQBAR_COEFFS y 0 ≠ 0 := by
      intro h0
      apply hzy0
      rw [hzv, h0]; simp
    have hc0' : ((QQBAR_COEFFS y 0 : ℤ) : ℂ) ≠ 0 := by exact_mod_cast hc0
    have := hO (Call.qqbar_scalar_op x (QQBAR_COEFFS y 1) 0 (-QQBAR_COEFFS y 0))
      (by simp) zx hx hzx (by omega)
    have e : (((QQBAR_COEFFS y 1 : ℤ) : ℂ) * zx + ((0 : ℤ) : ℂ)) /
        ((-QQBAR_COEFFS y 0 : ℤ) : ℂ) = zx / zy := by
      rw [hzv]; push_cast; field_simp; ring
    rwa [e] at this
  all_goals
    have := c.2.2.2.2.2.2.1
    rw [hyr] at this
    cases this


theorem three_halves_div_calls :
    (qqbar_div ratOps (qqbar_set_fmpq ⟨3, 2⟩) (qqbar_set_fmpq ⟨5, 7⟩)).calls =
      [Call.qqbar_scalar_op (qqbar_set_fmpq ⟨3, 2⟩) 7 0 5] := by
  decide!

/-- Witness for C5: `(3/2) / (5/7)` on the scalar-transform branch, with the
exact rational instance of the combinators. -/
theorem qqbar_div_rational_witness :
    WellFormed (qqbar_set_fmpq ⟨3, 2⟩) ∧ WellFormed (qqbar_set_fmpq ⟨5, 7⟩) ∧
    qqbar_is_rational (qqbar_set_fmpq ⟨3, 2⟩) = true ∧
    qqbar_is_rational (qqbar_set_fmpq ⟨5, 7⟩) = true ∧
    qqbar_is_zero (qqbar_set_fmpq ⟨5, 7⟩) = false ∧
    (∀ c ∈ (qqbar_div ratOps (qqbar_set_fmpq ⟨3, 2⟩) (qqbar_set_fmpq ⟨5, 7⟩)).calls,
      ContractAt ratOps c) ∧
    ∃ r, (qqbar_div ratOps (qqbar_set_fmpq ⟨3, 2⟩) (qqbar_set_fmpq ⟨5, 7⟩)).res = some r ∧
      qqbar_is_rational r = true ∧
      rat_value r = rat_value (qqbar_set_fmpq ⟨3, 2⟩) / rat_value (qqbar_set_fmpq ⟨5, 7⟩) :=
  have hx := wf_set_fmpq ⟨3, 2⟩ (by norm_num) (by decide)
  have hy := wf_set_fmpq ⟨5, 7⟩ (by norm_num) (by decide)
  have hc : ∀ c ∈ (qqbar_div ratOps (qqbar_set_fmpq ⟨3, 2⟩) (qqbar_set_fmpq ⟨5, 7⟩)).calls,
      ContractAt ratOps c := by
    rw [three_halves_div_calls]
    intro c hc
    rw [List.mem_singleton] at hc
    rw [hc]
    exact ratOps_scalar_contract _ _ _ _ rfl
  ⟨hx.1, hy.1, rfl, rfl, by decide, hc,
    qqbar_div_rational ratOps _ _ hx.1 hy.1 rfl rfl (by decide) hc⟩

/-! ## The radical branch -/

theorem evalPoly_replicate {R : Type} [CommRing R] (n : ℕ) (c : ℤ) (z : R) :
    evalPoly (List.replicate n 0 ++ [c]) z = (c : R) * z ^ n := by
  induction n with
  | zero => simp [evalPoly]
  | succ n ih =>
    rw [List.replicate_succ, List.cons_append, evalPoly, ih]
    push_cast
    ring

theorem evalPoly_binomial {R : Type} [CommRing R] (n : ℕ) (c0 cd : ℤ) (z : R) :
    evalPoly (c0 :: (List.replicate n 0 ++ [cd])) z = (c0 : R) + (cd : R) * z ^ (n + 1) := by
  rw [evalPoly, evalPoly_replicate]
  ring

/-- Shape facts for a number whose polynomial is the binomial `cd X^d + c0`. -/
theorem binomial_shape {x : qqbar} {d : ℕ} {c0 cd : ℤ} (hd : 2 ≤ d)
    (hp : x.poly = c0 :: (List.replicate (d - 1) 0 ++ [cd])) :
    qqbar_degree x = d ∧ QQBAR_COEFFS x 0 = c0 ∧ QQBAR_COEFFS x d = cd ∧
    middle_is_zero x = true ∧ qqbar_is_zero x = false ∧ qqbar_is_one x = false ∧
    qqbar_is_neg_one x = false ∧ qqbar_is_rational x = false := by
  have hlen : x.poly.length = d + 1 := by
    rw [hp]; simp; omega
  have hdeg : qqbar_degree x = d := by unfold qqbar_degree; omega
  have hne : ∀ a b : ℤ, x.poly ≠ [a, b] := by
    intro a b h
    rw [h] at hlen
    simp at hlen
    omega
  refine ⟨hdeg, ?_, ?_, ?_, ?_, ?_, ?_, ?_⟩
  · simp [QQBAR_COEFFS, hp]
  · unfold QQBAR_COEFFS
    rw [hp]
    obtain ⟨k, rfl⟩ : ∃ k, d = k + 1 := ⟨d - 1, by omega⟩
    rw [List.getD_cons_succ, List.getD_eq_getElem?_getD,
      List.getElem?_append_right (by simp)]
    simp
  · unfold middle_is_zero
    rw [hdeg, hp]
    simp
  · simpa [qqbar_is_zero] using hne 0 1
  · simpa [qqbar_is_one] using hne (-1) 1
  · simpa [qqbar_is_neg_one] using hne 1 1
  · simp [qqbar_is_rational, hlen]; omega

theorem fmpq_div_toRat (t u : fmpq) : (fmpq_div t u).toRat = t.toRat / u.toRat := by
  generalize hq : t.toRat / u.toRat = q
  have h : (fmpq_div t u).toRat = (q.num : ℚ) / ((q.den : ℤ) : ℚ) := by
    rw [← hq]; rfl
  rw [h]
  exact_mod_cast Rat.num_div_den q

theorem fmpq_pow_si_toRat (t : fmpq) (k : ℕ) : (fmpq_pow_si t k).toRat = t.toRat ^ k := by
  simp only [fmpq_pow_si, fmpq.toRat]
  push_cast
  rw [div_pow]

theorem fmpq_div_canonical (t u : fmpq) :
    0 < (fmpq_div t u).den ∧ Int.gcd (fmpq_div t u).num (fmpq_div t u).den = 1 := by
  simp only [fmpq_div]
  refine ⟨by exact_mod_cast (t.toRat / u.toRat).den_pos, ?_⟩
  simpa [Int.gcd, Nat.Coprime] using (t.toRat / u.toRat).reduced

theorem div_mul_eq_mul_div_of_dvd (d e g : ℕ) (hd : g ∣ d) (he : g ∣ e) :
    d / g * e = d * (e / g) := by
  obtain ⟨a, rfl⟩ := hd
  obtain ⟨b, rfl⟩ := he
  rcases Nat.eq_zero_or_pos g with h | h
  · subst h; simp
  · rw [Nat.mul_div_cancel_left _ h, Nat.mul_div_cancel_left _ h]
    ring

theorem radical_index (d e : ℕ) :
    d / Nat.gcd d e * e = d * (e / Nat.gcd d e) ∧
    d / Nat.gcd d e * e = e * (d / Nat.gcd d e) :=
  ⟨div_mul_eq_mul_div_of_dvd d e _ (Nat.gcd_dvd_left d e) (Nat.gcd_dvd_right d e),
    Nat.mul_comm _ _⟩


theorem radical_branch (O : QqbarOps) (x y : qqbar)
    (hx : qqbar_is_zero x = false ∧ qqbar_is_one x = false ∧
      qqbar_is_neg_one x = false ∧ qqbar_is_rational x = false)
    (hy : qqbar_is_zero y = false ∧ qqbar_is_one y = false ∧
      qqbar_is_neg_one y = false ∧ qqbar_is_rational y = false)
    (hg : radical_guard x y = true) :
    qqbar_div O x y = ⟨[Call.qqbar_fmpq_root_ui (radical_t x y) (radical_f x y)],
      some (O.qqbar_fmpq_root_ui (radical_t x y) (radical_f x y))⟩ := by
  obtain ⟨x1, x2, x3, x4⟩ := hx
  obtain ⟨y1, y2, y3, y4⟩ := hy
  rcases qqbar_div_cases O x y with c | c | c | c | c | c | c | c | c | c
  · exact absurd c.1 (by rw [y1]; decide)
  · exact absurd c.2.1 (by rw [x1]; decide)
  · exact absurd c.2.2.1 (by rw [x2]; decide)
  · exact absurd c.2.2.2.1 (by rw [y2]; decide)
  · exact absurd c.2.2.2.2.1 (by rw [x3]; decide)
  · exact absurd c.2.2.2.2.2.1 (by rw [y3]; decide)
  · exact absurd c.2.2.2.2.2.2.1 (by rw [y4]; decide)
  · exact absurd c.2.2.2.2.2.2.2.1 (by rw [x4]; decide)
  · exact c.2.2.2.2.2.2.2.2.2
  · exact absurd c.2.2.2.2.2.2.2.2.1 (by rw [hg]; decide)

/-- C6 (amended): for positive real pure radicals `x = (p/q)^(1/d)` and
`y = (r/s)^(1/e)` with `d, e >= 2` (polynomials `q X^d - p` and `s X^e - r`)
on which the radical branch is taken, with `g = gcd(d, e)` and
`f = (d/g) e` below `2^64` (the index is computed in a 64-bit word): the only
call is the root extraction of index `f` from the exact rational
`v = (p/q)^(e/g) / (r/s)^(d/g)`, the true quotient `x / y` is the positive
real `f`-th root of `v`, and the contract of the root extraction makes `res`
stand for `x / y`. -/
theorem qqbar_div_radical (O : QqbarOps) (x y : qqbar) (d e : ℕ) (p q r s : ℤ) (zx zy : ℝ)
    (hd : 2 ≤ d) (he : 2 ≤ e)
    (hxp : x.poly = -p :: (List.replicate (d - 1) 0 ++ [q]))
    (hyp : y.poly = -r :: (List.replicate (e - 1) 0 ++ [s]))
    (hp : 0 < p) (hq : 0 < q) (hr : 0 < r) (hs : 0 < s)
    (hxe : arb_contains_zero x.enclosure.imag = true ∧
      arb_is_positive x.enclosure.real = true)
    (hye : arb_contains_zero y.enclosure.imag = true ∧
      arb_is_positive y.enclosure.real = true)
    (hzx : Represents x (zx : ℂ)) (hzxp : 0 < zx)
    (hzy : Represents y (zy : ℂ)) (hzyp : 0 < zy)
    (hf : d / Nat.gcd d e * e < 2 ^ 64) :
    (qqbar_div O x y).calls =
      [Call.qqbar_fmpq_root_ui
        (fmpq_div (fmpq_pow_si ⟨p, q⟩ (e / Nat.gcd d e))
          (fmpq_pow_si ⟨r, s⟩ (d / Nat.gcd d e)))
        (d / Nat.gcd d e * e)] ∧
    (qqbar_div O x y).res =
      some (O.qqbar_fmpq_root_ui
        (fmpq_div (fmpq_pow_si ⟨p, q⟩ (e / Nat.gcd d e))
          (fmpq_pow_si ⟨r, s⟩ (d / Nat.gcd d e)))
        (d / Nat.gcd d e * e)) ∧
    (fmpq_div (fmpq_pow_si ⟨p, q⟩ (e / Nat.gcd d e))
        (fmpq_pow_si ⟨r, s⟩ (d / Nat.gcd d e))).toRat =
      ((p : ℚ) / q) ^ (e / Nat.gcd d e) / ((r : ℚ) / s) ^ (d / Nat.gcd d e) ∧
    0 < zx / zy ∧
    (zx / zy) ^ (d / Nat.gcd d e * e) =
      (((fmpq_div (fmpq_pow_si ⟨p, q⟩ (e / Nat.gcd d e))
        (fmpq_pow_si ⟨r, s⟩ (d / Nat.gcd d e))).toRat : ℚ) : ℝ) ∧
    (ContractAt O (Call.qqbar_fmpq_root_ui
        (fmpq_div (fmpq_pow_si ⟨p, q⟩ (e / Nat.gcd d e))
          (fmpq_pow_si ⟨r, s⟩ (d / Nat.gcd d e)))
        (d / Nat.gcd d e * e)) →
      Computes (O.qqbar_fmpq_root_ui
        (fmpq_div (fmpq_pow_si ⟨p, q⟩ (e / Nat.gcd d e))
          (fmpq_pow_si ⟨r, s⟩ (d / Nat.gcd d e)))
        (d / Nat.gcd d e * e)) ((zx / zy : ℝ) : ℂ)) := by
  obtain ⟨sx1, sx2, sx3, sx4, sx5⟩ := binomial_shape hd hxp
  obtain ⟨sy1, sy2, sy3, sy4, sy5⟩ := binomial_shape he hyp
  have hg : radical_guard x y = true := by
    simp only [radical_guard, sx4, sy4, sx2, sy2, hxe.1, hxe.2, hye.1, hye.2, Bool.and_self,
      Bool.and_true, Bool.true_and, decide_eq_true_eq, Left.neg_neg_iff, hp, hr, decide_True]
  have hb := radical_branch O x y sx5 sy5 hg
  have ht : radical_t x y = fmpq_div (fmpq_pow_si ⟨p, q⟩ (e / Nat.gcd d e))
      (fmpq_pow_si ⟨r, s⟩ (d / Nat.gcd d e)) := by
    unfold radical_t n_gcd
    rw [sx1, sy1, sx2, sy2, sx3, sy3, neg_neg, neg_neg]
  have hfe : radical_f x y = d / Nat.gcd d e * e := by
    unfold radical_f n_gcd
    rw [sx1, sy1, Nat.mod_eq_of_lt hf]
  rw [ht, hfe] at hb
  have hv : (fmpq_div (fmpq_pow_si ⟨p, q⟩ (e / Nat.gcd d e))
        (fmpq_pow_si ⟨r, s⟩ (d / Nat.gcd d e))).toRat =
      ((p : ℚ) / q) ^ (e / Nat.gcd d e) / ((r : ℚ) / s) ^ (d / Nat.gcd d e) := by
    rw [fmpq_div_toRat, fmpq_pow_si_toRat, fmpq_pow_si_toRat]
    rfl
  have hq' : (q : ℝ) ≠ 0 := by exact_mod_cast hq.ne'
  have hs' : (s : ℝ) ≠ 0 := by exact_mod_cast hs.ne'
  have hxd : zx ^ d = (p : ℝ) / q := by
    have h1 := hzx.1
    rw [hxp, evalPoly_binomial, Nat.sub_add_cancel (by omega)] at h1
    have h2 : ((-(p : ℝ) + q * zx ^ d : ℝ) : ℂ) = 0 := by
      push_cast
      push_cast at h1
      exact h1
    have h3 := Complex.ofReal_eq_zero.mp h2
    field_simp
    linarith
  have hye' : zy ^ e = (r : ℝ) / s := by
    have h1 := hzy.1
    rw [hyp, evalPoly_binomial, Nat.sub_add_cancel (by omega)] at h1
    have h2 : ((-(r : ℝ) + s * zy ^ e : ℝ) : ℂ) = 0 := by
      push_cast
      push_cast at h1
      exact h1
    have h3 := Complex.ofReal_eq_zero.mp h2
    field_simp
    linarith
  have hpos : 0 < zx / zy := div_pos hzxp hzyp
  have hpow : (zx / zy) ^ (d / Nat.gcd d e * e) =
      (((fmpq_div (fmpq_pow_si ⟨p, q⟩ (e / Nat.gcd d e))
        (fmpq_pow_si ⟨r, s⟩ (d / Nat.gcd d e))).toRat : ℚ) : ℝ) := by
    rw [hv, div_pow]
    nth_rewrite 1 [(radical_index d e).1]
    rw [(radical_index d e).2, pow_mul, pow_mul, hxd, hye']
    push_cast
    rfl
  refine ⟨by rw [hb], by rw [hb], hv, hpos, hpow, ?_⟩
  intro hc
  have hfpos : 0 < d / Nat.gcd d e * e := by
    have hgpos : 0 < Nat.gcd d e := Nat.gcd_pos_of_pos_left e (by omega)
    have h1 : 0 < d / Nat.gcd d e :=
      Nat.div_pos (Nat.le_of_dvd (by omega) (Nat.gcd_dvd_left d e)) hgpos
    exact Nat.mul_pos h1 (by omega)
  have hcan := fmpq_div_canonical (fmpq_pow_si ⟨p, q⟩ (e / Nat.gcd d e))
      (fmpq_pow_si ⟨r, s⟩ (d / Nat.gcd d e))
  exact hc (zx / zy) hfpos hcan.1 hcan.2 hpos hpow


theorem represents_sqrt8 : Represents sqrt8 ((Real.sqrt 8 : ℝ) : ℂ) := by
  have hb : (26 / 10 : ℝ) ≤ Real.sqrt 8 ∧ Real.sqrt 8 ≤ 3 := by
    constructor
    · apply Real.le_sqrt_of_sq_le
      norm_num
    · rw [Real.sqrt_le_left (by norm_num)]
      norm_num
  have h := represents_sqrt 8 ⟨14 / 5, 1 / 5⟩ (by
    rw [arb_contains_iff]
    constructor <;> norm_num <;> linarith)
  simpa [sqrt8] using h

theorem ratOps_root_four :
    ContractAt ratOps (Call.qqbar_fmpq_root_ui ⟨4, 1⟩ 2) := by
  intro r _ _ _ hr hr2
  have h1 : r = 2 := by
    have : r ^ 2 = 4 := by simpa [fmpq.toRat] using hr2
    nlinarith
  have e : ratOps.qqbar_fmpq_root_ui ⟨4, 1⟩ 2 = qqbar_set_fmpq ⟨2, 1⟩ := by decide!
  rw [e, h1]
  simpa [fmpq.toRat] using wf_set_fmpq ⟨2, 1⟩ (by norm_num) (by norm_num)

/-- Witness for C6 (amended): `sqrt 8 / sqrt 2`, where `d = e = g = f = 2` and
`v = 8 / 2 = 4`, with the exact rational instance of the combinators. -/
theorem qqbar_div_radical_witness :
    Represents sqrt8 ((Real.sqrt 8 : ℝ) : ℂ) ∧ 0 < Real.sqrt 8 ∧
    Represents sqrt2 ((Real.sqrt 2 : ℝ) : ℂ) ∧ 0 < Real.sqrt 2 ∧
    ContractAt ratOps (Call.qqbar_fmpq_root_ui ⟨4, 1⟩ 2) ∧
    (qqbar_div ratOps sqrt8 sqrt2).calls = [Call.qqbar_fmpq_root_ui ⟨4, 1⟩ 2] ∧
    (Real.sqrt 8 / Real.sqrt 2) ^ 2 = (((⟨4, 1⟩ : fmpq).toRat : ℚ) : ℝ) ∧
    Computes (ratOps.qqbar_fmpq_root_ui ⟨4, 1⟩ 2) ((Real.sqrt 8 / Real.sqrt 2 : ℝ) : ℂ) :=
  have e1 : fmpq_div (fmpq_pow_si ⟨8, 1⟩ (2 / Nat.gcd 2 2))
      (fmpq_pow_si ⟨2, 1⟩ (2 / Nat.gcd 2 2)) = ⟨4, 1⟩ := by decide!
  have e2 : 2 / Nat.gcd 2 2 * 2 = 2 := by decide
  have h8 : 0 < Real.sqrt 8 := Real.sqrt_pos.mpr (by norm_num)
  have h2 : 0 < Real.sqrt 2 := Real.sqrt_pos.mpr (by norm_num)
  have h := qqbar_div_radical ratOps sqrt8 sqrt2 2 2 8 1 2 1 (Real.sqrt 8) (Real.sqrt 2)
    (le_refl 2) (le_refl 2) rfl rfl (by norm_num) (by norm_num) (by norm_num) (by norm_num)
    ⟨by decide!, by decide!⟩ ⟨by decide!, by decide!⟩
    represents_sqrt8 h8 wf_sqrt2.2 h2 (by decide)
  ⟨represents_sqrt8, h8, wf_sqrt2.2, h2, ratOps_root_four,
    by rw [← e1]; exact h.1,
    by rw [← e1]; exact h.2.2.2.2.1,
    by
      have := h.2.2.2.2.2
      rw [e1, e2] at this
      exact this ratOps_root_four⟩

/-! ## The radical index is a machine word -/

theorem exists_root_two (n : ℕ) (hn : 1 ≤ n) : ∃ r : ℝ, 1 ≤ r ∧ r ≤ 2 ∧ r ^ n = 2 := by
  have hpow : ((2 : ℝ) ^ ((n : ℝ)⁻¹)) ^ n = 2 :=
    Real.rpow_inv_natCast_pow (by norm_num) (by omega)
  have h1 : (1 : ℝ) ≤ (2 : ℝ) ^ ((n : ℝ)⁻¹) :=
    Real.one_le_rpow (by norm_num) (by positivity)
  refine ⟨_, h1, ?_, hpow⟩
  calc (2 : ℝ) ^ ((n : ℝ)⁻¹) ≤ ((2 : ℝ) ^ ((n : ℝ)⁻¹)) ^ n := le_self_pow₀ h1 (by omega)
    _ = 2 := hpow

theorem represents_root_of_two (d : ℕ) (hd : 1 ≤ d) (r : ℝ) (h1 : 1 ≤ r) (h2 : r ≤ 2)
    (hr : r ^ d = 2) : Represents (root_of_two d) (r : ℂ) := by
  constructor
  · simp only [root_of_two]
    rw [evalPoly_binomial, Nat.sub_add_cancel hd]
    have : ((r : ℂ)) ^ d = 2 := by exact_mod_cast hr
    rw [this]
    push_cast
    ring
  · refine ⟨(arb_contains_iff _ _).mpr ?_, (arb_contains_iff _ _).mpr ?_⟩
    · simp only [root_of_two, Complex.ofReal_re]
      constructor <;> norm_num <;> linarith
    · simp [root_of_two]

theorem fmpq_div_pow_two (n : ℕ) :
    fmpq_div (fmpq_pow_si ⟨2, 1⟩ (n + 1)) (fmpq_pow_si ⟨2, 1⟩ n) = ⟨2, 1⟩ := by
  have h : (fmpq_pow_si ⟨2, 1⟩ (n + 1)).toRat / (fmpq_pow_si ⟨2, 1⟩ n).toRat = 2 := by
    rw [fmpq_pow_si_toRat, fmpq_pow_si_toRat]
    have h2 : (⟨2, 1⟩ : fmpq).toRat = 2 := by simp [fmpq.toRat]
    rw [h2, pow_succ]
    field_simp
  unfold fmpq_div
  rw [h]
  rfl

theorem root_of_two_shape (d : ℕ) (hd : 2 ≤ d) :
    qqbar_degree (root_of_two d) = d ∧ QQBAR_COEFFS (root_of_two d) 0 = -2 ∧
    QQBAR_COEFFS (root_of_two d) d = 1 ∧ middle_is_zero (root_of_two d) = true ∧
    qqbar_is_zero (root_of_two d) = false ∧ qqbar_is_one (root_of_two d) = false ∧
    qqbar_is_neg_one (root_of_two d) = false ∧ qqbar_is_rational (root_of_two d) = false :=
  binomial_shape hd rfl

theorem root_of_two_guard (d e : ℕ) (hd : 2 ≤ d) (he : 2 ≤ e) :
    radical_guard (root_of_two d) (root_of_two e) = true := by
  obtain ⟨-, sx2, -, sx4, -⟩ := root_of_two_shape d hd
  obtain ⟨-, sy2, -, sy4, -⟩ := root_of_two_shape e he
  have e1 : arb_contains_zero (root_of_two d).enclosure.imag = true := by
    simp [root_of_two, arb_contains_zero]
  have e2 : arb_is_positive (root_of_two d).enclosure.real = true := by
    simp [root_of_two, arb_is_positive]; norm_num
  have e3 : arb_contains_zero (root_of_two e).enclosure.imag = true := by
    simp [root_of_two, arb_contains_zero]
  have e4 : arb_is_positive (root_of_two e).enclosure.real = true := by
    simp [root_of_two, arb_is_positive]; norm_num
  simp only [radical_guard, sx4, sy4, sx2, sy2, e1, e2, e3, e4]
  decide

theorem root_of_two_succ_calls (d : ℕ) (hd : 2 ≤ d) :
    (qqbar_div ratOps (root_of_two d) (root_of_two (d + 1))).calls =
      [Call.qqbar_fmpq_root_ui ⟨2, 1⟩ ((d * (d + 1)) % 2 ^ 64)] := by
  obtain ⟨sx1, sx2, sx3, -, sx5⟩ := root_of_two_shape d hd
  obtain ⟨sy1, sy2, sy3, -, sy5⟩ := root_of_two_shape (d + 1) (by omega)
  have hgcd : Nat.gcd d (d + 1) = 1 := by simp
  have ht : radical_t (root_of_two d) (root_of_two (d + 1)) = ⟨2, 1⟩ := by
    unfold radical_t n_gcd
    rw [sx1, sy1, sx2, sy2, sx3, sy3, hgcd, Nat.div_one, Nat.div_one]
    exact fmpq_div_pow_two d
  have hf : radical_f (root_of_two d) (root_of_two (d + 1)) = (d * (d + 1)) % 2 ^ 64 := by
    unfold radical_f n_gcd
    rw [sx1, sy1, hgcd, Nat.div_one]
  rw [radical_branch ratOps _ _ sx5 sy5 (root_of_two_guard d (d + 1) hd (by omega)), ht, hf]

theorem root_of_two_quotient (d : ℕ) (hd : 1 ≤ d) :
    ∃ zx zy : ℝ, 0 < zx ∧ 0 < zy ∧
      Represents (root_of_two d) (zx : ℂ) ∧ Represents (root_of_two (d + 1)) (zy : ℂ) ∧
      zx ^ d = 2 ∧ (zx / zy) ^ d ≠ 2 := by
  obtain ⟨zx, hx1, hx2, hx3⟩ := exists_root_two d hd
  obtain ⟨zy, hy1, hy2, hy3⟩ := exists_root_two (d + 1) (by omega)
  refine ⟨zx, zy, by linarith, by linarith,
    represents_root_of_two _ hd zx hx1 hx2 hx3,
    represents_root_of_two _ (by omega) zy hy1 hy2 hy3, hx3, ?_⟩
  intro h
  rw [div_pow, hx3] at h
  have hzy : zy ^ d = 1 := by
    have hne : zy ^ d ≠ 0 := pow_ne_zero _ (by linarith)
    field_simp at h
    linarith
  have hzy1 : zy = 1 := by
    rcases eq_or_lt_of_le hy1 with h1 | h1
    · exact h1.symm
    · exact absurd hzy (ne_of_gt (one_lt_pow₀ h1 (by omega)))
  rw [hzy1, one_pow] at hy3
  norm_num at hy3

/-- C6 (as stated) fails when the index overflows: for `x = 2^(1/d)` and
`y = 2^(1/e)` with `d = 2^32` and `e = 2^32 + 1`, both positive real pure
radicals passing the guard, `g = 1` and `(d/g) e = 2^64 + 2^32`, but the index
handed to the root extraction is the 64-bit word `2^32`, with `v = 2`; the
positive real `2^32`-th root of 2 is `x` itself and not `x / y`. -/
theorem qqbar_div_radical_index_wraps :
    (∃ zx zy : ℝ, 0 < zx ∧ 0 < zy ∧
      Represents (root_of_two (2 ^ 32)) (zx : ℂ) ∧
      Represents (root_of_two (2 ^ 32 + 1)) (zy : ℂ) ∧
      zx ^ 2 ^ 32 = 2 ∧ (zx / zy) ^ 2 ^ 32 ≠ 2) ∧
    radical_guard (root_of_two (2 ^ 32)) (root_of_two (2 ^ 32 + 1)) = true ∧
    (qqbar_div ratOps (root_of_two (2 ^ 32)) (root_of_two (2 ^ 32 + 1))).calls =
      [Call.qqbar_fmpq_root_ui ⟨2, 1⟩ (2 ^ 32)] ∧
    2 ^ 32 / Nat.gcd (2 ^ 32) (2 ^ 32 + 1) * (2 ^ 32 + 1) = 2 ^ 64 + 2 ^ 32 := by
  refine ⟨root_of_two_quotient (2 ^ 32) (by norm_num),
    root_of_two_guard _ _ (by norm_num) (by norm_num), ?_, by norm_num⟩
  rw [root_of_two_succ_calls (2 ^ 32) (by norm_num)]
  norm_num

/-! ## The polynomial `X^n - 2` is minimal for each of its roots -/

theorem irreducible_X_pow_sub_two (n : ℕ) (hn : 1 ≤ n) :
    Irreducible (X ^ n - C 2 : ℤ[X]) := by
  have hmonic : (X ^ n - C 2 : ℤ[X]).Monic := monic_X_pow_sub_C 2 (by omega)
  have hdeg : (X ^ n - C 2 : ℤ[X]).degree = n := degree_X_pow_sub_C (by omega) 2
  have hprime : (Ideal.span {(2 : ℤ)}).IsPrime :=
    (Ideal.span_singleton_prime (by norm_num)).mpr Int.prime_two
  apply irreducible_of_eisenstein_criterion hprime
  · rw [hmonic.leadingCoeff, Ideal.mem_span_singleton]
    norm_num
  · intro k hk
    rw [hdeg] at hk
    have hk' : k < n := by exact_mod_cast hk
    rw [coeff_sub, coeff_X_pow, coeff_C, if_neg (by omega), Ideal.mem_span_singleton]
    by_cases h0 : k = 0
    · simp [h0]
    · simp [h0]
  · rw [hdeg]
    exact_mod_cast hn
  · rw [coeff_sub, coeff_X_pow, coeff_C_zero, if_neg (by omega), Ideal.span_singleton_pow,
      Ideal.mem_span_singleton]
    norm_num
  · exact hmonic.isPrimitive

theorem natDegree_ge_of_root_X_pow_sub_two (n : ℕ) (hn : 1 ≤ n) (z : ℂ) (hz : z ^ n = 2)
    (q : ℤ[X]) (hq : q ≠ 0) (hqz : aeval z q = 0) : n ≤ q.natDegree := by
  have hmonic : (X ^ n - C 2 : ℤ[X]).Monic := monic_X_pow_sub_C 2 (by omega)
  have hirr := (IsPrimitive.Int.irreducible_iff_irreducible_map_cast hmonic.isPrimitive).mp
    (irreducible_X_pow_sub_two n hn)
  have hmap : (X ^ n - C 2 : ℤ[X]).map (Int.castRingHom ℚ) = X ^ n - C 2 := by
    rw [Polynomial.map_sub, Polynomial.map_pow, Polynomial.map_X, Polynomial.map_C]
    simp
  rw [hmap] at hirr
  have hmonicQ : (X ^ n - C 2 : ℚ[X]).Monic := monic_X_pow_sub_C 2 (by omega)
  have hroot : aeval z (X ^ n - C 2 : ℚ[X]) = 0 := by
    simp [hz]
  have hmin := minpoly.eq_of_irreducible_of_monic hirr hroot hmonicQ
  have hq' : q.map (Int.castRingHom ℚ) ≠ 0 := by
    intro h
    apply hq
    exact Polynomial.map_injective _ Int.cast_injective (by rw [h, Polynomial.map_zero])
  have hqz' : aeval z (q.map (Int.castRingHom ℚ)) = 0 := by
    have := aeval_map_algebraMap (A := ℚ) z q
    rw [← hqz, ← this]
    rfl
  have h1 := minpoly.degree_le_of_ne_zero ℚ z hq' hqz'
  rw [← hmin] at h1
  have h2 := natDegree_le_natDegree h1
  rw [natDegree_X_pow_sub_C, natDegree_map_eq_of_injective Int.cast_injective] at h2
  exact h2


/-! ## A non-real root that passes the radical-branch guard -/

theorem eighth_root_facts :
    ∃ a s t : ℝ, 0 < a ∧ a * a = s / 2 ∧ 0 < s ∧ s * s = t ∧ 0 < t ∧ t * t = 2 ∧
      7 / 10 ≤ a ∧ a ≤ 8 / 10 ∧ 1 ≤ s := by
  have ht0 : 0 < Real.sqrt 2 := Real.sqrt_pos.mpr (by norm_num)
  have ht2 : Real.sqrt 2 * Real.sqrt 2 = 2 := Real.mul_self_sqrt (by norm_num)
  have hs0 : 0 < Real.sqrt (Real.sqrt 2) := Real.sqrt_pos.mpr ht0
  have hs2 : Real.sqrt (Real.sqrt 2) * Real.sqrt (Real.sqrt 2) = Real.sqrt 2 :=
    Real.mul_self_sqrt ht0.le
  have ha0 : 0 < Real.sqrt (Real.sqrt (Real.sqrt 2) / 2) := Real.sqrt_pos.mpr (by positivity)
  have ha2 : Real.sqrt (Real.sqrt (Real.sqrt 2) / 2) * Real.sqrt (Real.sqrt (Real.sqrt 2) / 2)
      = Real.sqrt (Real.sqrt 2) / 2 := Real.mul_self_sqrt (by positivity)
  refine ⟨_, _, _, ha0, ha2, hs0, hs2, ht0, ht2, ?_, ?_, ?_⟩
  all_goals
    set t := Real.sqrt 2
    set s := Real.sqrt t
    set a := Real.sqrt (s / 2)
  · have h1 : 1 ≤ t := by nlinarith
    have h2 : 1 ≤ s := by nlinarith
    nlinarith
  · have h1 : t ≤ 3 / 2 := by nlinarith
    have h2 : s ≤ 5 / 4 := by nlinarith
    nlinarith
  · have h1 : 1 ≤ t := by nlinarith
    nlinarith


theorem x8_poly : x8.poly = -2 :: (List.replicate 7 0 ++ [1]) := rfl

theorem x8_eval (w : ℂ) : evalPoly x8.poly w = w ^ 8 - 2 := by
  rw [x8_poly, evalPoly_binomial]
  push_cast
  ring

theorem x8_contains (w : ℂ) :
    acb_contains x8.enclosure w ↔
      (7 / 10 ≤ w.re ∧ w.re ≤ 8 / 10) ∧ (-(1 / 10) ≤ w.im ∧ w.im ≤ 9 / 10) := by
  unfold acb_contains
  rw [arb_contains_iff, arb_contains_iff]
  simp only [x8]
  push_cast
  constructor
  · rintro ⟨⟨h1, h2⟩, h3, h4⟩
    refine ⟨⟨?_, ?_⟩, ?_, ?_⟩ <;> linarith
  · rintro ⟨⟨h1, h2⟩, h3, h4⟩
    refine ⟨⟨?_, ?_⟩, ?_, ?_⟩ <;> linarith

theorem x8_computes : ∃ z : ℂ, z.im ≠ 0 ∧ Computes x8 z := by
  obtain ⟨a, s, t, ha0, ha2, hs0, hs2, ht0, ht2, hal, hau, hs1⟩ := eighth_root_facts
  have hz2 : (⟨a, a⟩ : ℂ) ^ 2 = ⟨0, s⟩ := by
    rw [sq]
    apply Complex.ext
    · simp
    · simp; linarith
  have hz4 : (⟨a, a⟩ : ℂ) ^ 4 = ⟨-t, 0⟩ := by
    have : (⟨a, a⟩ : ℂ) ^ 4 = ((⟨a, a⟩ : ℂ) ^ 2) ^ 2 := by ring
    rw [this, hz2, sq]
    apply Complex.ext
    · simp; linarith
    · simp
  have hz8 : (⟨a, a⟩ : ℂ) ^ 8 = 2 := by
    have : (⟨a, a⟩ : ℂ) ^ 8 = ((⟨a, a⟩ : ℂ) ^ 4) ^ 2 := by ring
    rw [this, hz4, sq]
    apply Complex.ext
    · simp; linarith
    · simp
  have hrep : Represents x8 ⟨a, a⟩ := by
    refine ⟨by rw [x8_eval, hz8]; ring, (x8_contains _).mpr ?_⟩
    refine ⟨⟨hal, hau⟩, ?_, ?_⟩ <;> simp only <;> linarith
  refine ⟨⟨a, a⟩, ha0.ne', ⟨by decide, by decide, by decide, by decide, ?_⟩, hrep⟩
  refine ⟨_, hrep, ?_, ?_⟩
  · rintro ⟨u, v⟩ ⟨hw1, hw2⟩
    rw [x8_eval] at hw1
    obtain ⟨⟨hu1, hu2⟩, hv1, hv2⟩ := (x8_contains _).mp hw2
    simp only at hu1 hu2 hv1 hv2
    have hw8 : (⟨u, v⟩ : ℂ) ^ 8 = (⟨a, a⟩ : ℂ) ^ 8 := by
      rw [hz8]
      linear_combination hw1
    have hw2' : (⟨u, v⟩ : ℂ) ^ 2 = ⟨u * u - v * v, u * v + v * u⟩ := by
      rw [sq]
      apply Complex.ext <;> simp
    have hfac : ((⟨u, v⟩ : ℂ) - ⟨a, a⟩) * ((⟨u, v⟩ : ℂ) + ⟨a, a⟩) *
        ((⟨u, v⟩ : ℂ) ^ 2 + (⟨a, a⟩ : ℂ) ^ 2) *
        (((⟨u, v⟩ : ℂ) ^ 2 - ⟨s, 0⟩) * ((⟨u, v⟩ : ℂ) ^ 2 + ⟨s, 0⟩)) = 0 := by
      have hs' : (⟨s, 0⟩ : ℂ) * ⟨s, 0⟩ = -(⟨a, a⟩ : ℂ) ^ 4 := by
        rw [hz4]
        apply Complex.ext
        · simp; linarith
        · simp
      linear_combination hw8 - ((⟨u, v⟩ : ℂ) ^ 4 - (⟨a, a⟩ : ℂ) ^ 4) * hs'
    rcases mul_eq_zero.mp hfac with h | h
    · rcases mul_eq_zero.mp h with h | h
      · rcases mul_eq_zero.mp h with h | h
        · exact sub_eq_zero.mp h
        · exfalso
          have := congrArg Complex.re h
          simp at this
          linarith
      · exfalso
        rw [hw2', hz2] at h
        have h1 := congrArg Complex.re h
        have h2 := congrArg Complex.im h
        simp at h1 h2
        nlinarith
    · exfalso
      rw [hw2'] at h
      rcases mul_eq_zero.mp h with h | h
      · have h1 := congrArg Complex.re h
        have h2 := congrArg Complex.im h
        simp at h1 h2
        have hv0 : v = 0 := by
          have : u * v = 0 := by linarith
          rcases mul_eq_zero.mp this with h' | h'
          · linarith
          · exact h'
        rw [hv0] at h1
        nlinarith
      · have h1 := congrArg Complex.re h
        have h2 := congrArg Complex.im h
        simp at h1 h2
        have hv0 : v = 0 := by
          have : u * v = 0 := by linarith
          rcases mul_eq_zero.mp this with h' | h'
          · linarith
          · exact h'
        rw [hv0] at h1
        nlinarith
  · intro q hq hqz
    have := natDegree_ge_of_root_X_pow_sub_two 8 (by norm_num) _ hz8 q hq hqz
    have hl : x8.poly.length = 9 := rfl
    rw [hl]
    omega


/-! ## What the radical-branch guard establishes -/

theorem poly_of_middle_zero (x : qqbar) (h2 : 2 ≤ x.poly.length)
    (hm : middle_is_zero x = true) :
    x.poly = QQBAR_COEFFS x 0 ::
      (List.replicate (qqbar_degree x - 1) 0 ++ [QQBAR_COEFFS x (qqbar_degree x)]) := by
  obtain ⟨cs, hcs⟩ : ∃ cs, x.poly = cs := ⟨_, rfl⟩
  match cs, hcs with
  | [], e => rw [e] at h2; simp at h2
  | c0 :: tl, e =>
    have hl : tl.length = qqbar_degree x := by
      unfold qqbar_degree; rw [e]; simp
    have hd : 1 ≤ qqbar_degree x := by
      unfold qqbar_degree; omega
    unfold middle_is_zero at hm
    rw [e, List.drop_one, List.tail_cons, List.all_eq_true] at hm
    have htake : tl.take (qqbar_degree x - 1) = List.replicate (qqbar_degree x - 1) 0 := by
      rw [List.eq_replicate_iff]
      refine ⟨by rw [List.length_take]; omega, ?_⟩
      intro b hb
      simpa using hm b hb
    have hdrop : ∃ c, tl.drop (qqbar_degree x - 1) = [c] := by
      rw [← List.length_eq_one, List.length_drop]
      omega
    obtain ⟨c, hc⟩ := hdrop
    have htl : tl = List.replicate (qqbar_degree x - 1) 0 ++ [c] := by
      rw [← htake, ← hc, List.take_append_drop]
    have hshape : x.poly = c0 :: (List.replicate (qqbar_degree x - 1) 0 ++ [c]) := by
      rw [e, ← htl]
    have hd2 : 2 ≤ qqbar_degree x ∨ qqbar_degree x = 1 := by omega
    have h0 : QQBAR_COEFFS x 0 = c0 := by simp [QQBAR_COEFFS, e]
    have hdc : QQBAR_COEFFS x (qqbar_degree x) = c := by
      unfold QQBAR_COEFFS
      generalize qqbar_degree x = d at hd hshape
      rw [hshape]
      obtain ⟨k, rfl⟩ : ∃ k, d = k + 1 := ⟨d - 1, by omega⟩
      rw [List.getD_cons_succ, List.getD_eq_getElem?_getD,
        List.getElem?_append_right (by simp)]
      simp
    rw [h0, hdc]
    exact hshape

theorem evalPoly_conj (cs : List ℤ) (z : ℂ) :
    evalPoly cs ((starRingEnd ℂ) z) = (starRingEnd ℂ) (evalPoly cs z) := by
  induction cs with
  | nil => simp [evalPoly]
  | cons c cs ih => simp [evalPoly, ih]

theorem real_of_conj_mem (x : qqbar) (z : ℂ) (hx : WellFormed x) (hz : Represents x z)
    (hsym : x.enclosure.imag.mid = 0) : z.im = 0 := by
  have hc : Represents x ((starRingEnd ℂ) z) := by
    refine ⟨by rw [evalPoly_conj, hz.1, map_zero], ?_, ?_⟩
    · simpa using hz.2.1
    · have := hz.2.2
      unfold arb_contains at this ⊢
      rw [hsym] at this ⊢
      simpa using this
  have h := hx.root_unique hz hc
  have h2 := congrArg Complex.im h
  simp at h2
  linarith

theorem real_of_small_degree (d : ℕ) (hd1 : 1 ≤ d) (hd4 : d ≤ 4) (c0 cd : ℝ) (u v : ℝ)
    (hc0 : c0 < 0) (hcd : 0 < cd) (hu : 0 < u)
    (h : (c0 : ℂ) + (cd : ℂ) * (⟨u, v⟩ : ℂ) ^ d = 0) : v = 0 := by
  have h1 := congrArg Complex.re h
  have h2 := congrArg Complex.im h
  interval_cases d
  · simp at h1 h2
    rcases h2 with h2 | h2
    · linarith
    · exact h2
  · simp [sq] at h1 h2
    rcases h2 with h2 | h2
    · linarith
    · have : u * v = 0 := by linarith
      rcases mul_eq_zero.mp this with h' | h'
      · linarith
      · exact h'
  · simp [pow_succ] at h1 h2
    rcases h2 with h2 | h2
    · linarith
    · by_contra hv
      have h3 : v * (3 * u * u - v * v) = 0 := by linarith
      have h4 : 3 * u * u - v * v = 0 := by
        rcases mul_eq_zero.mp h3 with h' | h'
        · exact absurd h' hv
        · exact h'
      have h5 : c0 = 8 * cd * (u * u * u) := by
        have : v * v = 3 * u * u := by linarith
        linear_combination h1 + 3 * cd * u * this
      have : 0 < 8 * cd * (u * u * u) := by positivity
      linarith
  · simp [pow_succ] at h1 h2
    rcases h2 with h2 | h2
    · linarith
    · by_contra hv
      have h3 : u * v * (u * u - v * v) = 0 := by nlinarith
      have h4 : u * u - v * v = 0 := by
        rcases mul_eq_zero.mp h3 with h' | h'
        · rcases mul_eq_zero.mp h' with h'' | h''
          · linarith
          · exact absurd h'' hv
        · exact h'
      have h5 : c0 = 4 * cd * (u * u * u * u) := by
        have : v * v = u * u := by linarith
        linear_combination h1 - cd * (v * v - 5 * u * u) * this
      have : 0 < 4 * cd * (u * u * u * u) := by positivity
      linarith
theorem pow_upper_half (u v : ℝ) (d : ℕ) (hu : 0 < u) (hv : 0 < v)
    (hd : 2 * (d : ℝ) * v ≤ u) (k : ℕ) (hk : k ≤ d) :
    0 < ((⟨u, v⟩ : ℂ) ^ k).re ∧ 0 ≤ ((⟨u, v⟩ : ℂ) ^ k).im ∧
    ((⟨u, v⟩ : ℂ) ^ k).im * u ≤ 2 * (k : ℝ) * v * ((⟨u, v⟩ : ℂ) ^ k).re ∧
    (1 ≤ k → 0 < ((⟨u, v⟩ : ℂ) ^ k).im) := by
  induction k with
  | zero => simp
  | succ k ih =>
    obtain ⟨hA, hB, hAB, -⟩ := ih (by omega)
    have hre : ((⟨u, v⟩ : ℂ) ^ (k + 1)).re =
        ((⟨u, v⟩ : ℂ) ^ k).re * u - ((⟨u, v⟩ : ℂ) ^ k).im * v := by
      rw [pow_succ, Complex.mul_re]
    have him : ((⟨u, v⟩ : ℂ) ^ (k + 1)).im =
        ((⟨u, v⟩ : ℂ) ^ k).re * v + ((⟨u, v⟩ : ℂ) ^ k).im * u := by
      rw [pow_succ, Complex.mul_im]
    rw [hre, him]
    generalize ((⟨u, v⟩ : ℂ) ^ k).re = A at hA hAB ⊢
    generalize ((⟨u, v⟩ : ℂ) ^ k).im = B at hB hAB ⊢
    have hkd : ((k : ℝ) + 1) ≤ d := by exact_mod_cast hk
    have hk0 : (0 : ℝ) ≤ k := Nat.cast_nonneg k
    have hkv0 : 0 ≤ (k : ℝ) * v := mul_nonneg hk0 hv.le
    have h1 : 2 * ((k : ℝ) + 1) * v ≤ u := by
      have : ((k : ℝ) + 1) * v ≤ d * v := mul_le_mul_of_nonneg_right hkd hv.le
      linarith
    have hkv : 2 * (k : ℝ) * v ≤ u := by linarith
    have hv2 : v ≤ u / 2 := by linarith
    have h2 : 2 * (k : ℝ) * v * v ≤ u * u / 2 := by
      have e1 : 2 * (k : ℝ) * v * v ≤ u * v := mul_le_mul_of_nonneg_right hkv hv.le
      have e2 : u * v ≤ u * (u / 2) := mul_le_mul_of_nonneg_left hv2 hu.le
      linarith
    have hBv : B * v * u ≤ 2 * (k : ℝ) * v * v * A := by
      have := mul_le_mul_of_nonneg_right hAB hv.le
      linarith
    have hAu : A * (u * u / 2) ≤ A * (u * u - 2 * (k : ℝ) * v * v) :=
      mul_le_mul_of_nonneg_left (by linarith) hA.le
    have hprod : 0 < (A * u - B * v) * u := by
      have : 0 < A * (u * u / 2) := by positivity
      linarith
    have hA' : 0 < A * u - B * v := (mul_pos_iff_of_pos_right hu).mp hprod
    have hB' : 0 < A * v + B * u := by positivity
    refine ⟨hA', hB'.le, ?_, fun _ => hB'⟩
    push_cast
    have h3 : 4 * (k : ℝ) * ((k : ℝ) + 1) * (v * v) ≤ u * u := by
      have e0 : 0 ≤ 2 * ((k : ℝ) + 1) * v := by positivity
      have e1 : (2 * ((k : ℝ) + 1) * v) * (2 * ((k : ℝ) + 1) * v) ≤ u * u :=
        mul_le_mul h1 h1 e0 hu.le
      have e2 : 0 ≤ ((k : ℝ) + 1) * (v * v) := by positivity
      linarith
    have hAv : 0 ≤ A * v := by positivity
    have h5 : A * v * (4 * (k : ℝ) * ((k : ℝ) + 1) * (v * v)) ≤ A * v * (u * u) :=
      mul_le_mul_of_nonneg_left h3 hAv
    have h6 : B * u * (u * u) ≤ 2 * (k : ℝ) * v * A * (u * u) :=
      mul_le_mul_of_nonneg_right hAB (by positivity)
    have h7 : 2 * ((k : ℝ) + 1) * v * (B * v * u) ≤
        2 * ((k : ℝ) + 1) * v * (2 * (k : ℝ) * v * v * A) :=
      mul_le_mul_of_nonneg_left hBv (by positivity)
    have h4 : (A * v + B * u) * u * u ≤ 2 * ((k : ℝ) + 1) * v * (A * u - B * v) * u := by
      linarith
    exact le_of_mul_le_mul_right h4 hu

theorem real_of_narrow (u v : ℝ) (d : ℕ) (hd1 : 1 ≤ d) (hu : 0 < u)
    (hd : 2 * (d : ℝ) * |v| ≤ u) (h : ((⟨u, v⟩ : ℂ) ^ d).im = 0) : v = 0 := by
  by_contra hv
  rcases lt_or_gt_of_ne hv with hneg | hpos
  · have h1 := (pow_upper_half u (-v) d hu (by linarith)
      (by rw [abs_of_neg hneg] at hd; exact hd) d (le_refl d)).2.2.2 hd1
    have hc : (⟨u, -v⟩ : ℂ) = (starRingEnd ℂ) ⟨u, v⟩ := rfl
    rw [hc, ← map_pow, Complex.conj_im, h] at h1
    simp at h1
  · have h1 := (pow_upper_half u v d hu hpos
      (by rw [abs_of_pos hpos] at hd; exact hd) d (le_refl d)).2.2.2 hd1
    rw [h] at h1
    exact lt_irrefl _ h1

/-- Enclosures on which the guard is sound: when the radical-branch guard
holds for a well-formed operand (middle coefficients zero, negative constant
coefficient, imaginary part of the enclosure containing zero, real part
strictly positive) and, in addition, the imaginary part of the enclosure is
centred at zero, or the degree `d` is at most 4, or the enclosure is narrow
(`4 d` times the radius of the imaginary part is at most the lower end of the
real part), the number it stands for is the positive real root
`(-c0/cd)^(1/d)` of `cd X^d + c0`. -/
theorem radical_guard_confirms (x : qqbar) (z : ℂ) (hx : WellFormed x)
    (hz : Represents x z) (hm : middle_is_zero x = true) (hc : QQBAR_COEFFS x 0 < 0)
    (hi : arb_contains_zero x.enclosure.imag = true)
    (hr : arb_is_positive x.enclosure.real = true)
    (hsym : x.enclosure.imag.mid = 0 ∨ qqbar_degree x ≤ 4 ∨
      4 * (qqbar_degree x : ℚ) * x.enclosure.imag.rad ≤
        x.enclosure.real.mid - x.enclosure.real.rad) :
    z.im = 0 ∧ 0 < z.re ∧
      z.re ^ qqbar_degree x =
        -(QQBAR_COEFFS x 0 : ℝ) / (QQBAR_COEFFS x (qqbar_degree x) : ℝ) := by
  have hshape := poly_of_middle_zero x hx.deg_pos hm
  have hd : 1 ≤ qqbar_degree x := by
    have := hx.deg_pos
    unfold qqbar_degree; omega
  have heval : ((QQBAR_COEFFS x 0 : ℤ) : ℂ) +
      ((QQBAR_COEFFS x (qqbar_degree x) : ℤ) : ℂ) * z ^ qqbar_degree x = 0 := by
    have h1 := hz.1
    rw [hshape, evalPoly_binomial, Nat.sub_add_cancel hd] at h1
    exact h1
  have hlow := ((arb_contains_iff _ _).mp hz.2.1).1
  have hre : 0 < z.re := by
    have h2 : x.enclosure.real.rad < x.enclosure.real.mid := by
      simpa [arb_is_positive] using hr
    have h3 : (x.enclosure.real.rad : ℝ) < x.enclosure.real.mid := by exact_mod_cast h2
    linarith
  have hc0 : ((QQBAR_COEFFS x 0 : ℤ) : ℝ) < 0 := by exact_mod_cast hc
  have hcd : (0 : ℝ) < ((QQBAR_COEFFS x (qqbar_degree x) : ℤ) : ℝ) := by
    exact_mod_cast hx.lead_pos
  have heval' : (((QQBAR_COEFFS x 0 : ℤ) : ℝ) : ℂ) +
      (((QQBAR_COEFFS x (qqbar_degree x) : ℤ) : ℝ) : ℂ) *
        (⟨z.re, z.im⟩ : ℂ) ^ qqbar_degree x = 0 := by
    rw [Complex.eta]
    exact_mod_cast heval
  have him : z.im = 0 := by
    rcases hsym with h | h | h
    · exact real_of_conj_mem x z hx hz h
    · exact real_of_small_degree (qqbar_degree x) hd h _ _ z.re z.im hc0 hcd hre heval'
    · apply real_of_narrow z.re z.im (qqbar_degree x) hd hre
      · have h0 : |x.enclosure.imag.mid| ≤ x.enclosure.imag.rad := by
          simpa [arb_contains_zero] using hi
        have h0' : |(x.enclosure.imag.mid : ℝ)| ≤ (x.enclosure.imag.rad : ℝ) := by
          exact_mod_cast h0
        have h1 : |z.im - (x.enclosure.imag.mid : ℝ)| ≤ (x.enclosure.imag.rad : ℝ) := hz.2.2
        have h2 : |z.im| ≤ 2 * (x.enclosure.imag.rad : ℝ) := by
          have := abs_add (z.im - (x.enclosure.imag.mid : ℝ)) (x.enclosure.imag.mid : ℝ)
          rw [sub_add_cancel] at this
          linarith
        have h3 : 4 * ((qqbar_degree x : ℕ) : ℝ) * (x.enclosure.imag.rad : ℝ) ≤
            (x.enclosure.real.mid : ℝ) - (x.enclosure.real.rad : ℝ) := by
          exact_mod_cast h
        have h4 : 2 * ((qqbar_degree x : ℕ) : ℝ) * |z.im| ≤
            2 * ((qqbar_degree x : ℕ) : ℝ) * (2 * (x.enclosure.imag.rad : ℝ)) :=
          mul_le_mul_of_nonneg_left h2 (by positivity)
        linarith
      · have h1 := congrArg Complex.im heval'
        simp only [Complex.add_im, Complex.ofReal_im, Complex.mul_im, Complex.ofReal_re,
          zero_mul, add_zero, zero_add, Complex.zero_im] at h1
        rcases mul_eq_zero.mp h1 with h2 | h2
        · exact absurd h2 hcd.ne'
        · exact h2
  refine ⟨him, hre, ?_⟩
  have hzr : z = ((z.re : ℝ) : ℂ) := by
    apply Complex.ext <;> simp [him]
  rw [hzr] at heval
  have h2 : ((((QQBAR_COEFFS x 0 : ℤ) : ℝ) +
      ((QQBAR_COEFFS x (qqbar_degree x) : ℤ) : ℝ) * z.re ^ qqbar_degree x : ℝ) : ℂ) = 0 := by
    push_cast
    exact heval
  have h3 := Complex.ofReal_eq_zero.mp h2
  field_simp
  linarith

/-- The guard is sound at `sqrt 2`, whose enclosure has the exact imaginary
part `0`. -/
theorem radical_guard_confirms_witness :
    WellFormed sqrt2 ∧ Represents sqrt2 ((Real.sqrt 2 : ℝ) : ℂ) ∧
    middle_is_zero sqrt2 = true ∧ QQBAR_COEFFS sqrt2 0 < 0 ∧
    arb_contains_zero sqrt2.enclosure.imag = true ∧
    arb_is_positive sqrt2.enclosure.real = true ∧
    (sqrt2.enclosure.imag.mid = 0 ∨ qqbar_degree sqrt2 ≤ 4 ∨
      4 * (qqbar_degree sqrt2 : ℚ) * sqrt2.enclosure.imag.rad ≤
        sqrt2.enclosure.real.mid - sqrt2.enclosure.real.rad) ∧
    (((Real.sqrt 2 : ℝ) : ℂ).im = 0 ∧ 0 < ((Real.sqrt 2 : ℝ) : ℂ).re ∧
      ((Real.sqrt 2 : ℝ) : ℂ).re ^ qqbar_degree sqrt2 =
        -(QQBAR_COEFFS sqrt2 0 : ℝ) / (QQBAR_COEFFS sqrt2 (qqbar_degree sqrt2) : ℝ)) :=
  ⟨wf_sqrt2.1, wf_sqrt2.2, by decide, by decide, by decide!, by decide!, Or.inl (by decide!),
    radical_guard_confirms sqrt2 _ wf_sqrt2.1 wf_sqrt2.2 (by decide) (by decide) (by decide!)
      (by decide!) (Or.inl (by decide!))⟩

theorem eighth_root_of_eighth :
    ∃ r : ℝ, 0 < r ∧ r ^ 8 = (((⟨1, 8⟩ : fmpq).toRat : ℚ) : ℝ) := by
  have h1 : (0 : ℝ) < 1 / 8 := by norm_num
  have h2 : 0 < Real.sqrt (1 / 8) := Real.sqrt_pos.mpr h1
  have h3 : 0 < Real.sqrt (Real.sqrt (1 / 8)) := Real.sqrt_pos.mpr h2
  have h4 : 0 < Real.sqrt (Real.sqrt (Real.sqrt (1 / 8))) := Real.sqrt_pos.mpr h3
  refine ⟨_, h4, ?_⟩
  have e : Real.sqrt (Real.sqrt (Real.sqrt (1 / 8))) ^ 8 =
      ((Real.sqrt (Real.sqrt (Real.sqrt (1 / 8))) ^ 2) ^ 2) ^ 2 := by ring
  rw [e, Real.sq_sqrt h3.le, Real.sq_sqrt h2.le, Real.sq_sqrt h1.le]
  simp [fmpq.toRat]

/-- C7: the guard of lines 78-83 does not confirm the real-axis branch.  The
root `2^(1/8) (1 + i) / sqrt 2` of `X^8 - 2`, with the enclosure
`[0.7, 0.8] + [-0.1, 0.9] i`, is well formed (the enclosure holds exactly one
root, the polynomial is minimal) and passes every test of the guard: middle
coefficients zero, constant coefficient negative, imaginary part containing
zero, real part strictly positive.  Dividing it by `sqrt 2` takes the radical
branch for every instance of the combinators, with the single call
`qqbar_fmpq_root_ui(res, 1/8, 8)`; a root extraction meeting its contract
leaves a positive real number in `res`, while the operand and the quotient
`x / y` are not real. -/
theorem radical_guard_nonreal_root :
    middle_is_zero x8 = true ∧ QQBAR_COEFFS x8 0 < 0 ∧
    arb_contains_zero x8.enclosure.imag = true ∧
    arb_is_positive x8.enclosure.real = true ∧
    WellFormed sqrt2 ∧ radical_guard x8 sqrt2 = true ∧
    (∀ O : QqbarOps, qqbar_div O x8 sqrt2 =
      ⟨[Call.qqbar_fmpq_root_ui ⟨1, 8⟩ 8], some (O.qqbar_fmpq_root_ui ⟨1, 8⟩ 8)⟩) ∧
    ∃ z : ℂ, WellFormed x8 ∧ Represents x8 z ∧ z.im ≠ 0 ∧
      (z / ((Real.sqrt 2 : ℝ) : ℂ)).im ≠ 0 ∧
      ∀ O : QqbarOps, ContractAt O (Call.qqbar_fmpq_root_ui ⟨1, 8⟩ 8) →
        ∃ r : ℝ, 0 < r ∧ Computes (O.qqbar_fmpq_root_ui ⟨1, 8⟩ 8) (r : ℂ) ∧
          (r : ℂ) ≠ z / ((Real.sqrt 2 : ℝ) : ℂ) := by
  have hg : radical_guard x8 sqrt2 = true := by decide!
  have ht : radical_t x8 sqrt2 = ⟨1, 8⟩ := by decide!
  have hf : radical_f x8 sqrt2 = 8 := by decide
  refine ⟨by decide, by decide, by decide!, by decide!, wf_sqrt2.1, hg, ?_, ?_⟩
  · intro O
    have h := radical_branch O x8 sqrt2 ⟨by decide, by decide, by decide, by decide⟩
      ⟨by decide, by decide, by decide, by decide⟩ hg
    rw [ht, hf] at h
    exact h
  · obtain ⟨z, hz, hc⟩ := x8_computes
    have hs0 : 0 < Real.sqrt 2 := Real.sqrt_pos.mpr (by norm_num)
    have him : (z / ((Real.sqrt 2 : ℝ) : ℂ)).im ≠ 0 := by
      rw [Complex.div_ofReal_im]
      exact div_ne_zero hz hs0.ne'
    refine ⟨z, hc.1, hc.2, hz, him, ?_⟩
    intro O hO
    obtain ⟨r, hr0, hr8⟩ := eighth_root_of_eighth
    refine ⟨r, hr0, hO r (by decide) (by decide) (by decide) hr0 hr8, ?_⟩
    intro h
    apply him
    rw [← h]
    exact Complex.ofReal_im r

/-! ## Aliasing of the result storage -/

theorem Store.write_same (s : Store) (p : ℕ) (v : qqbar) : (s.write p v) p = v := by
  simp [Store.write]

theorem Store.write_write (s : Store) (p : ℕ) (v w : qqbar) :
    (s.write p v).write p w = s.write p w := by
  simp [Store.write]

theorem qqbar_div_st_eq (O : QqbarOps) (res x y : ℕ) (s : Store) :
    qqbar_div_st O res x y s = ((qqbar_div O (s x) (s y)).res).map (s.write res) := by
  unfold qqbar_div_st qqbar_div
  cases qqbar_is_zero (s y)
  case true => rfl
  cases qqbar_is_zero (s x)
  case true => rfl
  cases qqbar_is_one (s x)
  case true => rfl
  cases qqbar_is_one (s y)
  case true => rfl
  cases qqbar_is_neg_one (s x)
  case true => simp [Store.write_same, Store.write_write]
  cases qqbar_is_neg_one (s y)
  case true => rfl
  cases qqbar_is_rational (s y)
  case true => rfl
  cases qqbar_is_rational (s x)
  case true => simp [Store.write_same, Store.write_write]
  cases radical_guard (s x) (s y)
  case true => rfl
  rfl

/-- C8: on storage, for all pointers `res`, `x`, `y` (aliased or not), the
run writes into `res` the value computed from the operand values read at
entry and changes no other cell: every read of `x` and `y` by the dispatcher
precedes the first write to `res`.  Hence the value stored in `res` is the
same when `res` is the storage of `x` or of `y` as when it is any other
storage. -/
theorem qqbar_div_alias_safe (O : QqbarOps) (x y : ℕ) (s : Store) :
    (∀ res, qqbar_div_st O res x y s =
      ((qqbar_div O (s x) (s y)).res).map (s.write res)) ∧
    (∀ res res', (qqbar_div_st O res x y s).map (fun s' => s' res) =
      (qqbar_div_st O res' x y s).map (fun s' => s' res')) := by
  refine ⟨fun res => qqbar_div_st_eq O res x y s, fun res res' => ?_⟩
  rw [qqbar_div_st_eq, qqbar_div_st_eq]
  cases (qqbar_div O (s x) (s y)).res with
  | none => rfl
  | some v => simp [Store.write_same]

/-! ## Which operands reach the scalar transform -/

/-- C9 (as stated) fails: for the rational operands `p = 0`, `q = 2` the
dispatcher takes the zero fast path and never calls `qqbar_scalar_op`; for
`p = 1`, `q = 2` it only calls the inversion. -/
theorem qqbar_div_rational_fast_path :
    qqbar_is_rational qqbar_zero = true ∧ qqbar_is_rational qqbar_one = true ∧
    qqbar_is_rational (qqbar_set_fmpq ⟨2, 1⟩) = true ∧
    qqbar_is_zero (qqbar_set_fmpq ⟨2, 1⟩) = false ∧
    (qqbar_div ratOps qqbar_zero (qqbar_set_fmpq ⟨2, 1⟩)).calls = [Call.qqbar_zero] ∧
    (qqbar_div ratOps qqbar_zero (qqbar_set_fmpq ⟨2, 1⟩)).calls.any Call.is_scalar_op = false ∧
    (qqbar_div ratOps qqbar_one (qqbar_set_fmpq ⟨2, 1⟩)).calls =
      [Call.qqbar_inv (qqbar_set_fmpq ⟨2, 1⟩)] ∧
    (qqbar_div ratOps qqbar_one (qqbar_set_fmpq ⟨2, 1⟩)).calls.any Call.is_scalar_op = false :=
  ⟨by decide, by decide, by decide, by decide, by decide!, by decide!, by decide!, by decide!⟩

/-- C9 (amended): for rational `p` and rational `q ≠ 0`, the dispatcher
reaches a call of `qqbar_scalar_op` exactly when `p` is none of 0, 1, -1 and
`q` is none of 1, -1, and the call is then
`qqbar_scalar_op(res, p, a = q1, b = 0, c = -q0)`; otherwise an identity fast
path is taken. -/
theorem qqbar_div_rational_dispatch (O : QqbarOps) (x y : qqbar)
    (_hxr : qqbar_is_rational x = true) (hyr : qqbar_is_rational y = true)
    (hnz : qqbar_is_zero y = false) :
    ((qqbar_div O x y).calls.any Call.is_scalar_op = true ↔
      (qqbar_is_zero x = false ∧ qqbar_is_one x = false ∧ qqbar_is_neg_one x = false ∧
        qqbar_is_one y = false ∧ qqbar_is_neg_one y = false)) ∧
    ((qqbar_div O x y).calls.any Call.is_scalar_op = true ↔
      (qqbar_div O x y).calls =
        [Call.qqbar_scalar_op x (QQBAR_COEFFS y 1) 0 (-QQBAR_COEFFS y 0)]) := by
  rcases qqbar_div_cases O x y with c | c | c | c | c | c | c | c | c | c
  · rw [c.1] at hnz; cases hnz
  · obtain ⟨-, h2, he⟩ := c
    rw [he]; simp [Call.is_scalar_op, h2]
  · obtain ⟨-, -, h3, he⟩ := c
    rw [he]; simp [Call.is_scalar_op, h3]
  · obtain ⟨-, -, -, h4, he⟩ := c
    rw [he]; simp [Call.is_scalar_op, h4]
  · obtain ⟨-, -, -, -, h5, he⟩ := c
    rw [he]; simp [Call.is_scalar_op, h5]
  · obtain ⟨-, -, -, -, -, h6, he⟩ := c
    rw [he]; simp [Call.is_scalar_op, h6]
  · obtain ⟨-, h2, h3, h4, h5, h6, -, he⟩ := c
    rw [he]; simp [Call.is_scalar_op, h2, h3, h4, h5, h6]
  all_goals
    have := c.2.2.2.2.2.2.1
    rw [hyr] at this
    cases this

/-- Witness for C9 (amended): `(3/2) / (5/7)`. -/
theorem qqbar_div_rational_dispatch_witness :
    qqbar_is_rational (qqbar_set_fmpq ⟨3, 2⟩) = true ∧
    qqbar_is_rational (qqbar_set_fmpq ⟨5, 7⟩) = true ∧
    qqbar_is_zero (qqbar_set_fmpq ⟨5, 7⟩) = false ∧
    (qqbar_div ratOps (qqbar_set_fmpq ⟨3, 2⟩) (qqbar_set_fmpq ⟨5, 7⟩)).calls.any
      Call.is_scalar_op = true :=
  ⟨rfl, rfl, by decide,
    ((qqbar_div_rational_dispatch ratOps (qqbar_set_fmpq ⟨3, 2⟩) (qqbar_set_fmpq ⟨5, 7⟩)
      rfl rfl (by decide)).1).mpr ⟨by decide, by decide, by decide, by decide, by decide⟩⟩

/-! ## `sqrt 2 / sqrt 3` -/

theorem generic_branch (O : QqbarOps) (x y : qqbar)
    (hx : qqbar_is_zero x = false ∧ qqbar_is_one x = false ∧
      qqbar_is_neg_one x = false ∧ qqbar_is_rational x = false)
    (hy : qqbar_is_zero y = false ∧ qqbar_is_one y = false ∧
      qqbar_is_neg_one y = false ∧ qqbar_is_rational y = false)
    (hg : radical_guard x y = false) :
    qqbar_div O x y =
      ⟨[Call.qqbar_binary_op x y 3], some (O.qqbar_binary_op x y 3)⟩ := by
  obtain ⟨x1, x2, x3, x4⟩ := hx
  obtain ⟨y1, y2, y3, y4⟩ := hy
  rcases qqbar_div_cases O x y with c | c | c | c | c | c | c | c | c | c
  · exact absurd c.1 (by rw [y1]; decide)
  · exact absurd c.2.1 (by rw [x1]; decide)
  · exact absurd c.2.2.1 (by rw [x2]; decide)
  · exact absurd c.2.2.2.1 (by rw [y2]; decide)
  · exact absurd c.2.2.2.2.1 (by rw [x3]; decide)
  · exact absurd c.2.2.2.2.2.1 (by rw [y3]; decide)
  · exact absurd c.2.2.2.2.2.2.1 (by rw [y4]; decide)
  · exact absurd c.2.2.2.2.2.2.2.1 (by rw [x4]; decide)
  · exact absurd c.2.2.2.2.2.2.2.2.1 (by rw [hg]; decide)
  · exact c.2.2.2.2.2.2.2.2.2

theorem sqrt3_bounds : (1730 / 1000 : ℝ) ≤ Real.sqrt 3 ∧ Real.sqrt 3 ≤ 1734 / 1000 := by
  constructor
  · apply Real.le_sqrt_of_sq_le
    norm_num
  · rw [Real.sqrt_le_left (by norm_num)]
    norm_num

theorem wf_sqrt3 : Computes sqrt3 ((Real.sqrt 3 : ℝ) : ℂ) := by
  have h := wf_sqrt 3 (by simpa using Nat.Prime.irrational_sqrt Nat.prime_three)
    ⟨433 / 250, 1 / 500⟩ (by norm_num)
    (by
      have := sqrt3_bounds
      rw [arb_contains_iff]
      constructor <;> norm_num <;> linarith)
  simpa [sqrt3] using h

/-- C10 (as stated) fails: `sqrt 2` and `sqrt 3`, given with enclosures of
their positive real roots, pass the radical-branch guard; the only call is the
extraction of the square root of `2/3`, and `qqbar_binary_op` is not reached. -/
theorem sqrt2_div_sqrt3_radical :
    Computes sqrt2 ((Real.sqrt 2 : ℝ) : ℂ) ∧ Computes sqrt3 ((Real.sqrt 3 : ℝ) : ℂ) ∧
    (qqbar_div ratOps sqrt2 sqrt3).calls = [Call.qqbar_fmpq_root_ui ⟨2, 3⟩ 2] ∧
    Call.qqbar_binary_op sqrt2 sqrt3 3 ∉ (qqbar_div ratOps sqrt2 sqrt3).calls :=
  ⟨wf_sqrt2, wf_sqrt3, by decide!, by decide!⟩

/-- C10 (amended): for `x = sqrt 2` and `y = sqrt 3` (polynomials `X^2 - 2`
and `X^2 - 3`, enclosures whose imaginary parts contain zero), the dispatcher
takes the radical branch, with the single call
`qqbar_fmpq_root_ui(res, 2/3, 2)`, when the real parts of both enclosures are
strictly positive; it reaches `qqbar_binary_op(res, x, y, 3)` exactly when one
of the two real parts is not strictly positive. -/
theorem sqrt2_div_sqrt3_dispatch (O : QqbarOps) (ex ey : acb)
    (hix : arb_contains_zero ex.imag = true) (hiy : arb_contains_zero ey.imag = true) :
    (qqbar_div O ⟨[-2, 0, 1], ex⟩ ⟨[-3, 0, 1], ey⟩).calls =
      if arb_is_positive ex.real && arb_is_positive ey.real then
        [Call.qqbar_fmpq_root_ui ⟨2, 3⟩ 2]
      else
        [Call.qqbar_binary_op ⟨[-2, 0, 1], ex⟩ ⟨[-3, 0, 1], ey⟩ 3] := by
  obtain ⟨sx1, sx2, sx3, sx4, sx5⟩ :=
    binomial_shape (x := ⟨[-2, 0, 1], ex⟩) (d := 2) (le_refl 2)
      (rfl : _ = -2 :: (List.replicate (2 - 1) 0 ++ [1]))
  obtain ⟨sy1, sy2, sy3, sy4, sy5⟩ :=
    binomial_shape (x := ⟨[-3, 0, 1], ey⟩) (d := 2) (le_refl 2)
      (rfl : _ = -3 :: (List.replicate (2 - 1) 0 ++ [1]))
  have hg : radical_guard ⟨[-2, 0, 1], ex⟩ ⟨[-3, 0, 1], ey⟩ =
      (arb_is_positive ex.real && arb_is_positive ey.real) := by
    simp only [radical_guard, sx4, sy4, sx2, sy2, hix, hiy]
    simp
  have ht : radical_t ⟨[-2, 0, 1], ex⟩ ⟨[-3, 0, 1], ey⟩ = ⟨2, 3⟩ := by
    unfold radical_t n_gcd
    rw [sx1, sy1, sx2, sy2, sx3, sy3]
    decide!
  have hf : radical_f ⟨[-2, 0, 1], ex⟩ ⟨[-3, 0, 1], ey⟩ = 2 := by
    unfold radical_f n_gcd
    rw [sx1, sy1]
    decide
  cases hp : (arb_is_positive ex.real && arb_is_positive ey.real)
  · rw [hp] at hg
    rw [generic_branch O _ _ sx5 sy5 hg]
    simp
  · rw [hp] at hg
    rw [radical_branch O _ _ sx5 sy5 hg, ht, hf]
    simp

/-- Witness for C10 (amended): the enclosures `[1.412, 1.416]` and
`[1.730, 1.734]`. -/
theorem sqrt2_div_sqrt3_dispatch_witness :
    arb_contains_zero sqrt2.enclosure.imag = true ∧
    arb_contains_zero sqrt3.enclosure.imag = true ∧
    (qqbar_div ratOps sqrt2 sqrt3).calls =
      if arb_is_positive sqrt2.enclosure.real && arb_is_positive sqrt3.enclosure.real then
        [Call.qqbar_fmpq_root_ui ⟨2, 3⟩ 2]
      else
        [Call.qqbar_binary_op sqrt2 sqrt3 3] :=
  ⟨by decide!, by decide!,
    sqrt2_div_sqrt3_dispatch ratOps sqrt2.enclosure sqrt3.enclosure (by decide!) (by decide!)⟩

/-! ## The two scalar-transform branches -/

theorem const_ne_zero_of_not_is_zero {y : qqbar} (hy : WellFormed y)
    (hyr : qqbar_is_rational y = true) (hnz : qqbar_is_zero y = false) :
    QQBAR_COEFFS y 0 ≠ 0 := by
  obtain ⟨z, hz, -, -⟩ := hy.isolates
  have hz0 := ne_zero_of_not_is_zero hy hz hnz
  have hv := value_of_rational hy hyr hz
  intro h0
  apply hz0
  rw [hv, rat_value_cast, h0]
  simp

theorem rational_divisor_branch (O : QqbarOps) (x y : qqbar)
    (hx0 : qqbar_is_zero x = false) (hx1 : qqbar_is_one x = false)
    (hxm : qqbar_is_neg_one x = false) (hy0 : qqbar_is_zero y = false)
    (hy1 : qqbar_is_one y = false) (hym : qqbar_is_neg_one y = false)
    (hyr : qqbar_is_rational y = true) :
    qqbar_div O x y =
      ⟨[Call.qqbar_scalar_op x (QQBAR_COEFFS y 1) 0 (-QQBAR_COEFFS y 0)],
        some (O.qqbar_scalar_op x (QQBAR_COEFFS y 1) 0 (-QQBAR_COEFFS y 0))⟩ := by
  rcases qqbar_div_cases O x y with c | c | c | c | c | c | c | c | c | c
  · exact absurd c.1 (by rw [hy0]; decide)
  · exact absurd c.2.1 (by rw [hx0]; decide)
  · exact absurd c.2.2.1 (by rw [hx1]; decide)
  · exact absurd c.2.2.2.1 (by rw [hy1]; decide)
  · exact absurd c.2.2.2.2.1 (by rw [hxm]; decide)
  · exact absurd c.2.2.2.2.2.1 (by rw [hym]; decide)
  · exact c.2.2.2.2.2.2.2
  · exact absurd c.2.2.2.2.2.2.1 (by rw [hyr]; decide)
  · exact absurd c.2.2.2.2.2.2.1 (by rw [hyr]; decide)
  · exact absurd c.2.2.2.2.2.2.1 (by rw [hyr]; decide)

/-- C11: for every `x` that is none of 0, 1, -1 and every well-formed rational
`y` that is none of 0, 1, -1, with coefficients `(y0, y1)` for `-y0/y1`, the
only call is the scalar transform of `x` with `a = y1`, `b = 0`, `c = -y0`;
`c` is not zero, the value `(a x + b)/c` is the quotient `x / y`, and the
contract of the scalar transform makes `res` stand for `x / y`. -/
theorem qqbar_div_rational_divisor (O : QqbarOps) (x y : qqbar) (zx zy : ℂ)
    (hy : WellFormed y) (hzy : Represents y zy)
    (hx0 : qqbar_is_zero x = false) (hx1 : qqbar_is_one x = false)
    (hxm : qqbar_is_neg_one x = false) (hy0 : qqbar_is_zero y = false)
    (hy1 : qqbar_is_one y = false) (hym : qqbar_is_neg_one y = false)
    (hyr : qqbar_is_rational y = true) :
    (qqbar_div O x y).calls =
      [Call.qqbar_scalar_op x (QQBAR_COEFFS y 1) 0 (-QQBAR_COEFFS y 0)] ∧
    (qqbar_div O x y).res =
      some (O.qqbar_scalar_op x (QQBAR_COEFFS y 1) 0 (-QQBAR_COEFFS y 0)) ∧
    -QQBAR_COEFFS y 0 ≠ 0 ∧
    (((QQBAR_COEFFS y 1 : ℤ) : ℂ) * zx + ((0 : ℤ) : ℂ)) / ((-QQBAR_COEFFS y 0 : ℤ) : ℂ) =
      zx / zy ∧
    (WellFormed x → Represents x zx →
      ContractAt O (Call.qqbar_scalar_op x (QQBAR_COEFFS y 1) 0 (-QQBAR_COEFFS y 0)) →
      Computes (O.qqbar_scalar_op x (QQBAR_COEFFS y 1) 0 (-QQBAR_COEFFS y 0)) (zx / zy)) := by
  have hb := rational_divisor_branch O x y hx0 hx1 hxm hy0 hy1 hym hyr
  have hc0 := const_ne_zero_of_not_is_zero hy hyr hy0
  have hc : -QQBAR_COEFFS y 0 ≠ 0 := by omega
  have hl := lead_of_rational hy hyr
  have hl' : ((QQBAR_COEFFS y 1 : ℤ) : ℂ) ≠ 0 := by exact_mod_cast hl.ne'
  have hc0' : ((QQBAR_COEFFS y 0 : ℤ) : ℂ) ≠ 0 := by exact_mod_cast hc0
  have hzv : zy = -((QQBAR_COEFFS y 0 : ℤ) : ℂ) / ((QQBAR_COEFFS y 1 : ℤ) : ℂ) := by
    rw [value_of_rational hy hyr hzy, rat_value_cast]
  have e : (((QQBAR_COEFFS y 1 : ℤ) : ℂ) * zx + ((0 : ℤ) : ℂ)) /
      ((-QQBAR_COEFFS y 0 : ℤ) : ℂ) = zx / zy := by
    rw [hzv]; push_cast; field_simp; ring
  refine ⟨by rw [hb], by rw [hb], hc, e, ?_⟩
  intro hx hzx hO
  have := hO zx hx hzx hc
  rwa [e] at this

/-- Witness for C11: `(3/2) / (5/7)`, with the exact rational instance of the
combinators. -/
theorem qqbar_div_rational_divisor_witness :
    WellFormed (qqbar_set_fmpq ⟨5, 7⟩) ∧
    Represents (qqbar_set_fmpq ⟨5, 7⟩) (((5 / 7 : ℚ) : ℝ) : ℂ) ∧
    (qqbar_div ratOps (qqbar_set_fmpq ⟨3, 2⟩) (qqbar_set_fmpq ⟨5, 7⟩)).calls =
      [Call.qqbar_scalar_op (qqbar_set_fmpq ⟨3, 2⟩) 7 0 5] ∧
    Computes (ratOps.qqbar_scalar_op (qqbar_set_fmpq ⟨3, 2⟩) 7 0 5)
      ((((3 / 2 : ℚ) : ℝ) : ℂ) / (((5 / 7 : ℚ) : ℝ) : ℂ)) :=
  have hx := wf_set_fmpq ⟨3, 2⟩ (by norm_num) (by decide)
  have hy := wf_set_fmpq ⟨5, 7⟩ (by norm_num) (by decide)
  have ex : (⟨3, 2⟩ : fmpq).toRat = 3 / 2 := by simp [fmpq.toRat]
  have ey : (⟨5, 7⟩ : fmpq).toRat = 5 / 7 := by simp [fmpq.toRat]
  have e1 : QQBAR_COEFFS (qqbar_set_fmpq ⟨5, 7⟩) 1 = 7 := by decide
  have e0 : -QQBAR_COEFFS (qqbar_set_fmpq ⟨5, 7⟩) 0 = 5 := by decide
  have h := qqbar_div_rational_divisor ratOps (qqbar_set_fmpq ⟨3, 2⟩) (qqbar_set_fmpq ⟨5, 7⟩)
    (((3 / 2 : ℚ) : ℝ) : ℂ) (((5 / 7 : ℚ) : ℝ) : ℂ) hy.1 (by rw [← ey]; exact hy.2)
    (by decide) (by decide) (by decide) (by decide) (by decide) (by decide) rfl
  ⟨hy.1, by rw [← ey]; exact hy.2, by rw [← e1, ← e0]; exact h.1,
    by
      have h2 := h.2.2.2.2 hx.1 (by rw [← ex]; exact hx.2) (ratOps_scalar_contract _ _ _ _ rfl)
      rw [e1, e0] at h2
      exact h2⟩

theorem not_patterns_of_not_rational {y : qqbar} (h : qqbar_is_rational y = false) :
    qqbar_is_zero y = false ∧ qqbar_is_one y = false ∧ qqbar_is_neg_one y = false := by
  have hl : y.poly.length ≠ 2 := by simpa [qqbar_is_rational] using h
  have hne : ∀ a b : ℤ, y.poly ≠ [a, b] := by
    intro a b e
    apply hl
    rw [e]; rfl
  refine ⟨?_, ?_, ?_⟩
  · simpa [qqbar_is_zero] using hne 0 1
  · simpa [qqbar_is_one] using hne (-1) 1
  · simpa [qqbar_is_neg_one] using hne 1 1

theorem rational_dividend_branch (O : QqbarOps) (x y : qqbar)
    (hx0 : qqbar_is_zero x = false) (hx1 : qqbar_is_one x = false)
    (hxm : qqbar_is_neg_one x = false) (hxr : qqbar_is_rational x = true)
    (hyr : qqbar_is_rational y = false) :
    qqbar_div O x y =
      ⟨[Call.qqbar_inv y,
          Call.qqbar_scalar_op (O.qqbar_inv y) (-QQBAR_COEFFS x 0) 0 (QQBAR_COEFFS x 1)],
        some (O.qqbar_scalar_op (O.qqbar_inv y) (-QQBAR_COEFFS x 0) 0 (QQBAR_COEFFS x 1))⟩ := by
  obtain ⟨hy0, hy1, hym⟩ := not_patterns_of_not_rational hyr
  rcases qqbar_div_cases O x y with c | c | c | c | c | c | c | c | c | c
  · exact absurd c.1 (by rw [hy0]; decide)
  · exact absurd c.2.1 (by rw [hx0]; decide)
  · exact absurd c.2.2.1 (by rw [hx1]; decide)
  · exact absurd c.2.2.2.1 (by rw [hy1]; decide)
  · exact absurd c.2.2.2.2.1 (by rw [hxm]; decide)
  · exact absurd c.2.2.2.2.2.1 (by rw [hym]; decide)
  · exact absurd c.2.2.2.2.2.2.1 (by rw [hyr]; decide)
  · exact c.2.2.2.2.2.2.2.2
  · exact absurd c.2.2.2.2.2.2.2.1 (by rw [hxr]; decide)
  · exact absurd c.2.2.2.2.2.2.2.1 (by rw [hxr]; decide)

/-- C12: for every well-formed rational `x` that is none of 0, 1, -1, with
coefficients `(x0, x1)` for `-x0/x1`, and every irrational `y`, the run first
inverts `y` and then applies the scalar transform to `t = 1/y` with
`a = -x0`, `b = 0`, `c = x1`; `c` is not zero, the value `(a t + b)/c` is the
quotient `x / y`, and the contracts of the two calls make `res` stand for
`x / y`. -/
theorem qqbar_div_rational_dividend (O : QqbarOps) (x y : qqbar) (zx zy : ℂ)
    (hx : WellFormed x) (hzx : Represents x zx)
    (hx0 : qqbar_is_zero x = false) (hx1 : qqbar_is_one x = false)
    (hxm : qqbar_is_neg_one x = false) (hxr : qqbar_is_rational x = true)
    (hyr : qqbar_is_rational y = false) :
    (qqbar_div O x y).calls =
      [Call.qqbar_inv y,
        Call.qqbar_scalar_op (O.qqbar_inv y) (-QQBAR_COEFFS x 0) 0 (QQBAR_COEFFS x 1)] ∧
    (qqbar_div O x y).res =
      some (O.qqbar_scalar_op (O.qqbar_inv y) (-QQBAR_COEFFS x 0) 0 (QQBAR_COEFFS x 1)) ∧
    QQBAR_COEFFS x 1 ≠ 0 ∧
    (((-QQBAR_COEFFS x 0 : ℤ) : ℂ) * zy⁻¹ + ((0 : ℤ) : ℂ)) / ((QQBAR_COEFFS x 1 : ℤ) : ℂ) =
      zx / zy ∧
    (WellFormed y → Represents y zy →
      (∀ c ∈ (qqbar_div O x y).calls, ContractAt O c) →
      Computes (O.qqbar_scalar_op (O.qqbar_inv y) (-QQBAR_COEFFS x 0) 0 (QQBAR_COEFFS x 1))
        (zx / zy)) := by
  have hb := rational_dividend_branch O x y hx0 hx1 hxm hxr hyr
  have hl := lead_of_rational hx hxr
  have hl' : ((QQBAR_COEFFS x 1 : ℤ) : ℂ) ≠ 0 := by exact_mod_cast hl.ne'
  have hzv : zx = -((QQBAR_COEFFS x 0 : ℤ) : ℂ) / ((QQBAR_COEFFS x 1 : ℤ) : ℂ) := by
    rw [value_of_rational hx hxr hzx, rat_value_cast]
  have e : (((-QQBAR_COEFFS x 0 : ℤ) : ℂ) * zy⁻¹ + ((0 : ℤ) : ℂ)) /
      ((QQBAR_COEFFS x 1 : ℤ) : ℂ) = zx / zy := by
    rw [hzv]; push_cast; ring
  refine ⟨by rw [hb], by rw [hb], hl.ne', e, ?_⟩
  intro hy hzy hO
  rw [hb] at hO
  have hzy0 : zy ≠ 0 := ne_zero_of_not_is_zero hy hzy (not_patterns_of_not_rational hyr).1
  have hi := hO (Call.qqbar_inv y) (by simp) zy hy hzy hzy0
  have := hO (Call.qqbar_scalar_op (O.qqbar_inv y) (-QQBAR_COEFFS x 0) 0 (QQBAR_COEFFS x 1))
    (by simp) zy⁻¹ hi.1 hi.2 hl.ne'
  rwa [e] at this


theorem computes_inv_sqrt2 : Computes inv_sqrt2 (((Real.sqrt 2)⁻¹ : ℝ) : ℂ) := by
  have hs0 : 0 < Real.sqrt 2 := Real.sqrt_pos.mpr (by norm_num)
  have hs2 : Real.sqrt 2 * Real.sqrt 2 = 2 := Real.mul_self_sqrt (by norm_num)
  have hb := sqrt2_bounds
  have hr0 : 0 < (Real.sqrt 2)⁻¹ := inv_pos.mpr hs0
  have hr2 : 2 * ((Real.sqrt 2)⁻¹ * (Real.sqrt 2)⁻¹) = 1 := by
    rw [← mul_inv, hs2]
    norm_num
  have hlo : (705 / 1000 : ℝ) ≤ (Real.sqrt 2)⁻¹ := by
    rw [le_inv_comm₀ (by norm_num) hs0]
    have : (1416 / 1000 : ℝ) ≤ (705 / 1000)⁻¹ := by norm_num
    linarith [hb.2]
  have hhi : (Real.sqrt 2)⁻¹ ≤ 709 / 1000 := by
    rw [inv_le_comm₀ hs0 (by norm_num)]
    have : ((709 / 1000 : ℝ))⁻¹ ≤ 1412 / 1000 := by norm_num
    linarith [hb.1]
  have hirr : Irrational (Real.sqrt 2)⁻¹ := irrational_sqrt_two.inv
  have hrep : Represents inv_sqrt2 (((Real.sqrt 2)⁻¹ : ℝ) : ℂ) := by
    constructor
    · simp only [inv_sqrt2, evalPoly]
      have h : ((2 * ((Real.sqrt 2)⁻¹ * (Real.sqrt 2)⁻¹) : ℝ) : ℂ) = 1 := by
        rw [hr2]; norm_num
      push_cast at h ⊢
      linear_combination h
    · refine ⟨(arb_contains_iff _ _).mpr ?_, (arb_contains_iff _ _).mpr ?_⟩
      · simp only [inv_sqrt2, Complex.ofReal_re]
        constructor <;> norm_num <;> linarith
      · simp [inv_sqrt2]
  refine ⟨⟨by decide, by decide, by decide, by decide, ?_⟩, hrep⟩
  refine ⟨_, hrep, ?_, minimal_of_irrational _ (by decide) _ hirr⟩
  rintro w ⟨hw1, hw2, hw3⟩
  have him : w.im = 0 := by simpa [arb_contains, inv_sqrt2] using hw3
  have hre : 0 < w.re := by
    have := ((arb_contains_iff _ _).mp hw2).1
    simp only [inv_sqrt2] at this
    norm_num at this
    linarith
  have hw' : w = ((w.re : ℝ) : ℂ) := by
    apply Complex.ext <;> simp [him]
  simp only [inv_sqrt2, evalPoly] at hw1
  rw [hw'] at hw1
  have h3 : 2 * (w.re * w.re) = 1 := by
    have : ((2 * (w.re * w.re) - 1 : ℝ) : ℂ) = 0 := by
      push_cast
      push_cast at hw1
      linear_combination hw1
    have := Complex.ofReal_eq_zero.mp this
    linarith
  have h4 : w.re = (Real.sqrt 2)⁻¹ := by
    have h5 : (w.re - (Real.sqrt 2)⁻¹) * (w.re + (Real.sqrt 2)⁻¹) = 0 := by
      ring_nf
      ring_nf at h3 hr2
      linarith
    rcases mul_eq_zero.mp h5 with h | h
    · linarith
    · linarith
  rw [hw', h4]

theorem sqrtOps_inv_sqrt2 : sqrtOps.qqbar_inv sqrt2 = inv_sqrt2 := by
  simp [sqrtOps]

theorem sqrtOps_scalar_inv_sqrt2 : sqrtOps.qqbar_scalar_op inv_sqrt2 2 0 1 = sqrt2 := by
  simp [sqrtOps]

theorem sqrtOps_inv_contract : ContractAt sqrtOps (Call.qqbar_inv sqrt2) := by
  intro z hx hz _
  rw [sqrtOps_inv_sqrt2, hx.root_unique wf_sqrt2.2 hz, ← Complex.ofReal_inv]
  exact computes_inv_sqrt2

theorem sqrtOps_scalar_contract :
    ContractAt sqrtOps (Call.qqbar_scalar_op inv_sqrt2 2 0 1) := by
  intro z hx hz _
  rw [sqrtOps_scalar_inv_sqrt2, hx.root_unique computes_inv_sqrt2.2 hz]
  have hs2 : Real.sqrt 2 * Real.sqrt 2 = 2 := Real.mul_self_sqrt (by norm_num)
  have hs0 : Real.sqrt 2 ≠ 0 := (Real.sqrt_pos.mpr (by norm_num)).ne'
  have e : (((2 : ℤ) : ℂ) * (((Real.sqrt 2)⁻¹ : ℝ) : ℂ) + ((0 : ℤ) : ℂ)) / ((1 : ℤ) : ℂ) =
      ((Real.sqrt 2 : ℝ) : ℂ) := by
    have h : 2 * (Real.sqrt 2)⁻¹ = Real.sqrt 2 := by
      rw [← div_eq_mul_inv, div_eq_iff hs0]
      exact hs2.symm
    calc (((2 : ℤ) : ℂ) * (((Real.sqrt 2)⁻¹ : ℝ) : ℂ) + ((0 : ℤ) : ℂ)) / ((1 : ℤ) : ℂ)
        = ((2 * (Real.sqrt 2)⁻¹ : ℝ) : ℂ) := by push_cast; ring
      _ = ((Real.sqrt 2 : ℝ) : ℂ) := by rw [h]
  rw [e]
  exact wf_sqrt2

/-- Witness for C12: `2 / sqrt 2`, which is `sqrt 2`, with an instance of the
combinators that is exact on the two calls made. -/
theorem qqbar_div_rational_dividend_witness :
    WellFormed (qqbar_set_fmpq ⟨2, 1⟩) ∧
    Represents (qqbar_set_fmpq ⟨2, 1⟩) 2 ∧ WellFormed sqrt2 ∧
    Represents sqrt2 ((Real.sqrt 2 : ℝ) : ℂ) ∧
    (∀ c ∈ (qqbar_div sqrtOps (qqbar_set_fmpq ⟨2, 1⟩) sqrt2).calls, ContractAt sqrtOps c) ∧
    (qqbar_div sqrtOps (qqbar_set_fmpq ⟨2, 1⟩) sqrt2).calls =
      [Call.qqbar_inv sqrt2, Call.qqbar_scalar_op inv_sqrt2 2 0 1] ∧
    (qqbar_div sqrtOps (qqbar_set_fmpq ⟨2, 1⟩) sqrt2).res = some sqrt2 ∧
    Computes sqrt2 ((2 : ℂ) / ((Real.sqrt 2 : ℝ) : ℂ)) :=
  have hx : Computes (qqbar_set_fmpq ⟨2, 1⟩) 2 := by
    have := wf_set_fmpq ⟨2, 1⟩ (by norm_num) (by decide)
    simpa [fmpq.toRat] using this
  have e0 : -QQBAR_COEFFS (qqbar_set_fmpq ⟨2, 1⟩) 0 = 2 := by decide
  have e1 : QQBAR_COEFFS (qqbar_set_fmpq ⟨2, 1⟩) 1 = 1 := by decide
  have h := qqbar_div_rational_dividend sqrtOps (qqbar_set_fmpq ⟨2, 1⟩) sqrt2 2
    ((Real.sqrt 2 : ℝ) : ℂ) hx.1 hx.2 (by decide) (by decide) (by decide) rfl (by decide)
  have hcalls : (qqbar_div sqrtOps (qqbar_set_fmpq ⟨2, 1⟩) sqrt2).calls =
      [Call.qqbar_inv sqrt2, Call.qqbar_scalar_op inv_sqrt2 2 0 1] := by
    rw [h.1, sqrtOps_inv_sqrt2, e0, e1]
  have hc : ∀ c ∈ (qqbar_div sqrtOps (qqbar_set_fmpq ⟨2, 1⟩) sqrt2).calls,
      ContractAt sqrtOps c := by
    rw [hcalls]
    intro c hc
    rcases List.mem_pair.mp hc with rfl | rfl
    · exact sqrtOps_inv_contract
    · exact sqrtOps_scalar_contract
  ⟨hx.1, hx.2, wf_sqrt2.1, wf_sqrt2.2, hc, hcalls,
    by rw [h.2.1, sqrtOps_inv_sqrt2, e0, e1, sqrtOps_scalar_inv_sqrt2],
    by
      have h2 := h.2.2.2.2 wf_sqrt2.1 wf_sqrt2.2 hc
      rw [sqrtOps_inv_sqrt2, e0, e1, sqrtOps_scalar_inv_sqrt2] at h2
      exact h2⟩

/-! ## The identity fast paths -/

/-- C13: for well-formed `x` and nonzero well-formed `y` with `x` one of
0, 1, -1 or `y` one of 1, -1, the fast path is chosen in the priority order
zero for `x = 0`, inverse of `y` for `x = 1`, copy of `x` for `y = 1`, negated
inverse of `y` for `x = -1`, negation of `x` for `y = -1`, and the value left
in `res` stands for the quotient `x / y`, also when two patterns apply;
every call made is assumed to meet its contract. -/
theorem qqbar_div_identity_paths (O : QqbarOps) (x y : qqbar) (zx zy : ℂ)
    (hx : WellFormed x) (hzx : Represents x zx) (hy : WellFormed y) (hzy : Represents y zy)
    (hnz : qqbar_is_zero y = false)
    (hpat : qqbar_is_zero x = true ∨ qqbar_is_one x = true ∨ qqbar_is_neg_one x = true ∨
      qqbar_is_one y = true ∨ qqbar_is_neg_one y = true)
    (hO : ∀ c ∈ (qqbar_div O x y).calls, ContractAt O c) :
    (qqbar_div O x y).calls =
      (if qqbar_is_zero x then [Call.qqbar_zero]
       else if qqbar_is_one x then [Call.qqbar_inv y]
       else if qqbar_is_one y then [Call.qqbar_set x]
       else if qqbar_is_neg_one x then [Call.qqbar_inv y, Call.qqbar_neg (O.qqbar_inv y)]
       else [Call.qqbar_neg x]) ∧
    ∃ r, (qqbar_div O x y).res = some r ∧ Computes r (zx / zy) := by
  have hzy0 : zy ≠ 0 := ne_zero_of_not_is_zero hy hzy hnz
  rcases qqbar_div_cases O x y with c | c | c | c | c | c | c | c | c | c
  · rw [c.1] at hnz; cases hnz
  · obtain ⟨-, h2, he⟩ := c
    rw [he]
    refine ⟨by simp [h2], _, rfl, ?_⟩
    rw [value_of_is_zero h2 hzx, zero_div]
    exact computes_qqbar_zero
  · obtain ⟨-, h2, h3, he⟩ := c
    rw [he] at hO ⊢
    refine ⟨by simp [h2, h3], _, rfl, ?_⟩
    have := hO (Call.qqbar_inv y) (by simp) zy hy hzy hzy0
    rwa [value_of_is_one h3 hzx, one_div]
  · obtain ⟨-, h2, h3, h4, he⟩ := c
    rw [he]
    refine ⟨by simp [h2, h3, h4], _, rfl, ?_⟩
    rw [value_of_is_one h4 hzy, div_one]
    exact ⟨hx, hzx⟩
  · obtain ⟨-, h2, h3, h4, h5, he⟩ := c
    rw [he] at hO ⊢
    refine ⟨by simp [h2, h3, h4, h5], _, rfl, ?_⟩
    have hi := hO (Call.qqbar_inv y) (by simp) zy hy hzy hzy0
    have := hO (Call.qqbar_neg (O.qqbar_inv y)) (by simp) zy⁻¹ hi.1 hi.2
    rw [value_of_is_neg_one h5 hzx]
    have e : (-1 : ℂ) / zy = -zy⁻¹ := by field_simp
    rwa [e]
  · obtain ⟨-, h2, h3, h4, h5, h6, he⟩ := c
    rw [he] at hO ⊢
    refine ⟨by simp [h2, h3, h4, h5], _, rfl, ?_⟩
    have := hO (Call.qqbar_neg x) (by simp) zx hx hzx
    rw [value_of_is_neg_one h6 hzy]
    have e : zx / (-1 : ℂ) = -zx := by field_simp
    rwa [e]
  all_goals
    obtain ⟨-, h2, h3, h4, h5, h6, -⟩ := c
    rw [h2, h3, h4, h5, h6] at hpat
    simp at hpat

/-- Witness for C13: `1 / (-1)`, where the patterns `x = 1` and `y = -1` both
apply and the inverse of `y` is taken, with the exact rational instance of the
combinators. -/
theorem qqbar_div_identity_paths_witness :
    WellFormed qqbar_one ∧ Represents qqbar_one 1 ∧
    WellFormed (qqbar_set_fmpq ⟨-1, 1⟩) ∧ Represents (qqbar_set_fmpq ⟨-1, 1⟩) (-1) ∧
    qqbar_is_zero (qqbar_set_fmpq ⟨-1, 1⟩) = false ∧
    qqbar_is_one qqbar_one = true ∧ qqbar_is_neg_one (qqbar_set_fmpq ⟨-1, 1⟩) = true ∧
    (∀ c ∈ (qqbar_div ratOps qqbar_one (qqbar_set_fmpq ⟨-1, 1⟩)).calls,
      ContractAt ratOps c) ∧
    (qqbar_div ratOps qqbar_one (qqbar_set_fmpq ⟨-1, 1⟩)).calls =
      [Call.qqbar_inv (qqbar_set_fmpq ⟨-1, 1⟩)] ∧
    ∃ r, (qqbar_div ratOps qqbar_one (qqbar_set_fmpq ⟨-1, 1⟩)).res = some r ∧
      Computes r ((1 : ℂ) / (-1)) :=
  have hy : Computes (qqbar_set_fmpq ⟨-1, 1⟩) (-1) := by
    have := wf_set_fmpq ⟨-1, 1⟩ (by norm_num) (by decide)
    simpa [fmpq.toRat] using this
  have e1 := qqbar_div_one_left ratOps (qqbar_set_fmpq ⟨-1, 1⟩) (by decide)
  have hc : ∀ c ∈ (qqbar_div ratOps qqbar_one (qqbar_set_fmpq ⟨-1, 1⟩)).calls,
      ContractAt ratOps c := by
    rw [e1]
    intro c hc
    rw [List.mem_singleton] at hc
    rw [hc]
    exact ratOps_inv_contract _ rfl
  have h := qqbar_div_identity_paths ratOps qqbar_one (qqbar_set_fmpq ⟨-1, 1⟩) 1 (-1)
    computes_qqbar_one.1 computes_qqbar_one.2 hy.1 hy.2 (by decide)
    (Or.inr (Or.inl (by decide))) hc
  ⟨computes_qqbar_one.1, computes_qqbar_one.2, hy.1, hy.2, by decide, by decide, by decide,
    hc, by rw [e1], h.2⟩

/-! ## Arguments of the scalar transform -/

/-- C14: every call of `qqbar_scalar_op` made when dividing well-formed
operands has additive argument `b = 0` and a nonzero denominator argument
`c`: in the rational-divisor branch `c = -y0` with `y0` the constant
coefficient of the nonzero rational `y`, and in the rational-dividend branch
`c = x1` with `x1` the leading coefficient of the degree-1 polynomial of `x`. -/
theorem qqbar_div_scalar_args (O : QqbarOps) (x y : qqbar) (hx : WellFormed x)
    (hy : WellFormed y) (x' : qqbar) (a b c : ℤ)
    (hmem : Call.qqbar_scalar_op x' a b c ∈ (qqbar_div O x y).calls) :
    b = 0 ∧ c ≠ 0 ∧
    ((qqbar_is_rational y = true ∧ x' = x ∧ a = QQBAR_COEFFS y 1 ∧
        c = -QQBAR_COEFFS y 0) ∨
     (qqbar_is_rational y = false ∧ qqbar_is_rational x = true ∧ x' = O.qqbar_inv y ∧
        a = -QQBAR_COEFFS x 0 ∧ c = QQBAR_COEFFS x 1)) := by
  rcases qqbar_div_cases O x y with h | h | h | h | h | h | h | h | h | h
  · rw [h.2] at hmem; simp at hmem
  · rw [h.2.2] at hmem; simp at hmem
  · rw [h.2.2.2] at hmem; simp at hmem
  · rw [h.2.2.2.2] at hmem; simp at hmem
  · rw [h.2.2.2.2.2] at hmem; simp at hmem
  · rw [h.2.2.2.2.2.2] at hmem; simp at hmem
  · obtain ⟨h1, -, -, -, -, -, h7, he⟩ := h
    rw [he] at hmem
    simp only [List.mem_singleton, Call.qqbar_scalar_op.injEq] at hmem
    obtain ⟨rfl, rfl, rfl, rfl⟩ := hmem
    have hc0 := const_ne_zero_of_not_is_zero hy h7 h1
    exact ⟨rfl, by omega, Or.inl ⟨h7, rfl, rfl, rfl⟩⟩
  · obtain ⟨-, -, -, -, -, -, h7, h8, he⟩ := h
    rw [he] at hmem
    simp only [List.mem_cons, List.mem_singleton, reduceCtorEq, false_or,
      Call.qqbar_scalar_op.injEq, List.not_mem_nil, or_false] at hmem
    obtain ⟨rfl, rfl, rfl, rfl⟩ := hmem
    exact ⟨rfl, (lead_of_rational hx h8).ne', Or.inr ⟨h7, h8, rfl, rfl, rfl⟩⟩
  · rw [h.2.2.2.2.2.2.2.2.2] at hmem; simp at hmem
  · rw [h.2.2.2.2.2.2.2.2.2] at hmem; simp at hmem

/-- Witness for C14: the call made for `(3/2) / (5/7)`. -/
theorem qqbar_div_scalar_args_witness :
    WellFormed (qqbar_set_fmpq ⟨3, 2⟩) ∧ WellFormed (qqbar_set_fmpq ⟨5, 7⟩) ∧
    Call.qqbar_scalar_op (qqbar_set_fmpq ⟨3, 2⟩) 7 0 5 ∈
      (qqbar_div ratOps (qqbar_set_fmpq ⟨3, 2⟩) (qqbar_set_fmpq ⟨5, 7⟩)).calls ∧
    (0 : ℤ) = 0 ∧ (5 : ℤ) ≠ 0 :=
  have hx := wf_set_fmpq ⟨3, 2⟩ (by norm_num) (by decide)
  have hy := wf_set_fmpq ⟨5, 7⟩ (by norm_num) (by decide)
  have hm : Call.qqbar_scalar_op (qqbar_set_fmpq ⟨3, 2⟩) 7 0 5 ∈
      (qqbar_div ratOps (qqbar_set_fmpq ⟨3, 2⟩) (qqbar_set_fmpq ⟨5, 7⟩)).calls := by
    rw [three_halves_div_calls]
    exact List.mem_singleton.mpr rfl
  have h := qqbar_div_scalar_args ratOps _ _ hx.1 hy.1 _ 7 0 5 hm
  ⟨hx.1, hy.1, hm, h.1, h.2.1⟩

/-! ## The fractions of the radical branch are canonical -/

theorem content_replicate (n : ℕ) (c : ℤ) :
    content (List.replicate n 0 ++ [c]) = c.natAbs := by
  induction n with
  | zero => simp [content]
  | succ n ih =>
    rw [List.replicate_succ, List.cons_append]
    have : content (0 :: (List.replicate n 0 ++ [c])) =
        Nat.gcd (0 : ℤ).natAbs (content (List.replicate n 0 ++ [c])) := rfl
    rw [this, ih]
    simp

theorem content_binomial (n : ℕ) (c0 cd : ℤ) :
    content (c0 :: (List.replicate n 0 ++ [cd])) = Nat.gcd c0.natAbs cd.natAbs := by
  have : content (c0 :: (List.replicate n 0 ++ [cd])) =
      Nat.gcd c0.natAbs (content (List.replicate n 0 ++ [cd])) := rfl
  rw [this, content_replicate]

theorem radical_fraction (x : qqbar) (h2 : 2 ≤ x.poly.length) (hc : content x.poly = 1)
    (hl : 0 < QQBAR_COEFFS x (qqbar_degree x)) (hm : middle_is_zero x = true)
    (h0 : QQBAR_COEFFS x 0 < 0) (k : ℕ) :
    0 < -QQBAR_COEFFS x 0 ∧
    Int.gcd (-QQBAR_COEFFS x 0) (QQBAR_COEFFS x (qqbar_degree x)) = 1 ∧
    0 < (fmpq_pow_si ⟨-QQBAR_COEFFS x 0, QQBAR_COEFFS x (qqbar_degree x)⟩ k).den ∧
    Int.gcd (fmpq_pow_si ⟨-QQBAR_COEFFS x 0, QQBAR_COEFFS x (qqbar_degree x)⟩ k).num
      (fmpq_pow_si ⟨-QQBAR_COEFFS x 0, QQBAR_COEFFS x (qqbar_degree x)⟩ k).den = 1 ∧
    0 < (fmpq_pow_si ⟨-QQBAR_COEFFS x 0, QQBAR_COEFFS x (qqbar_degree x)⟩ k).toRat := by
  have hshape := poly_of_middle_zero x h2 hm
  have hg : Int.gcd (-QQBAR_COEFFS x 0) (QQBAR_COEFFS x (qqbar_degree x)) = 1 := by
    rw [hshape, content_binomial] at hc
    rw [Int.gcd, Int.natAbs_neg]
    exact hc
  have hn : 0 < -QQBAR_COEFFS x 0 := by omega
  refine ⟨hn, hg, ?_, ?_, ?_⟩
  · exact pow_pos hl k
  · simp only [fmpq_pow_si]
    rw [Int.gcd, Int.natAbs_pow, Int.natAbs_pow]
    exact Nat.Coprime.pow k k hg
  · rw [fmpq_pow_si_toRat]
    apply pow_pos
    simp only [fmpq.toRat]
    have a1 : (0 : ℚ) < ((-QQBAR_COEFFS x 0 : ℤ) : ℚ) := by exact_mod_cast hn
    have a2 : (0 : ℚ) < ((QQBAR_COEFFS x (qqbar_degree x) : ℤ) : ℚ) := by exact_mod_cast hl
    exact div_pos a1 a2

/-- C15: in the radical branch the fractions `t = (-c0)/cd` of `x` and `u` of
`y` are written without canonicalisation; for operands with content 1,
positive leading coefficient, zero middle coefficients and `c0 < 0`, each is
already canonical (positive denominator, gcd 1) and strictly positive, its
powers are canonical, and the rational handed to the root extraction is a
strictly positive canonical rational. -/
theorem radical_fractions_canonical (x y : qqbar)
    (hx2 : 2 ≤ x.poly.length) (hxc : content x.poly = 1)
    (hxl : 0 < QQBAR_COEFFS x (qqbar_degree x)) (hxm : middle_is_zero x = true)
    (hx0 : QQBAR_COEFFS x 0 < 0)
    (hy2 : 2 ≤ y.poly.length) (hyc : content y.poly = 1)
    (hyl : 0 < QQBAR_COEFFS y (qqbar_degree y)) (hym : middle_is_zero y = true)
    (hy0 : QQBAR_COEFFS y 0 < 0) :
    (0 < QQBAR_COEFFS x (qqbar_degree x) ∧
      Int.gcd (-QQBAR_COEFFS x 0) (QQBAR_COEFFS x (qqbar_degree x)) = 1 ∧
      0 < (⟨-QQBAR_COEFFS x 0, QQBAR_COEFFS x (qqbar_degree x)⟩ : fmpq).toRat) ∧
    (0 < QQBAR_COEFFS y (qqbar_degree y) ∧
      Int.gcd (-QQBAR_COEFFS y 0) (QQBAR_COEFFS y (qqbar_degree y)) = 1 ∧
      0 < (⟨-QQBAR_COEFFS y 0, QQBAR_COEFFS y (qqbar_degree y)⟩ : fmpq).toRat) ∧
    (∀ k, 0 < (fmpq_pow_si ⟨-QQBAR_COEFFS x 0, QQBAR_COEFFS x (qqbar_degree x)⟩ k).den ∧
      Int.gcd (fmpq_pow_si ⟨-QQBAR_COEFFS x 0, QQBAR_COEFFS x (qqbar_degree x)⟩ k).num
        (fmpq_pow_si ⟨-QQBAR_COEFFS x 0, QQBAR_COEFFS x (qqbar_degree x)⟩ k).den = 1) ∧
    (∀ k, 0 < (fmpq_pow_si ⟨-QQBAR_COEFFS y 0, QQBAR_COEFFS y (qqbar_degree y)⟩ k).den ∧
      Int.gcd (fmpq_pow_si ⟨-QQBAR_COEFFS y 0, QQBAR_COEFFS y (qqbar_degree y)⟩ k).num
        (fmpq_pow_si ⟨-QQBAR_COEFFS y 0, QQBAR_COEFFS y (qqbar_degree y)⟩ k).den = 1) ∧
    (0 < (radical_t x y).den ∧ Int.gcd (radical_t x y).num (radical_t x y).den = 1 ∧
      0 < (radical_t x y).toRat) := by
  have hx1 := radical_fraction x hx2 hxc hxl hxm hx0 1
  have hy1 := radical_fraction y hy2 hyc hyl hym hy0 1
  have hxk := radical_fraction x hx2 hxc hxl hxm hx0
    (qqbar_degree y / n_gcd (qqbar_degree x) (qqbar_degree y))
  have hyk := radical_fraction y hy2 hyc hyl hym hy0
    (qqbar_degree x / n_gcd (qqbar_degree x) (qqbar_degree y))
  refine ⟨⟨hxl, hx1.2.1, ?_⟩, ⟨hyl, hy1.2.1, ?_⟩,
    fun k => ⟨(radical_fraction x hx2 hxc hxl hxm hx0 k).2.2.1,
      (radical_fraction x hx2 hxc hxl hxm hx0 k).2.2.2.1⟩,
    fun k => ⟨(radical_fraction y hy2 hyc hyl hym hy0 k).2.2.1,
      (radical_fraction y hy2 hyc hyl hym hy0 k).2.2.2.1⟩, ?_⟩
  · have := hx1.2.2.2.2
    rwa [fmpq_pow_si_toRat, pow_one] at this
  · have := hy1.2.2.2.2
    rwa [fmpq_pow_si_toRat, pow_one] at this
  · have hcan := fmpq_div_canonical
      (fmpq_pow_si ⟨-QQBAR_COEFFS x 0, QQBAR_COEFFS x (qqbar_degree x)⟩
        (qqbar_degree y / n_gcd (qqbar_degree x) (qqbar_degree y)))
      (fmpq_pow_si ⟨-QQBAR_COEFFS y 0, QQBAR_COEFFS y (qqbar_degree y)⟩
        (qqbar_degree x / n_gcd (qqbar_degree x) (qqbar_degree y)))
    refine ⟨hcan.1, hcan.2, ?_⟩
    unfold radical_t
    rw [fmpq_div_toRat]
    exact div_pos hxk.2.2.2.2 hyk.2.2.2.2

/-- Witness for C15: `sqrt 8` and `sqrt 2`, with the fractions `8/1`, `2/1` and
the quotient `4/1`. -/
theorem radical_fractions_canonical_witness :
    (content sqrt8.poly = 1 ∧ 0 < QQBAR_COEFFS sqrt8 (qqbar_degree sqrt8) ∧
      middle_is_zero sqrt8 = true ∧ QQBAR_COEFFS sqrt8 0 < 0) ∧
    (content sqrt2.poly = 1 ∧ 0 < QQBAR_COEFFS sqrt2 (qqbar_degree sqrt2) ∧
      middle_is_zero sqrt2 = true ∧ QQBAR_COEFFS sqrt2 0 < 0) ∧
    radical_t sqrt8 sqrt2 = ⟨4, 1⟩ ∧
    (0 < (radical_t sqrt8 sqrt2).den ∧
      Int.gcd (radical_t sqrt8 sqrt2).num (radical_t sqrt8 sqrt2).den = 1 ∧
      0 < (radical_t sqrt8 sqrt2).toRat) :=
  ⟨⟨by decide, by decide, by decide, by decide⟩,
    ⟨by decide, by decide, by decide, by decide⟩, by decide!,
    (radical_fractions_canonical sqrt8 sqrt2 (by decide) (by decide) (by decide)
      (by decide) (by decide) (by decide) (by decide) (by decide) (by decide)
      (by decide)).2.2.2.2⟩

/-! ## The scalar wrappers divide by, or divide, the injected operand -/

theorem Store.write_other (s : Store) (p q : ℕ) (v : qqbar) (h : q ≠ p) :
    (s.write p v) q = s q := by
  simp [Store.write, Function.update_noteq h]

theorem div_st_temp_right (O : QqbarOps) (res x t : ℕ) (v : qqbar) (s : Store)
    (ht : t ≠ x) :
    (qqbar_div_st O res x t (s.write t v)).map (fun s' => s' res) =
      (qqbar_div O (s x) v).res := by
  rw [qqbar_div_st_eq, Store.write_same, Store.write_other _ _ _ _ ht.symm]
  cases (qqbar_div O (s x) v).res with
  | none => rfl
  | some r => simp [Store.write_same]

theorem div_st_temp_left (O : QqbarOps) (res y t : ℕ) (v : qqbar) (s : Store)
    (ht : t ≠ y) :
    (qqbar_div_st O res t y (s.write t v)).map (fun s' => s' res) =
      (qqbar_div O v (s y)).res := by
  rw [qqbar_div_st_eq, Store.write_same, Store.write_other _ _ _ _ ht.symm]
  cases (qqbar_div O v (s y)).res with
  | none => rfl
  | some r => simp [Store.write_same]

theorem qqbar_div_zero_divisor_aux (O : QqbarOps) (x y : qqbar)
    (h : qqbar_is_zero y = true) : qqbar_div O x y = ⟨[Call.flint_abort], none⟩ := by
  rcases qqbar_div_cases O x y with c | c | c | c | c | c | c | c | c | c
  · exact c.2
  all_goals rw [c.1] at h; cases h

theorem qqbar_div_zero_dividend_aux (O : QqbarOps) (x y : qqbar)
    (hy : qqbar_is_zero y = false) (hx : qqbar_is_zero x = true) :
    (qqbar_div O x y).res = some qqbar_zero := by
  rcases qqbar_div_cases O x y with c | c | c | c | c | c | c | c | c | c
  · rw [c.1] at hy; cases hy
  · rw [c.2.2]
  all_goals rw [c.2.1] at hx; cases hx

/-- C16: each scalar wrapper, run with its local `t` at an address other than
that of the operand `p`, leaves in `res` what `qqbar_div` computes on the
injected operand, the operand order preserved; hence `qqbar_div_ui` and
`qqbar_div_si` by the word 0 end in the division-by-zero abort for every `x`
(the run of `qqbar_div` is the single call `flint_abort`, nothing is
returned), and `qqbar_ui_div` of the word 0 by a nonzero `y` leaves zero. -/
theorem qqbar_div_wrappers (O : QqbarOps) (res p t : ℕ) (s : Store) (ht : t ≠ p)
    (q : fmpq) (n : ℤ) (u : ℕ) (i : ℤ) :
    ((qqbar_div_fmpq O res p q t s).map (fun s' => s' res) =
        (qqbar_div O (s p) (qqbar_set_fmpq q)).res ∧
      (qqbar_div_fmpz O res p n t s).map (fun s' => s' res) =
        (qqbar_div O (s p) (qqbar_set_fmpz n)).res ∧
      (qqbar_div_ui O res p u t s).map (fun s' => s' res) =
        (qqbar_div O (s p) (qqbar_set_ui u)).res ∧
      (qqbar_div_si O res p i t s).map (fun s' => s' res) =
        (qqbar_div O (s p) (qqbar_set_si i)).res) ∧
    ((qqbar_fmpq_div O res q p t s).map (fun s' => s' res) =
        (qqbar_div O (qqbar_set_fmpq q) (s p)).res ∧
      (qqbar_fmpz_div O res n p t s).map (fun s' => s' res) =
        (qqbar_div O (qqbar_set_fmpz n) (s p)).res ∧
      (qqbar_ui_div O res u p t s).map (fun s' => s' res) =
        (qqbar_div O (qqbar_set_ui u) (s p)).res ∧
      (qqbar_si_div O res i p t s).map (fun s' => s' res) =
        (qqbar_div O (qqbar_set_si i) (s p)).res) ∧
    (qqbar_div_ui O res p 0 t s = none ∧
      qqbar_div O (s p) (qqbar_set_ui 0) = ⟨[Call.flint_abort], none⟩ ∧
      qqbar_div_si O res p 0 t s = none ∧
      qqbar_div O (s p) (qqbar_set_si 0) = ⟨[Call.flint_abort], none⟩ ∧
      (qqbar_is_zero (s p) = true ∨
        (qqbar_ui_div O res 0 p t s).map (fun s' => s' res) = some qqbar_zero)) := by
  refine ⟨⟨div_st_temp_right O res p t _ s ht, div_st_temp_right O res p t _ s ht,
    div_st_temp_right O res p t _ s ht, div_st_temp_right O res p t _ s ht⟩,
    ⟨div_st_temp_left O res p t _ s ht, div_st_temp_left O res p t _ s ht,
    div_st_temp_left O res p t _ s ht, div_st_temp_left O res p t _ s ht⟩,
    ?_, ?_, ?_, ?_, ?_⟩
  · have hz : qqbar_is_zero (qqbar_set_ui 0) = true := by decide
    have := div_st_temp_right O res p t (qqbar_set_ui 0) s ht
    rw [qqbar_div_zero_divisor_aux O (s p) _ hz] at this
    simpa [qqbar_div_ui] using this
  · exact qqbar_div_zero_divisor_aux O (s p) _ (by decide)
  · have hz : qqbar_is_zero (qqbar_set_si 0) = true := by decide
    have := div_st_temp_right O res p t (qqbar_set_si 0) s ht
    rw [qqbar_div_zero_divisor_aux O (s p) _ hz] at this
    simpa [qqbar_div_si] using this
  · exact qqbar_div_zero_divisor_aux O (s p) _ (by decide)
  · cases hp : qqbar_is_zero (s p)
    · right
      have hz : qqbar_is_zero (qqbar_set_ui 0) = true := by decide
      have := div_st_temp_left O res p t (qqbar_set_ui 0) s ht
      rw [qqbar_div_zero_dividend_aux O _ (s p) hp hz] at this
      exact this
    · left; rfl

/-- Witness for C16: operand `3/2` in cell 1, local in cell 2, result in cell
0, scalars `5/7`, `5`, `5`, `-5`. -/
theorem qqbar_div_wrappers_witness :
    (2 : ℕ) ≠ 1 ∧
    (qqbar_div_fmpq ratOps 0 1 ⟨5, 7⟩ 2 (fun _ => qqbar_set_fmpq ⟨3, 2⟩)).map
        (fun s' => s' 0) =
      (qqbar_div ratOps (qqbar_set_fmpq ⟨3, 2⟩) (qqbar_set_fmpq ⟨5, 7⟩)).res ∧
    (qqbar_si_div ratOps 0 (-5) 1 2 (fun _ => qqbar_set_fmpq ⟨3, 2⟩)).map
        (fun s' => s' 0) =
      (qqbar_div ratOps (qqbar_set_si (-5)) (qqbar_set_fmpq ⟨3, 2⟩)).res ∧
    qqbar_div_ui ratOps 0 1 0 2 (fun _ => qqbar_set_fmpq ⟨3, 2⟩) = none ∧
    qqbar_div_si ratOps 0 1 0 2 (fun _ => qqbar_set_fmpq ⟨3, 2⟩) = none :=
  have h := qqbar_div_wrappers ratOps 0 1 2 (fun _ => qqbar_set_fmpq ⟨3, 2⟩)
    (by decide) ⟨5, 7⟩ 5 5 (-5)
  ⟨by decide, h.1.1, h.2.1.2.2.2, h.2.2.1, h.2.2.2.2.1⟩

/-! ## `fexpr_call1` lays out header, function, argument -/

theorem flint_mpn_copyi_length (out : List ℕ) (off : ℕ) (src : List ℕ) (n : ℕ) :
    (flint_mpn_copyi out off src n).length = out.length := by
  induction n with
  | zero => rfl
  | succ n ih =>
    unfold flint_mpn_copyi at ih ⊢
    rw [List.range_succ, List.foldl_append]
    simp only [List.foldl_cons, List.foldl_nil, List.length_set]
    exact ih

theorem flint_mpn_copyi_getElem? (out : List ℕ) (off : ℕ) (src : List ℕ) (n j : ℕ) :
    (flint_mpn_copyi out off src n)[j]? =
      if off ≤ j ∧ j < off + n ∧ j < out.length then some (src.getD (j - off) 0)
      else out[j]? := by
  induction n with
  | zero =>
    rw [if_neg (by omega)]
    rfl
  | succ n ih =>
    have hl := flint_mpn_copyi_length out off src n
    unfold flint_mpn_copyi at ih hl ⊢
    rw [List.range_succ, List.foldl_append]
    simp only [List.foldl_cons, List.foldl_nil]
    rw [List.getElem?_set, ih, hl]
    by_cases h1 : off + n = j
    · subst h1
      by_cases h2 : off + n < out.length
      · simp [h2]
      · simp [h2]
        omega
    · rw [if_neg h1]
      by_cases h3 : off ≤ j ∧ j < off + n ∧ j < out.length
      · rw [if_pos h3, if_pos ⟨h3.1, by omega, h3.2.2⟩]
      · rw [if_neg h3, if_neg (by omega)]

theorem fexpr_header_decode (B C k : ℕ) (hC : C < 2 ^ B) :
    (C ||| (k <<< B)) % 2 ^ B = C ∧ (C ||| (k <<< B)) >>> B = k ∧
      C ||| (k <<< B) = 2 ^ B * k + C := by
  have h : C ||| (k <<< B) = 2 ^ B * k + C := by
    rw [Nat.lor_comm, Nat.shiftLeft_eq, Nat.mul_comm, Nat.mul_add_lt_is_or hC]
  rw [h, Nat.shiftRight_eq_div_pow]
  refine ⟨?_, ?_, rfl⟩
  · rw [Nat.mul_add_mod, Nat.mod_eq_of_lt hC]
  · rw [Nat.mul_add_div (Nat.two_pow_pos B), Nat.div_eq_of_lt hC]
    simp

theorem some_getD_of_lt (l : List ℕ) (i : ℕ) (h : i < l.length) :
    some (l.getD i 0) = l[i]? := by
  rw [List.getD_eq_getElem?_getD, List.getElem?_eq_getElem h]
  rfl

theorem fexpr_call1_words (buf fw xw : List ℕ) (h m n : ℕ) (hm : m ≤ fw.length)
    (hn : n ≤ xw.length) (hb : 1 + m + n ≤ buf.length) :
    flint_mpn_copyi (flint_mpn_copyi (buf.set 0 h) 1 fw m) (1 + m) xw n =
      h :: (fw.take m ++ xw.take n) ++ buf.drop (1 + m + n) := by
  apply List.ext_getElem?
  intro j
  rw [flint_mpn_copyi_getElem?, flint_mpn_copyi_getElem?, flint_mpn_copyi_length,
    List.length_set, List.getElem?_set]
  by_cases h0 : j = 0
  · subst h0
    rw [if_neg (by omega), if_neg (by omega), if_pos rfl, if_pos (by omega)]
    simp
  · obtain ⟨i, rfl⟩ : ∃ i, j = i + 1 := ⟨j - 1, by omega⟩
    rw [List.cons_append, List.getElem?_cons_succ]
    by_cases h1 : i < m
    · rw [if_neg (by omega), if_pos ⟨by omega, by omega, by omega⟩]
      rw [List.append_assoc, List.getElem?_append_left
        (by rw [List.length_take, Nat.min_eq_left hm]; exact h1),
        List.getElem?_take_of_lt h1]
      have e : i + 1 - 1 = i := by omega
      rw [e]
      exact some_getD_of_lt fw i (by omega)
    · by_cases h2 : i < m + n
      · rw [if_pos ⟨by omega, by omega, by omega⟩]
        rw [List.append_assoc, List.getElem?_append_right
          (by rw [List.length_take, Nat.min_eq_left hm]; omega),
          List.length_take, Nat.min_eq_left hm, List.getElem?_append_left
          (by rw [List.length_take, Nat.min_eq_left hn]; omega),
          List.getElem?_take_of_lt (by omega)]
        have e : i + 1 - (1 + m) = i - m := by omega
        rw [e]
        exact some_getD_of_lt xw (i - m) (by omega)
      · rw [if_neg (by omega), if_neg (by omega), if_neg (by omega)]
        rw [List.getElem?_append_right
          (by rw [List.length_append, List.length_take, List.length_take,
            Nat.min_eq_left hm, Nat.min_eq_left hn]; omega),
          List.length_append, List.length_take, List.length_take,
          Nat.min_eq_left hm, Nat.min_eq_left hn, List.getElem?_drop]
        congr 1
        omega

/-- C17: for expressions `f` and `x1` of sizes `m` and `n` words, in objects
distinct from `res`, with a one-word header, `fexpr_call1` leaves in the first
`1 + m + n` words of `res` the header
`FEXPR_TYPE_CALL1 | ((1 + m + n) << FEXPR_TYPE_BITS)`, then the `m` words of
`f` in order, then the `n` words of `x1` in order, and touches no later word;
when the tag fits the type bits and the size fits the bits left in the word,
the header is stored unwrapped and decodes to type `CALL1` and size
`1 + m + n`. -/
theorem fexpr_call1_layout (E : FexprEnv) (res f x1 : fexpr) (m n : ℕ)
    (hH : E.FEXPR_HEADER_SIZE = 1)
    (hm : E.fexpr_size f = m) (hn : E.fexpr_size x1 = n)
    (hf : m ≤ f.data.length) (hx : n ≤ x1.data.length)
    (hfit : 1 + m + n ≤ (E.fexpr_fit_size res (1 + m + n)).data.length)
    (hB : E.FEXPR_TYPE_BITS ≤ 64)
    (hC : E.FEXPR_TYPE_CALL1 < 2 ^ E.FEXPR_TYPE_BITS)
    (hs : 1 + m + n < 2 ^ (64 - E.FEXPR_TYPE_BITS)) :
    (fexpr_call1 E res f x1).data.take (1 + m + n) =
        (E.FEXPR_TYPE_CALL1 ||| ((1 + m + n) <<< E.FEXPR_TYPE_BITS)) ::
          (f.data.take m ++ x1.data.take n) ∧
      ((fexpr_call1 E res f x1).data.take (1 + m + n)).length = 1 + m + n ∧
      (fexpr_call1 E res f x1).data.drop (1 + m + n) =
        (E.fexpr_fit_size res (1 + m + n)).data.drop (1 + m + n) ∧
      fexpr_header_type E ((fexpr_call1 E res f x1).data.headD 0) = E.FEXPR_TYPE_CALL1 ∧
      fexpr_header_size E ((fexpr_call1 E res f x1).data.headD 0) = 1 + m + n := by
  obtain ⟨d1, d2, d3⟩ :=
    fexpr_header_decode E.FEXPR_TYPE_BITS E.FEXPR_TYPE_CALL1 (1 + m + n) hC
  have hw : (E.FEXPR_TYPE_CALL1 ||| ((1 + m + n) <<< E.FEXPR_TYPE_BITS)) % 2 ^ 64 =
      E.FEXPR_TYPE_CALL1 ||| ((1 + m + n) <<< E.FEXPR_TYPE_BITS) := by
    apply Nat.mod_eq_of_lt
    rw [d3]
    have e : 2 ^ 64 = 2 ^ E.FEXPR_TYPE_BITS * 2 ^ (64 - E.FEXPR_TYPE_BITS) := by
      rw [← pow_add]
      congr 1
      omega
    have h1 : 2 ^ E.FEXPR_TYPE_BITS * (1 + m + n + 1) ≤
        2 ^ E.FEXPR_TYPE_BITS * 2 ^ (64 - E.FEXPR_TYPE_BITS) :=
      Nat.mul_le_mul_left _ hs
    rw [e]
    calc 2 ^ E.FEXPR_TYPE_BITS * (1 + m + n) + E.FEXPR_TYPE_CALL1
        < 2 ^ E.FEXPR_TYPE_BITS * (1 + m + n) + 2 ^ E.FEXPR_TYPE_BITS :=
          Nat.add_lt_add_left hC _
      _ = 2 ^ E.FEXPR_TYPE_BITS * (1 + m + n + 1) := by ring
      _ ≤ _ := h1
  have hdata : (fexpr_call1 E res f x1).data =
      (E.FEXPR_TYPE_CALL1 ||| ((1 + m + n) <<< E.FEXPR_TYPE_BITS)) ::
        (f.data.take m ++ x1.data.take n) ++
        (E.fexpr_fit_size res (1 + m + n)).data.drop (1 + m + n) := by
    have := fexpr_call1_words (E.fexpr_fit_size res (1 + m + n)).data f.data x1.data
      (E.FEXPR_TYPE_CALL1 ||| ((1 + m + n) <<< E.FEXPR_TYPE_BITS)) m n hf hx hfit
    rw [← this]
    simp only [fexpr_call1, hH, hm, hn, hw, Nat.zero_add]
  have hlen : ((E.FEXPR_TYPE_CALL1 ||| ((1 + m + n) <<< E.FEXPR_TYPE_BITS)) ::
      (f.data.take m ++ x1.data.take n)).length = 1 + m + n := by
    rw [List.length_cons, List.length_append, List.length_take, List.length_take,
      Nat.min_eq_left hf, Nat.min_eq_left hx]
    omega
  refine ⟨?_, ?_, ?_, ?_, ?_⟩
  · rw [hdata, List.take_left' hlen]
  · rw [hdata, List.take_left' hlen, hlen]
  · rw [hdata, List.drop_left' hlen]
  · rw [hdata]
    exact d1
  · rw [hdata]
    exact d2

/-- Witness for C17: with the header constants of calcium, the call of the
symbol word `33` on the small integer word `48` is the three words
`56, 33, 48`, and the size read back from the header is `3`, also by
`fexpr_size`. -/
theorem fexpr_call1_layout_witness :
    (fexpr_call1 fexprEnv ⟨[]⟩ ⟨[33]⟩ ⟨[48]⟩).data.take 3 = [56, 33, 48] ∧
      fexpr_header_type fexprEnv
        ((fexpr_call1 fexprEnv ⟨[]⟩ ⟨[33]⟩ ⟨[48]⟩).data.headD 0) = 8 ∧
      fexpr_header_size fexprEnv
        ((fexpr_call1 fexprEnv ⟨[]⟩ ⟨[33]⟩ ⟨[48]⟩).data.headD 0) = 3 ∧
      fexprEnv.fexpr_size (fexpr_call1 fexprEnv ⟨[]⟩ ⟨[33]⟩ ⟨[48]⟩) = 3 :=
  have h := fexpr_call1_layout fexprEnv ⟨[]⟩ ⟨[33]⟩ ⟨[48]⟩ 1 1 rfl (by decide) (by decide)
    (by decide) (by decide) (by decide) (by decide) (by decide) (by decide)
  ⟨h.1, h.2.2.2.1, h.2.2.2.2, by decide⟩

/-! ## The radical index is the least common multiple -/

theorem radical_f_eq_word (x y : qqbar) :
    radical_f x y = radical_f_word (qqbar_degree x) (qqbar_degree y) := rfl

/-- C18: with `g = gcd(d, e)`, whenever `(d/g) e` is below `2^64` the index
`f` computed in unsigned machine words is the least common multiple of `d`
and `e`, the exponents satisfy `d (e/g) = f` and `e (d/g) = f`, and so a
number with `x^d = a` has `x^f = a^(e/g)` and a number with `y^e = b` has
`y^f = b^(d/g)`. -/
theorem radical_index_lcm {M : Type} [Monoid M] (d e : ℕ)
    (hf : d / Nat.gcd d e * e < 2 ^ 64) (x y a b : M) (hx : x ^ d = a) (hy : y ^ e = b) :
    radical_f_word d e = d / Nat.gcd d e * e ∧
    radical_f_word d e = Nat.lcm d e ∧
    d * (e / n_gcd d e) = radical_f_word d e ∧
    e * (d / n_gcd d e) = radical_f_word d e ∧
    x ^ radical_f_word d e = a ^ (e / n_gcd d e) ∧
    y ^ radical_f_word d e = b ^ (d / n_gcd d e) := by
  have hw : radical_f_word d e = d / Nat.gcd d e * e := by
    unfold radical_f_word n_gcd
    exact Nat.mod_eq_of_lt hf
  have h1 := (radical_index d e).1
  have h2 := (radical_index d e).2
  have hl : d / Nat.gcd d e * e = Nat.lcm d e := by
    rw [h1, Nat.lcm, Nat.mul_div_assoc d (Nat.gcd_dvd_right d e)]
  refine ⟨hw, by rw [hw, hl], by rw [hw, h1]; rfl, by rw [hw, h2]; rfl, ?_, ?_⟩
  · rw [hw, h1, pow_mul, hx]
    rfl
  · rw [hw, h2, pow_mul, hy]
    rfl

/-- Witness for C18: `d = 4`, `e = 6`, where `g = 2` and `f = 12`, with
`x = 2` and `y = 3`. -/
theorem radical_index_lcm_witness :
    4 / Nat.gcd 4 6 * 6 < 2 ^ 64 ∧ (2 : ℕ) ^ 4 = 16 ∧ (3 : ℕ) ^ 6 = 729 ∧
    radical_f_word 4 6 = 12 ∧ Nat.lcm 4 6 = 12 ∧
    (2 : ℕ) ^ radical_f_word 4 6 = 16 ^ (6 / n_gcd 4 6) ∧
    (3 : ℕ) ^ radical_f_word 4 6 = 729 ^ (4 / n_gcd 4 6) :=
  have h := radical_index_lcm 4 6 (by decide) (2 : ℕ) 3 16 729 (by decide) (by decide)
  ⟨by decide, by decide, by decide, by decide, by decide, h.2.2.2.2.1, h.2.2.2.2.2⟩

end Calcium
